import Mathlib

/-!
Verification model of the jsonrepair engine.

The repository's visible sources are the C API test suite and example
programs; the repair engine itself (tolerant tokenizer, recovery parser,
emitter, stream driver) lives in a library that is not part of the
excerpt.  The definitions below therefore model the engine from the
specification, at the level of Unicode code points (`Char`); positions
are code-point offsets into the input.  The C API tests and examples fix
the observable behaviour the model must reproduce (expected outputs of
`jsonrepair_repair` and friends on concrete inputs).
-/

namespace JsonRepair

/-- Character list; the model works on decoded code points. -/
abbrev Chars := List Char

/-- Opening curly brace character. -/
def lbrace : Char := Char.ofNat 123

/-- Closing curly brace character. -/
def rbrace : Char := Char.ofNat 125

/-- ASCII decimal digit test. -/
def isDigitCh (c : Char) : Bool := 48 ≤ c.toNat && c.toNat ≤ 57

/-- ASCII hexadecimal digit test. -/
def isHexCh (c : Char) : Bool :=
  isDigitCh c || (97 ≤ c.toNat && c.toNat ≤ 102) || (65 ≤ c.toNat && c.toNat ≤ 70)

/-- Strict JSON whitespace: space, tab, line feed, carriage return. -/
def isWsCh (c : Char) : Bool := c = ' ' || c = '\t' || c = '\n' || c = '\r'

/-- Modelled from the spec: whitespace the tolerant pipeline always elides;
a leading byte-order mark is consumed, so U+FEFF counts as trivia whitespace. -/
def isTriviaWs (c : Char) : Bool := isWsCh c || c.toNat = 0xFEFF

/-- Modelled from the spec: first character of an unquoted identifier,
`[A-Za-z_$]`. -/
def isIdentStart (c : Char) : Bool :=
  (65 ≤ c.toNat && c.toNat ≤ 90) || (97 ≤ c.toNat && c.toNat ≤ 122) || c = '_' || c = '$'

/-- Modelled from the spec: continuation character of an unquoted identifier,
`[A-Za-z0-9_$]`. -/
def isIdentCh (c : Char) : Bool := isIdentStart c || isDigitCh c

/-- Lower-case hexadecimal digit for a value below 16. -/
def hexDigitCh (n : Nat) : Char :=
  if n < 10 then Char.ofNat (48 + n) else Char.ofNat (87 + n)

/-- Numeric value of a hexadecimal digit character. -/
def hexVal (c : Char) : Nat :=
  if isDigitCh c then c.toNat - 48
  else if 97 ≤ c.toNat && c.toNat ≤ 102 then c.toNat - 87
  else c.toNat - 55

/-- Four-digit hexadecimal rendering of a value below 0x10000. -/
def hex4 (n : Nat) : Chars :=
  [hexDigitCh (n / 4096 % 16), hexDigitCh (n / 256 % 16),
   hexDigitCh (n / 16 % 16), hexDigitCh (n % 16)]

/-- Decimal digit character for a value below 10. -/
def digitCh (n : Nat) : Char := Char.ofNat (48 + n)

/-- Decimal rendering of a natural number, most significant digit first. -/
def natDigits (n : Nat) : Chars :=
  if _h : n < 10 then [digitCh n]
  else natDigits (n / 10) ++ [digitCh (n % 10)]
termination_by n
decreasing_by exact Nat.div_lt_self (by omega) (by omega)

/-- Value tree of the repair engine: the intermediate representation between
the recovery parser and the emitter.  Object member order is the order of
appearance; duplicate keys are kept.  Numbers carry their canonical lexeme. -/
inductive JValue : Type where
  | null : JValue
  | bool (b : Bool) : JValue
  | num (lex : String) : JValue
  | str (s : String) : JValue
  | arr (elems : List JValue) : JValue
  | obj (members : List (String × JValue)) : JValue
deriving Repr

mutual

/-- Structural equality test for values; recursion through the nested lists. -/
def jbeq : JValue → JValue → Bool
  | .null, .null => true
  | .bool a, .bool b => a == b
  | .num a, .num b => a == b
  | .str a, .str b => a == b
  | .arr a, .arr b => jbeqList a b
  | .obj a, .obj b => jbeqMems a b
  | _, _ => false

/-- Structural equality test for value lists. -/
def jbeqList : List JValue → List JValue → Bool
  | [], [] => true
  | x :: xs, y :: ys => jbeq x y && jbeqList xs ys
  | _, _ => false

/-- Structural equality test for member lists. -/
def jbeqMems : List (String × JValue) → List (String × JValue) → Bool
  | [], [] => true
  | (k₁, v₁) :: xs, (k₂, v₂) :: ys => k₁ == k₂ && jbeq v₁ v₂ && jbeqMems xs ys
  | _, _ => false

end

mutual

/-- The structural equality test decides equality of values. -/
theorem jbeq_iff : ∀ a b : JValue, jbeq a b = true ↔ a = b
  | .null, .null => by simp [jbeq]
  | .bool _, .bool _ => by simp [jbeq]
  | .num _, .num _ => by simp [jbeq]
  | .str _, .str _ => by simp [jbeq]
  | .arr x, .arr y => by simp [jbeq, jbeqList_iff x y]
  | .obj x, .obj y => by simp [jbeq, jbeqMems_iff x y]
  | .null, .bool _ | .null, .num _ | .null, .str _ | .null, .arr _ | .null, .obj _
  | .bool _, .null | .bool _, .num _ | .bool _, .str _ | .bool _, .arr _ | .bool _, .obj _
  | .num _, .null | .num _, .bool _ | .num _, .str _ | .num _, .arr _ | .num _, .obj _
  | .str _, .null | .str _, .bool _ | .str _, .num _ | .str _, .arr _ | .str _, .obj _
  | .arr _, .null | .arr _, .bool _ | .arr _, .num _ | .arr _, .str _ | .arr _, .obj _
  | .obj _, .null | .obj _, .bool _ | .obj _, .num _ | .obj _, .str _ | .obj _, .arr _ => by
    simp [jbeq]

/-- The list equality test decides equality of value lists. -/
theorem jbeqList_iff : ∀ xs ys : List JValue, jbeqList xs ys = true ↔ xs = ys
  | [], [] => by simp [jbeqList]
  | x :: xs, y :: ys => by simp [jbeqList, jbeq_iff x y, jbeqList_iff xs ys]
  | [], _ :: _ => by simp [jbeqList]
  | _ :: _, [] => by simp [jbeqList]

/-- The member-list equality test decides equality of member lists. -/
theorem jbeqMems_iff : ∀ xs ys : List (String × JValue), jbeqMems xs ys = true ↔ xs = ys
  | [], [] => by simp [jbeqMems]
  | (k₁, v₁) :: xs, (k₂, v₂) :: ys => by
    simp [jbeqMems, jbeq_iff v₁ v₂, jbeqMems_iff xs ys, and_assoc]
  | [], _ :: _ => by simp [jbeqMems]
  | _ :: _, [] => by simp [jbeqMems]

end

instance : DecidableEq JValue := fun a b =>
  decidable_of_iff (jbeq a b = true) (jbeq_iff a b)

/-- Modelled from the spec: the options record of the engine (§6).  Default
values reproduce the behaviour the test suite observes through
`jsonrepair_repair` with no options: `test_complex_repair` shows that bare
`True` and `undefined` are converted by default, and `example_error_handling`
shows that truncated input fails by default. -/
structure Options : Type where
  ensure_ascii : Bool := false
  allow_python_keywords : Bool := true
  tolerate_hash_comments : Bool := false
  fenced_code_blocks : Bool := false
  repair_undefined : Bool := true
  normalize_js_nonfinite : Bool := true
  number_tolerance_leading_dot : Bool := true
  number_tolerance_trailing_dot : Bool := true
  python_style_separators : Bool := false
  aggressive_truncation_fix : Bool := false
  stream_ndjson_aggregate : Bool := false
deriving Repr, DecidableEq

/-- The default options, used by `jsonrepair_repair`. -/
def defaultOptions : Options := {}

/-- Modelled from the spec: error kinds of §7, surfaced as integer codes with
`OK` = 0. -/
inductive ErrKind : Type where
  | ok : ErrKind
  | invalidInput : ErrKind
  | invalidUtf8 : ErrKind
  | unterminatedString : ErrKind
  | unterminatedContainer : ErrKind
  | unexpectedToken : ErrKind
  | numericOverflow : ErrKind
  | internalError : ErrKind
deriving Repr, DecidableEq

/-- Modelled from the spec: the structured error record with kind, position
(code-point offset into the original input) and human message. -/
structure ErrRec : Type where
  code : ErrKind := .ok
  position : Nat := 0
  message : Option String := none
deriving Repr, DecidableEq

/-- A zero-initialised error record, as the C tests build with `= {0}`. -/
def zeroRec : ErrRec := {}

/-- Member separator of the emitter: a bare comma, or comma-space when
`python_style_separators` is set. -/
def sepComma (o : Options) : Chars := if o.python_style_separators then [',', ' '] else [',']

/-- Key separator of the emitter: a bare colon, or colon-space when
`python_style_separators` is set. -/
def sepColon (o : Options) : Chars := if o.python_style_separators then [':', ' '] else [':']

/-- Modelled from the spec: string-character escaping of the emitter (§4.5).
Quotes and backslashes are escaped, control characters below 0x20 become
4-digit u-escapes, and when `ensure_ascii` is set every code point at or
above 0x80 becomes a u-escape (a surrogate pair from 0x10000 up). -/
def escCharJ (ascii : Bool) (c : Char) : Chars :=
  if c = '"' then ['\\', '"']
  else if c = '\\' then ['\\', '\\']
  else if c.toNat < 32 then '\\' :: 'u' :: hex4 c.toNat
  else if ascii && 128 ≤ c.toNat then
    if c.toNat < 65536 then '\\' :: 'u' :: hex4 c.toNat
    else
      ('\\' :: 'u' :: hex4 (55296 + (c.toNat - 65536) / 1024)) ++
        ('\\' :: 'u' :: hex4 (56320 + (c.toNat - 65536) % 1024))
  else [c]

/-- Escaped body of a string, character by character. -/
def escBody (ascii : Bool) : Chars → Chars
  | [] => []
  | c :: cs => escCharJ ascii c ++ escBody ascii cs

/-- Emission of a string value: double quotes around the escaped body. -/
def escStr (ascii : Bool) (s : String) : Chars := '"' :: (escBody ascii s.data ++ ['"'])

mutual

/-- Modelled from the spec: the normaliser / emitter (§4.5).  Writes the
strict-JSON text of a value with the configured separators and escaping. -/
def emitVal (o : Options) : JValue → Chars
  | .null => "null".data
  | .bool b => if b then "true".data else "false".data
  | .num lex => lex.data
  | .str s => escStr o.ensure_ascii s
  | .arr l => '[' :: (emitElems o l ++ [']'])
  | .obj ms => lbrace :: (emitMems o ms ++ [rbrace])

/-- Comma-separated emission of array elements. -/
def emitElems (o : Options) : List JValue → Chars
  | [] => []
  | [v] => emitVal o v
  | v :: vs => emitVal o v ++ sepComma o ++ emitElems o vs

/-- Comma-separated emission of object members. -/
def emitMems (o : Options) : List (String × JValue) → Chars
  | [] => []
  | [(k, v)] => escStr o.ensure_ascii k ++ sepColon o ++ emitVal o v
  | (k, v) :: ms =>
    escStr o.ensure_ascii k ++ sepColon o ++ emitVal o v ++ sepComma o ++ emitMems o ms

end

/-- String form of the emitted text of a value. -/
def emitS (o : Options) (v : JValue) : String := String.mk (emitVal o v)

/-- Modelled from the spec: quote characters the tolerant tokenizer accepts
as string openers (double, single, smart double, smart single, guillemet,
full-width). -/
def isOpenQuote (c : Char) : Bool :=
  c = '"' || c = '\'' || c.toNat = 0x201C || c.toNat = 0x2018 ||
    c.toNat = 0xAB || c.toNat = 0xFF02

/-- Closing quote matching an opening quote, pairwise for smart quotes. -/
def closerFor (c : Char) : Char :=
  if c = '\'' then '\''
  else if c.toNat = 0x201C then Char.ofNat 0x201D
  else if c.toNat = 0x2018 then Char.ofNat 0x2019
  else if c.toNat = 0xAB then Char.ofNat 0xBB
  else if c.toNat = 0xFF02 then Char.ofNat 0xFF02
  else '"'

/-- Code point construction with the spec's substitution policy: an invalid
scalar value becomes U+FFFD. -/
def charFromNat (n : Nat) : Char :=
  if n.isValidChar then Char.ofNat n else Char.ofNat 0xFFFD

/-- High-surrogate test on a 16-bit escape value. -/
def isHighSur (n : Nat) : Bool := 0xD800 ≤ n && n < 0xDC00

/-- Low-surrogate test on a 16-bit escape value. -/
def isLowSur (n : Nat) : Bool := 0xDC00 ≤ n && n < 0xE000

/-- Value of four hexadecimal digit characters, most significant first. -/
def hex4Val (a b c d : Char) : Nat :=
  ((hexVal a * 16 + hexVal b) * 16 + hexVal c) * 16 + hexVal d

/-- Four hexadecimal digits at the start of the input, with the rest. -/
def hexQuadAt : Chars → Option (Nat × Chars)
  | a :: b :: c :: d :: rest =>
    if isHexCh a && isHexCh b && isHexCh c && isHexCh d then
      some (hex4Val a b c d, rest)
    else none
  | _ => none

/-- Whether the input is too short to hold the four digits of a u-escape, so
that more input could still complete it. -/
def hexQuadPoss (cs : Chars) : Bool := cs.length < 4

/-- A full low-surrogate u-escape at the start of the input, with the rest. -/
def lowSurAt : Chars → Option (Nat × Chars)
  | '\\' :: 'u' :: a :: b :: c :: d :: rest =>
    if isHexCh a && isHexCh b && isHexCh c && isHexCh d then
      let n := hex4Val a b c d
      if isLowSur n then some (n, rest) else none
    else none
  | _ => none

/-- Whether the input is too short to hold a full u-escape, so that more
input could still complete a low surrogate. -/
def lowSurPoss (cs : Chars) : Bool := cs.length < 6

/-- Single-character escape decoding; unknown escapes keep the character. -/
def escDecode (e : Char) : Char :=
  if e = 'n' then '\n'
  else if e = 't' then '\t'
  else if e = 'r' then '\r'
  else if e = 'b' then Char.ofNat 8
  else if e = 'f' then Char.ofNat 12
  else e

/-- Result of scanning a string body: closed with decoded content and rest,
or the end of the buffer was reached inside the string. -/
inductive StrScan : Type where
  | done (s : Chars) (rest : Chars) : StrScan
  | unterminated (s : Chars) : StrScan
deriving Repr, DecidableEq

theorem hexQuadAt_length {cs : Chars} {n : Nat} {rest : Chars}
    (h : hexQuadAt cs = some (n, rest)) : rest.length + 4 = cs.length := by
  match cs with
  | a :: b :: c :: d :: r =>
    unfold hexQuadAt at h
    split at h <;> simp_all
  | [] => simp [hexQuadAt] at h
  | [a] => simp [hexQuadAt] at h
  | [a, b] => simp [hexQuadAt] at h
  | [a, b, c] => simp [hexQuadAt] at h

theorem lowSurAt_length {cs : Chars} {n : Nat} {rest : Chars}
    (h : lowSurAt cs = some (n, rest)) : rest.length + 6 = cs.length := by
  unfold lowSurAt at h
  split at h
  case h_1 a b c d r =>
    dsimp at h
    split at h
    · split at h <;> simp_all
    · simp at h
  case h_2 => simp at h

/-- Modelled from the spec: the tolerant string scanner (§4.3).  It is called
after the opening quote, decodes the strict escapes plus u-escapes with
surrogate pairing (invalid surrogates substitute U+FFFD, per the default
substitution policy), keeps unknown escapes literally, accepts every raw
character other than the closing quote, and reports `unterminated` when the
buffer ends first. -/
def scanStr (q : Char) (acc : Chars) (cs : Chars) : StrScan :=
  match cs with
  | [] => .unterminated acc.reverse
  | c :: cs1 =>
    if c = q then .done acc.reverse cs1
    else if c = '\\' then
      match cs1 with
      | [] => .unterminated acc.reverse
      | e :: cs2 =>
        if e = 'u' then
          match h1 : hexQuadAt cs2 with
          | some (n, cs3) =>
            if isHighSur n then
              match h2 : lowSurAt cs3 with
              | some (n2, cs4) =>
                scanStr q (charFromNat (0x10000 + (n - 0xD800) * 1024 + (n2 - 0xDC00)) :: acc) cs4
              | none =>
                if lowSurPoss cs3 then .unterminated acc.reverse
                else scanStr q (Char.ofNat 0xFFFD :: acc) cs3
            else if isLowSur n then scanStr q (Char.ofNat 0xFFFD :: acc) cs3
            else scanStr q (charFromNat n :: acc) cs3
          | none =>
            if hexQuadPoss cs2 then .unterminated acc.reverse
            else scanStr q ('u' :: acc) cs2
        else scanStr q (escDecode e :: acc) cs2
    else scanStr q (c :: acc) cs1
termination_by cs.length
decreasing_by
  all_goals simp only [List.length_cons]
  all_goals first
    | omega
    | (have h3 := hexQuadAt_length h1; have h4 := lowSurAt_length h2; omega)
    | (have h3 := hexQuadAt_length h1; omega)

/-- Result of scanning an identifier: the lexeme and the rest, or the lexeme
reached the end of the buffer (it might extend with more input). -/
inductive IdScan : Type where
  | done (lex : Chars) (rest : Chars) : IdScan
  | more (lex : Chars) : IdScan
deriving Repr, DecidableEq

/-- Modelled from the spec: the unquoted-identifier scanner (§4.3),
`[A-Za-z_$][A-Za-z0-9_$]*`, greedy. -/
def scanIdent (cs : Chars) : IdScan :=
  let lex := cs.takeWhile isIdentCh
  let rest := cs.dropWhile isIdentCh
  if rest.isEmpty then .more lex else .done lex rest

/-- Rest of the input from the next line feed on; `none` when there is none. -/
def skipLine : Chars → Option Chars
  | [] => none
  | c :: cs => if c = '\n' then some (c :: cs) else skipLine cs

/-- Rest of the input after the next block-comment closer, scanning with a
flag that records whether the previous character was a star; `none` when the
comment is unclosed. -/
def skipBlockAux (sawStar : Bool) : Chars → Option Chars
  | [] => none
  | c :: cs => if sawStar && c = '/' then some cs else skipBlockAux (c = '*') cs

/-- Rest of the input after the next block-comment closer; `none` when the
comment is unclosed. -/
def skipBlock (cs : Chars) : Option Chars := skipBlockAux false cs

theorem skipLine_length {cs rest : Chars} (h : skipLine cs = some rest) :
    rest.length ≤ cs.length := by
  induction cs with
  | nil => simp [skipLine] at h
  | cons c cs ih =>
    unfold skipLine at h
    split at h
    · cases h; simp
    · have := ih h; simp; omega

theorem skipBlockAux_length {cs rest : Chars} :
    ∀ {b : Bool}, skipBlockAux b cs = some rest → rest.length ≤ cs.length := by
  induction cs with
  | nil => intro b h; simp [skipBlockAux] at h
  | cons c cs ih =>
    intro b h
    unfold skipBlockAux at h
    split at h
    · cases h; simp
    · have := ih h; simp; omega

theorem skipBlock_length {cs rest : Chars} (h : skipBlock cs = some rest) :
    rest.length ≤ cs.length := skipBlockAux_length h

/-- Modelled from the spec: trivia skipping of the pipeline — whitespace and
the byte-order mark always, line and block comments always, hash comments
when enabled (§4.2, §4.3).  With `atEof = false` (streaming), `none` means
the buffer ends inside possibly-unfinished trivia and more input is needed;
with `atEof = true` trivia runs to the end of the input. -/
def striv (o : Options) (atEof : Bool) (cs : Chars) : Option Chars :=
  match cs with
  | [] => some []
  | c :: cs1 =>
    if isTriviaWs c then striv o atEof cs1
    else if c = '/' then
      match cs1 with
      | [] => if atEof then some [c] else none
      | d :: cs2 =>
        if d = '/' then
          match h1 : skipLine cs2 with
          | some rest => striv o atEof rest
          | none => if atEof then some [] else none
        else if d = '*' then
          match h2 : skipBlock cs2 with
          | some rest => striv o atEof rest
          | none => if atEof then some [] else none
        else some (c :: d :: cs2)
    else if c = '#' && o.tolerate_hash_comments then
      match h3 : skipLine cs1 with
      | some rest => striv o atEof rest
      | none => if atEof then some [] else none
    else some (c :: cs1)
termination_by cs.length
decreasing_by
  all_goals simp only [List.length_cons]
  all_goals first
    | omega
    | (have h9 := skipLine_length h1; omega)
    | (have h9 := skipBlock_length h2; omega)
    | (have h9 := skipLine_length h3; omega)

/-- Result of a digit-run scan: digits collected with the rest, or the run
reached the end of the buffer and might extend with more input. -/
inductive DigScan : Type where
  | done (digs : Chars) (rest : Chars) : DigScan
  | more (digs : Chars) : DigScan
deriving Repr, DecidableEq

/-- Modelled from the spec: a run of decimal digits with underscores between
digits stripped (§4.3).  An underscore is consumed only when a digit
follows; an underscore at the end of the buffer leaves the run undecided. -/
def takeDigsU : Chars → DigScan
  | [] => .more []
  | c :: cs =>
    if isDigitCh c then
      match takeDigsU cs with
      | .done ds rest => .done (c :: ds) rest
      | .more ds => .more (c :: ds)
    else if c = '_' then
      if cs.isEmpty then .more []
      else if isDigitCh (cs.headD ' ') then takeDigsU cs
      else .done [] (c :: cs)
    else .done [] (c :: cs)

/-- A run of digits of an alternative base, without underscore support. -/
def takeBase (p : Char → Bool) : Chars → DigScan
  | [] => .more []
  | c :: cs =>
    if p c then
      match takeBase p cs with
      | .done ds rest => .done (c :: ds) rest
      | .more ds => .more (c :: ds)
    else .done [] (c :: cs)

/-- Octal digit test. -/
def isOctCh (c : Char) : Bool := 48 ≤ c.toNat && c.toNat ≤ 55

/-- Binary digit test. -/
def isBinCh (c : Char) : Bool := c = '0' || c = '1'

/-- Value of a digit run in the given base. -/
def baseVal (base : Nat) (ds : Chars) : Nat := ds.foldl (fun a c => a * base + hexVal c) 0

/-- Leading zeros of an integer part removed, keeping a single zero. -/
def stripZeros (l : Chars) : Chars :=
  let d := l.dropWhile (fun c => c = '0')
  if d.isEmpty then ['0'] else d

/-- Modelled from the spec: canonical number lexeme construction (§4.5).  The
integer part gets a zero when empty (leading dot) and loses redundant leading
zeros; an empty fraction becomes `.0` (trailing dot); the exponent keeps its
letter, sign and digits as written. -/
def renderNum (neg : Bool) (ip : Chars) (fp : Option Chars)
    (ep : Option (Char × Option Char × Chars)) : Chars :=
  (if neg then ['-'] else []) ++
    (if ip.isEmpty then ['0'] else stripZeros ip) ++
    (match fp with
     | none => []
     | some ds => '.' :: (if ds.isEmpty then ['0'] else ds)) ++
    (match ep with
     | none => []
     | some (ec, sg, ds) => ec :: ((match sg with | none => [] | some s => [s]) ++ ds))

/-- Decimal lexeme of a converted base literal. -/
def renderBase (neg : Bool) (n : Nat) : Chars :=
  if neg then '-' :: natDigits n else natDigits n

/-- Result of a number scan: the canonical lexeme with the rest, or the end
of the buffer was reached while the number could still extend. -/
inductive NumScan : Type where
  | done (lex : Chars) (rest : Chars) : NumScan
  | more : NumScan
deriving Repr, DecidableEq

/-- Digit handling of the exponent stage, shared by the sign cases. -/
def scanExpDigs (m neg : Bool) (ip : Chars) (fp : Option Chars) (ec : Char)
    (sg : Option Char) (bt : Chars) (dscan : DigScan) : NumScan :=
  match dscan with
  | .more ds =>
    if m then
      if ds.isEmpty then .done (renderNum neg ip fp none) (ec :: bt)
      else .done (renderNum neg ip fp (some (ec, sg, ds))) []
    else .more
  | .done ds rest =>
    if ds.isEmpty then .done (renderNum neg ip fp none) (ec :: bt)
    else .done (renderNum neg ip fp (some (ec, sg, ds))) rest

/-- Exponent stage of the number scanner, entered after the exponent letter;
backtracks to before the letter when no exponent digits follow. -/
def scanExpTail (m : Bool) (neg : Bool) (ip : Chars) (fp : Option Chars)
    (ec : Char) (cs : Chars) : NumScan :=
  match cs with
  | s :: cs1 =>
    if s = '+' || s = '-' then scanExpDigs m neg ip fp ec (some s) cs (takeDigsU cs1)
    else scanExpDigs m neg ip fp ec none cs (takeDigsU cs)
  | [] => scanExpDigs m neg ip fp ec none [] (takeDigsU [])

/-- Fraction stage of the number scanner, entered after the dot.  An empty
fraction is completed to `.0` under `number_tolerance_trailing_dot` and
otherwise backtracks to before the dot. -/
def scanFracTail (o : Options) (m : Bool) (neg : Bool) (ip : Chars) (cs : Chars) : NumScan :=
  match takeDigsU cs with
  | .more ds =>
    if m then
      if ds.isEmpty then
        if o.number_tolerance_trailing_dot then .done (renderNum neg ip (some []) none) []
        else .done (renderNum neg ip none none) ('.' :: cs)
      else .done (renderNum neg ip (some ds) none) []
    else .more
  | .done ds rest =>
    if ds.isEmpty then
      if o.number_tolerance_trailing_dot then .done (renderNum neg ip (some []) none) rest
      else .done (renderNum neg ip none none) ('.' :: cs)
    else
      match rest with
      | e :: cs4 =>
        if e = 'e' || e = 'E' then scanExpTail m neg ip (some ds) e cs4
        else .done (renderNum neg ip (some ds) none) rest
      | [] => .done (renderNum neg ip (some ds) none) []

/-- Base-literal stage of the number scanner (`0x`, `0o`, `0b`); converts the
digits to a decimal lexeme and backtracks to the base letter when no digits
of the base follow. -/
def scanBaseTail (m : Bool) (neg : Bool) (p : Char → Bool) (base : Nat)
    (fallbackRest : Chars) (cs : Chars) : NumScan :=
  match takeBase p cs with
  | .more ds =>
    if m then
      if ds.isEmpty then .done (renderNum neg ['0'] none none) fallbackRest
      else .done (renderBase neg (baseVal base ds)) []
    else .more
  | .done ds rest =>
    if ds.isEmpty then .done (renderNum neg ['0'] none none) fallbackRest
    else .done (renderBase neg (baseVal base ds)) rest

/-- Integer stage of the number scanner: digits, then fraction, exponent or
base-literal continuation. -/
def scanIntTail (o : Options) (m : Bool) (neg : Bool) (cs : Chars) : NumScan :=
  match takeDigsU cs with
  | .more ds => if m then .done (renderNum neg ds none none) [] else .more
  | .done ds rest =>
    match rest with
    | r :: cs2 =>
      if r = '.' then scanFracTail o m neg ds cs2
      else if r = 'e' || r = 'E' then scanExpTail m neg ds none r cs2
      else if ds = ['0'] && (r = 'x' || r = 'X') then
        scanBaseTail m neg isHexCh 16 rest cs2
      else if ds = ['0'] && (r = 'o' || r = 'O') then
        scanBaseTail m neg isOctCh 8 rest cs2
      else if ds = ['0'] && (r = 'b' || r = 'B') then
        scanBaseTail m neg isBinCh 2 rest cs2
      else .done (renderNum neg ds none none) rest
    | [] => .done (renderNum neg ds none none) []

/-- Number body after the optional sign: a leading dot enters the fraction
stage directly, anything else the integer stage. -/
def scanNumBody (o : Options) (m : Bool) (neg : Bool) (cs : Chars) : NumScan :=
  match cs with
  | [] => if m then .done (renderNum neg ['0'] none none) [] else .more
  | c :: cs1 =>
    if c = '.' then scanFracTail o m neg [] cs1
    else scanIntTail o m neg (c :: cs1)

/-- Modelled from the spec: the tolerant number scanner (§4.3) — strict JSON
numbers plus optional leading and trailing dots, underscores between digits,
and hexadecimal, octal and binary literals converted to decimal.  With
`m = false` (streaming) a number that touches the end of the buffer is left
undecided. -/
def scanNumber (o : Options) (m : Bool) (cs : Chars) : NumScan :=
  match cs with
  | '-' :: cs1 => scanNumBody o m true cs1
  | _ => scanNumBody o m false cs

/-- Modelled from the spec: identifier-to-keyword resolution (§4.3).  The
strict keywords always map; Python keywords, `undefined` and the non-finite
literals map under their options; any other identifier in value position is
rescued as a bare string (the lenient value rule of §4.4). -/
def kwValue (o : Options) (lex : Chars) : JValue :=
  if lex = ['t', 'r', 'u', 'e'] then .bool true
  else if lex = ['f', 'a', 'l', 's', 'e'] then .bool false
  else if lex = ['n', 'u', 'l', 'l'] then .null
  else if o.allow_python_keywords && lex = ['T', 'r', 'u', 'e'] then .bool true
  else if o.allow_python_keywords && lex = ['F', 'a', 'l', 's', 'e'] then .bool false
  else if o.allow_python_keywords && lex = ['N', 'o', 'n', 'e'] then .null
  else if o.repair_undefined && lex = ['u', 'n', 'd', 'e', 'f', 'i', 'n', 'e', 'd'] then .null
  else if o.normalize_js_nonfinite &&
      (lex = ['N', 'a', 'N'] || lex = ['I', 'n', 'f', 'i', 'n', 'i', 't', 'y']) then .null
  else .str (String.mk lex)

/-- The characters of the literal `Infinity`. -/
def infChars : Chars := ['I', 'n', 'f', 'i', 'n', 'i', 't', 'y']

/-- Result of the recovery parser on a buffer: a value with the rest of the
input, the need for more input (streaming mode only), a raised error with
the remaining length at the offending position, or fuel exhaustion. -/
inductive PRes : Type where
  | ok (v : JValue) (rest : Chars) : PRes
  | more : PRes
  | fail (k : ErrKind) (rem : Nat) : PRes
  | out : PRes
deriving Repr, DecidableEq

mutual

/-- Modelled from the spec: the recovery parser's value production (§4.4).
Dispatches on the first non-trivia character: containers, tolerant strings,
identifiers (keywords or rescued bare strings), tolerant numbers, and the
sign-joined `-Infinity`.  With `m = false` the end of the buffer inside an
undecided value yields `more`; with `m = true` the end of the input closes
what aggressive truncation fixing allows and fails otherwise. -/
def pVal (o : Options) (m : Bool) : Nat → Chars → PRes
  | 0, _ => .out
  | Nat.succ f, cs =>
    match striv o m cs with
    | none => .more
    | some [] => if m then .fail .unexpectedToken 0 else .more
    | some (c :: cs1) =>
      if c = lbrace then pObj o m f [] cs1
      else if c = '[' then pArr o m f [] cs1
      else if isOpenQuote c then
        match scanStr (closerFor c) [] cs1 with
        | .done s rest => .ok (.str (String.mk s)) rest
        | .unterminated s =>
          if m then
            if o.aggressive_truncation_fix then .ok (.str (String.mk s)) []
            else .fail .unterminatedString 0
          else .more
      else if isIdentStart c then
        match scanIdent (c :: cs1) with
        | .done lex rest => .ok (kwValue o lex) rest
        | .more lex => if m then .ok (kwValue o lex) [] else .more
      else if isDigitCh c then
        match scanNumber o m (c :: cs1) with
        | .done lex rest => .ok (.num (String.mk lex)) rest
        | .more => .more
      else if c = '-' then
        match cs1 with
        | [] => if m then .fail .unexpectedToken 1 else .more
        | d :: cs2 =>
          if isDigitCh d || (d = '.' && o.number_tolerance_leading_dot) then
            match scanNumber o m (c :: d :: cs2) with
            | .done lex rest => .ok (.num (String.mk lex)) rest
            | .more => .more
          else if o.normalize_js_nonfinite && infChars.isPrefixOf (d :: cs2) then
            .ok .null ((d :: cs2).drop 8)
          else if o.normalize_js_nonfinite && (d :: cs2).isPrefixOf infChars && ¬m then
            .more
          else .fail .unexpectedToken (cs1.length + 1)
      else if c = '.' && o.number_tolerance_leading_dot then
        match cs1 with
        | [] => if m then .fail .unexpectedToken 1 else .more
        | d :: cs2 =>
          if isDigitCh d then
            match scanNumber o m (c :: d :: cs2) with
            | .done lex rest => .ok (.num (String.mk lex)) rest
            | .more => .more
          else .fail .unexpectedToken (cs1.length + 1)
      else .fail .unexpectedToken (cs1.length + 1)

/-- Modelled from the spec: the object frame of the recovery parser (§4.4).
Accepts quoted or unquoted keys, drops extra commas, closes on the matching
brace, treats a mismatched bracket as a close without consuming it, and at
end of input closes the frame under aggressive truncation fixing or raises
an unterminated-container error. -/
def pObj (o : Options) (m : Bool) : Nat → List (String × JValue) → Chars → PRes
  | 0, _, _ => .out
  | Nat.succ f, acc, cs =>
    match striv o m cs with
    | none => .more
    | some [] =>
      if m then
        if o.aggressive_truncation_fix then .ok (.obj acc.reverse) []
        else .fail .unterminatedContainer 0
      else .more
    | some (c :: cs1) =>
      if c = rbrace then .ok (.obj acc.reverse) cs1
      else if c = ']' then .ok (.obj acc.reverse) (c :: cs1)
      else if c = ',' then pObj o m f acc cs1
      else if isOpenQuote c then
        match scanStr (closerFor c) [] cs1 with
        | .done k rest => pKeyed o m f acc (String.mk k) rest
        | .unterminated k =>
          if m then
            if o.aggressive_truncation_fix then
              .ok (.obj ((String.mk k, .null) :: acc).reverse) []
            else .fail .unterminatedString 0
          else .more
      else if isIdentStart c then
        match scanIdent (c :: cs1) with
        | .done lex rest => pKeyed o m f acc (String.mk lex) rest
        | .more lex =>
          if m then
            if o.aggressive_truncation_fix then
              .ok (.obj ((String.mk lex, .null) :: acc).reverse) []
            else .fail .unterminatedContainer 0
          else .more
      else .fail .unexpectedToken (cs1.length + 1)

/-- Modelled from the spec: the state after an object key (§4.4).  A colon
introduces the member value; a missing colon is repaired virtually; a close
or comma gives the key a null value. -/
def pKeyed (o : Options) (m : Bool) : Nat → List (String × JValue) → String → Chars → PRes
  | 0, _, _, _ => .out
  | Nat.succ f, acc, k, cs =>
    match striv o m cs with
    | none => .more
    | some [] =>
      if m then
        if o.aggressive_truncation_fix then .ok (.obj ((k, .null) :: acc).reverse) []
        else .fail .unterminatedContainer 0
      else .more
    | some (c :: cs1) =>
      if c = ':' then pMemVal o m f acc k cs1
      else if c = rbrace then .ok (.obj ((k, .null) :: acc).reverse) cs1
      else if c = ']' then .ok (.obj ((k, .null) :: acc).reverse) (c :: cs1)
      else if c = ',' then pObj o m f ((k, .null) :: acc) cs1
      else pMemVal o m f acc k (c :: cs1)

/-- Modelled from the spec: the member-value state of an object frame (§4.4).
A close or comma here means the value is missing and null is filled in; at
end of input aggressive truncation fixing fills null and closes. -/
def pMemVal (o : Options) (m : Bool) : Nat → List (String × JValue) → String → Chars → PRes
  | 0, _, _, _ => .out
  | Nat.succ f, acc, k, cs =>
    match striv o m cs with
    | none => .more
    | some [] =>
      if m then
        if o.aggressive_truncation_fix then .ok (.obj ((k, .null) :: acc).reverse) []
        else .fail .unterminatedContainer 0
      else .more
    | some (c :: cs1) =>
      if c = rbrace then .ok (.obj ((k, .null) :: acc).reverse) cs1
      else if c = ']' then .ok (.obj ((k, .null) :: acc).reverse) (c :: cs1)
      else if c = ',' then pObj o m f ((k, .null) :: acc) cs1
      else
        match pVal o m f (c :: cs1) with
        | .ok v rest => pObj o m f ((k, v) :: acc) rest
        | r => r

/-- Modelled from the spec: the array frame of the recovery parser (§4.4).
Closes on the matching bracket, treats a mismatched brace as a close without
consuming it, drops extra commas, and otherwise parses an element. -/
def pArr (o : Options) (m : Bool) : Nat → List JValue → Chars → PRes
  | 0, _, _ => .out
  | Nat.succ f, acc, cs =>
    match striv o m cs with
    | none => .more
    | some [] =>
      if m then
        if o.aggressive_truncation_fix then .ok (.arr acc.reverse) []
        else .fail .unterminatedContainer 0
      else .more
    | some (c :: cs1) =>
      if c = ']' then .ok (.arr acc.reverse) cs1
      else if c = rbrace then .ok (.arr acc.reverse) (c :: cs1)
      else if c = ',' then pArr o m f acc cs1
      else
        match pVal o m f (c :: cs1) with
        | .ok v rest => pArr o m f (v :: acc) rest
        | r => r

end

theorem striv_le (o : Options) (m : Bool) :
    ∀ (cs rest : Chars), striv o m cs = some rest → rest.length ≤ cs.length
  | [], rest => by
    intro h
    simp [striv] at h
    simp [← h]
  | c :: cs1, rest => by
    intro h
    rw [striv.eq_def] at h
    dsimp only at h
    split at h
    · have := striv_le o m cs1 rest h
      simp
      omega
    · split at h
      · split at h
        · split at h
          · simp at h
            first | simp [h] | simp [← h]
          · simp at h
        · rename_i d cs2
          split at h
          · split at h
            · rename_i r1 h1
              have hb := skipLine_length h1
              have ha := striv_le o m r1 rest h
              simp
              omega
            · split at h
              · simp at h
                first | simp [h] | simp [← h]
              · simp at h
          · split at h
            · split at h
              · rename_i r1 h2
                have hb := skipBlock_length h2
                have ha := striv_le o m r1 rest h
                simp
                omega
              · split at h
                · simp at h
                  first | simp [h] | simp [← h]
                · simp at h
            · simp at h
              first | simp [h] | simp [← h]
      · split at h
        · split at h
          · rename_i r1 h3
            have hb := skipLine_length h3
            have ha := striv_le o m r1 rest h
            simp
            omega
          · split at h
            · simp at h
              first | simp [h] | simp [← h]
            · simp at h
        · simp at h
          first | simp [h] | simp [← h]
termination_by cs => cs.length
decreasing_by
  all_goals simp_all only [List.length_cons]
  all_goals omega

theorem takeWhile_append_stop {p : Char → Bool} {cs : Chars} (t : Chars)
    (h : cs.dropWhile p ≠ []) :
    (cs ++ t).takeWhile p = cs.takeWhile p ∧ (cs ++ t).dropWhile p = cs.dropWhile p ++ t := by
  induction cs with
  | nil => simp at h
  | cons c cs1 ih =>
    rw [List.cons_append]
    by_cases hp : p c
    · have h1 : List.dropWhile p cs1 ≠ [] := by simpa [List.dropWhile_cons, hp] using h
      obtain ⟨hA, hB⟩ := ih h1
      constructor
      · simp [List.takeWhile_cons, hp, hA]
      · simp [List.dropWhile_cons, hp, hB]
    · constructor
      · simp [List.takeWhile_cons, hp]
      · simp [List.dropWhile_cons, hp]

theorem takeWhile_dropWhile_length {p : Char → Bool} (cs : Chars) :
    (cs.takeWhile p).length + (cs.dropWhile p).length = cs.length := by
  induction cs with
  | nil => simp
  | cons c cs1 ih =>
    by_cases hp : p c <;> simp [List.takeWhile_cons, List.dropWhile_cons, hp] <;> omega

theorem scanIdent_done_eq {cs lex rest : Chars} (h : scanIdent cs = .done lex rest) :
    lex = cs.takeWhile isIdentCh ∧ rest = cs.dropWhile isIdentCh ∧ rest ≠ [] := by
  simp only [scanIdent] at h
  split at h
  · simp at h
  · rename_i hne
    cases h
    refine ⟨rfl, rfl, ?_⟩
    simpa [List.isEmpty_iff] using hne

theorem scanIdent_append {cs t lex rest : Chars} (h : scanIdent cs = .done lex rest) :
    scanIdent (cs ++ t) = .done lex (rest ++ t) := by
  obtain ⟨h1, h2, h3⟩ := scanIdent_done_eq h
  have hstop : cs.dropWhile isIdentCh ≠ [] := by rw [← h2]; exact h3
  obtain ⟨ht, hd⟩ := takeWhile_append_stop t hstop
  simp only [scanIdent]
  rw [ht, hd]
  simp [List.isEmpty_iff, hstop, h1, h2]

theorem takeDigsU_le : ∀ (cs ds rest : Chars), takeDigsU cs = .done ds rest →
    rest.length ≤ cs.length := by
  intro cs
  induction cs with
  | nil => intro ds rest h; simp [takeDigsU] at h
  | cons c cs1 ih =>
    intro ds rest h
    rw [takeDigsU.eq_def] at h
    dsimp only at h
    split at h
    · match hq : takeDigsU cs1 with
      | .done ds1 rest1 =>
        rw [hq] at h
        simp only [DigScan.done.injEq] at h
        obtain ⟨h1, h2⟩ := h
        have h3 := ih ds1 rest1 hq
        rw [← h2]
        simp
        omega
      | .more ds1 => rw [hq] at h; simp at h
    · split at h
      · split at h
        · simp at h
        · split at h
          · have := ih ds rest h
            simp
            omega
          · simp only [DigScan.done.injEq] at h
            obtain ⟨h1, h2⟩ := h
            simp [← h2]
      · simp only [DigScan.done.injEq] at h
        obtain ⟨h1, h2⟩ := h
        simp [← h2]

theorem takeDigsU_append : ∀ (cs t ds rest : Chars), takeDigsU cs = .done ds rest →
    takeDigsU (cs ++ t) = .done ds (rest ++ t) := by
  intro cs
  induction cs with
  | nil => intro t ds rest h; simp [takeDigsU] at h
  | cons c cs1 ih =>
    intro t ds rest h
    rw [takeDigsU.eq_def] at h
    dsimp only at h
    rw [List.cons_append, takeDigsU.eq_def]
    dsimp only
    split at h
    · rename_i hd
      rw [if_pos hd]
      match hq : takeDigsU cs1 with
      | .done ds1 rest1 =>
        rw [hq] at h
        simp only [DigScan.done.injEq] at h
        obtain ⟨h1, h2⟩ := h
        rw [ih t ds1 rest1 hq]
        rw [← h1, ← h2]
      | .more ds1 => rw [hq] at h; simp at h
    · rename_i hd
      rw [if_neg hd]
      split at h
      · rename_i hu
        rw [if_pos hu]
        split at h
        · simp at h
        · rename_i hne
          cases cs1 with
          | nil => simp at hne
          | cons d cs2 =>
            simp only [List.headD_cons] at *
            split at h
            · rename_i hd2
              have h9 := ih t ds rest h
              simp_all [List.cons_append]
            · rename_i hd2
              simp only [DigScan.done.injEq] at h
              obtain ⟨h1, h2⟩ := h
              simp [hd2, ← h1, ← h2]
      · rename_i hu
        rw [if_neg hu]
        simp only [DigScan.done.injEq] at h
        obtain ⟨h1, h2⟩ := h
        rw [← h1, ← h2]
        simp

theorem takeBase_le {p : Char → Bool} : ∀ (cs ds rest : Chars),
    takeBase p cs = .done ds rest → rest.length ≤ cs.length := by
  intro cs
  induction cs with
  | nil => intro ds rest h; simp [takeBase] at h
  | cons c cs1 ih =>
    intro ds rest h
    rw [takeBase.eq_def] at h
    dsimp only at h
    split at h
    · match hq : takeBase p cs1 with
      | .done ds1 rest1 =>
        rw [hq] at h
        simp only [DigScan.done.injEq] at h
        obtain ⟨h1, h2⟩ := h
        have h3 := ih ds1 rest1 hq
        rw [← h2]
        simp
        omega
      | .more ds1 => rw [hq] at h; simp at h
    · simp only [DigScan.done.injEq] at h
      obtain ⟨h1, h2⟩ := h
      simp [← h2]

theorem takeBase_append {p : Char → Bool} : ∀ (cs t ds rest : Chars),
    takeBase p cs = .done ds rest → takeBase p (cs ++ t) = .done ds (rest ++ t) := by
  intro cs
  induction cs with
  | nil => intro t ds rest h; simp [takeBase] at h
  | cons c cs1 ih =>
    intro t ds rest h
    rw [takeBase.eq_def] at h
    dsimp only at h
    rw [List.cons_append, takeBase.eq_def]
    dsimp only
    split at h
    · rename_i hp
      rw [if_pos hp]
      match hq : takeBase p cs1 with
      | .done ds1 rest1 =>
        rw [hq] at h
        simp only [DigScan.done.injEq] at h
        obtain ⟨h1, h2⟩ := h
        rw [ih t ds1 rest1 hq]
        rw [← h1, ← h2]
      | .more ds1 => rw [hq] at h; simp at h
    · rename_i hp
      rw [if_neg hp]
      simp only [DigScan.done.injEq] at h
      obtain ⟨h1, h2⟩ := h
      rw [← h1, ← h2]
      simp

theorem hexQuadAt_append {cs t : Chars} {n : Nat} {r : Chars}
    (h : hexQuadAt cs = some (n, r)) : hexQuadAt (cs ++ t) = some (n, r ++ t) := by
  match cs with
  | a :: b :: c :: d :: r1 =>
    simp only [hexQuadAt] at h
    split at h
    · rename_i hx
      simp only [List.cons_append, hexQuadAt, hx, if_pos]
      simp at h
      simp [h.1, ← h.2]
    · simp at h
  | [] => simp [hexQuadAt] at h
  | [a] => simp [hexQuadAt] at h
  | [a, b] => simp [hexQuadAt] at h
  | [a, b, c] => simp [hexQuadAt] at h

theorem hexQuadAt_none_append {cs t : Chars} (hl : 4 ≤ cs.length)
    (h : hexQuadAt cs = none) : hexQuadAt (cs ++ t) = none := by
  match cs with
  | a :: b :: c :: d :: r1 =>
    simp only [hexQuadAt] at h
    split at h
    · simp at h
    · rename_i hx
      simp only [List.cons_append, hexQuadAt]
      simp [hx]
  | [] => simp at hl
  | [a] => simp at hl
  | [a, b] => simp at hl
  | [a, b, c] => simp at hl

theorem lowSurAt_append {cs t : Chars} {n : Nat} {r : Chars}
    (h : lowSurAt cs = some (n, r)) : lowSurAt (cs ++ t) = some (n, r ++ t) := by
  match cs with
  | x1 :: x2 :: a :: b :: c :: d :: r1 =>
    rw [lowSurAt.eq_def] at h
    split at h
    · rename_i heq
      simp only [List.cons.injEq] at heq
      obtain ⟨f1, f2, f3, f4, f5, f6, f7⟩ := heq
      subst f1; subst f2; subst f3; subst f4; subst f5; subst f6; subst f7
      dsimp only at h
      split at h
      · rename_i hx
        split at h
        · rename_i hls
          simp only [Option.some.injEq, Prod.mk.injEq] at h
          obtain ⟨h1, h2⟩ := h
          subst h1
          simp only [List.cons_append]
          rw [lowSurAt.eq_def]
          dsimp only
          simp [hx, hls, ← h2]
        · simp at h
      · simp at h
    · simp at h
  | [] => simp [lowSurAt] at h
  | [x1] =>
    rw [lowSurAt.eq_def] at h
    split at h
    · rename_i heq; simp at heq
    · simp at h
  | [x1, x2] =>
    rw [lowSurAt.eq_def] at h
    split at h
    · rename_i heq; simp at heq
    · simp at h
  | [x1, x2, x3] =>
    rw [lowSurAt.eq_def] at h
    split at h
    · rename_i heq; simp at heq
    · simp at h
  | [x1, x2, x3, x4] =>
    rw [lowSurAt.eq_def] at h
    split at h
    · rename_i heq; simp at heq
    · simp at h
  | [x1, x2, x3, x4, x5] =>
    rw [lowSurAt.eq_def] at h
    split at h
    · rename_i heq; simp at heq
    · simp at h

theorem lowSurAt_none_append {cs t : Chars} (hl : 6 ≤ cs.length)
    (h : lowSurAt cs = none) : lowSurAt (cs ++ t) = none := by
  match cs with
  | x1 :: x2 :: a :: b :: c :: d :: r1 =>
    rw [lowSurAt.eq_def] at h
    simp only [List.cons_append]
    rw [lowSurAt.eq_def]
    split at h
    · rename_i heq
      simp only [List.cons.injEq] at heq
      obtain ⟨f1, f2, f3, f4, f5, f6, f7⟩ := heq
      subst f1; subst f2; subst f3; subst f4; subst f5; subst f6; subst f7
      dsimp only at h
      dsimp only
      split at h
      · rename_i hx
        split at h
        · simp at h
        · rename_i hls
          simp [hx, hls]
      · rename_i hx
        simp [hx]
    · rename_i hne
      split
      · rename_i a2 b2 c2 d2 r2 heq2
        simp only [List.cons.injEq] at heq2
        obtain ⟨f1, f2, f3, f4, f5, f6, f7⟩ := heq2
        exact (hne a b c d r1 (by rw [f1, f2])).elim
      · rfl
  | [] => simp at hl
  | [x1] => simp at hl
  | [x1, x2] => simp at hl
  | [x1, x2, x3] => simp at hl
  | [x1, x2, x3, x4] => simp at hl
  | [x1, x2, x3, x4, x5] => simp at hl

theorem scanStr_lt (q : Char) :
    ∀ (acc cs s rest : Chars), scanStr q acc cs = .done s rest → rest.length < cs.length
  | acc, [], s, rest => by intro h; simp [scanStr] at h
  | acc, c :: cs1, s, rest => by
    intro h
    rw [scanStr.eq_def] at h
    dsimp only at h
    split at h
    · simp only [StrScan.done.injEq] at h
      obtain ⟨h1, h2⟩ := h
      simp [← h2]
    · split at h
      · cases cs1 with
        | nil => simp at h
        | cons e cs2 =>
          dsimp only at h
          split at h
          · split at h
            · rename_i n cs3 h1
              have hb1 := hexQuadAt_length h1
              split at h
              · split at h
                · rename_i n2 cs4 h2
                  have hb2 := lowSurAt_length h2
                  have ih := scanStr_lt q _ _ _ _ h
                  simp only [List.length_cons] at *
                  omega
                · rename_i h2
                  split at h
                  · simp at h
                  · have ih := scanStr_lt q _ _ _ _ h
                    simp only [List.length_cons] at *
                    omega
              · split at h
                · have ih := scanStr_lt q _ _ _ _ h
                  simp only [List.length_cons] at *
                  omega
                · have ih := scanStr_lt q _ _ _ _ h
                  simp only [List.length_cons] at *
                  omega
            · rename_i h1
              split at h
              · simp at h
              · have ih := scanStr_lt q _ _ _ _ h
                simp only [List.length_cons] at *
                omega
          · have ih := scanStr_lt q _ _ _ _ h
            simp only [List.length_cons] at *
            omega
      · have ih := scanStr_lt q _ _ _ _ h
        simp only [List.length_cons] at *
        omega
termination_by acc cs s rest => cs.length
decreasing_by
  all_goals simp only [List.length_cons] at *
  all_goals omega

theorem scanStr_append (q : Char) :
    ∀ (acc cs t s rest : Chars), scanStr q acc cs = .done s rest →
      scanStr q acc (cs ++ t) = .done s (rest ++ t)
  | acc, [], t, s, rest => by intro h; simp [scanStr] at h
  | acc, c :: cs1, t, s, rest => by
    intro h
    rw [scanStr.eq_def] at h
    dsimp only at h
    rw [List.cons_append, scanStr.eq_def]
    dsimp only
    split at h
    · rename_i hq
      rw [if_pos hq]
      simp only [StrScan.done.injEq] at h
      obtain ⟨h1, h2⟩ := h
      rw [h1, h2]
    · rename_i hq
      rw [if_neg hq]
      split at h
      · rename_i hbs
        rw [if_pos hbs]
        cases cs1 with
        | nil => simp at h
        | cons e cs2 =>
          dsimp only at h
          simp only [List.cons_append]
          try dsimp only
          split at h
          · rename_i he
            rw [if_pos he]
            split at h
            · rename_i n cs3 h1
              have hb1 := hexQuadAt_length h1
              split
              · rename_i n' cs3' h1'
                rw [hexQuadAt_append h1] at h1'
                simp only [Option.some.injEq, Prod.mk.injEq] at h1'
                obtain ⟨g1, g2⟩ := h1'
                subst g1
                subst g2
                split at h
                · rename_i hhs
                  rw [if_pos hhs]
                  split at h
                  · rename_i n2 cs4 h2
                    have hb2 := lowSurAt_length h2
                    split
                    · rename_i n2' cs4' h2'
                      rw [lowSurAt_append h2] at h2'
                      simp only [Option.some.injEq, Prod.mk.injEq] at h2'
                      obtain ⟨g3, g4⟩ := h2'
                      subst g3
                      subst g4
                      exact scanStr_append q _ _ t _ _ h
                    · rename_i h2'
                      rw [lowSurAt_append h2] at h2'
                      simp at h2'
                  · rename_i h2
                    split at h
                    · simp at h
                    · rename_i hposs
                      have h6 : 6 ≤ cs3.length := by
                        simp [lowSurPoss] at hposs
                        omega
                      split
                      · rename_i n2' cs4' h2'
                        rw [lowSurAt_none_append h6 h2] at h2'
                        simp at h2'
                      · rename_i h2'
                        have hp2 : lowSurPoss (cs3 ++ t) = false := by
                          simp [lowSurPoss]
                          omega
                        rw [hp2]
                        simp only [Bool.false_eq_true, if_false]
                        exact scanStr_append q _ _ t _ _ h
                · rename_i hhs
                  rw [if_neg hhs]
                  split at h
                  · rename_i hls
                    rw [if_pos hls]
                    exact scanStr_append q _ _ t _ _ h
                  · rename_i hls
                    rw [if_neg hls]
                    exact scanStr_append q _ _ t _ _ h
              · rename_i h1'
                rw [hexQuadAt_append h1] at h1'
                simp at h1'
            · rename_i h1
              split at h
              · simp at h
              · rename_i hposs
                have h4 : 4 ≤ cs2.length := by
                  simp [hexQuadPoss] at hposs
                  omega
                split
                · rename_i n' cs3' h1'
                  rw [hexQuadAt_none_append h4 h1] at h1'
                  simp at h1'
                · rename_i h1'
                  have hp2 : hexQuadPoss (cs2 ++ t) = false := by
                    simp [hexQuadPoss]
                    omega
                  rw [hp2]
                  simp only [Bool.false_eq_true, if_false]
                  exact scanStr_append q _ _ t _ _ h
          · rename_i he
            rw [if_neg he]
            exact scanStr_append q _ _ t _ _ h
      · rename_i hbs
        rw [if_neg hbs]
        exact scanStr_append q _ _ t _ _ h
termination_by acc cs t s rest => cs.length
decreasing_by
  all_goals simp only [List.length_cons] at *
  all_goals omega

theorem takeDigsU_digit_le {c : Char} {cs ds rest : Chars} (hc : isDigitCh c = true)
    (h : takeDigsU (c :: cs) = .done ds rest) : rest.length ≤ cs.length := by
  rw [takeDigsU.eq_def] at h
  dsimp only at h
  rw [if_pos hc] at h
  match hq : takeDigsU cs with
  | .done ds1 rest1 =>
    rw [hq] at h
    simp only [DigScan.done.injEq] at h
    obtain ⟨h1, h2⟩ := h
    rw [← h2]
    exact takeDigsU_le cs ds1 rest1 hq
  | .more ds1 => rw [hq] at h; simp at h

theorem scanExpDigs_done_le {m neg : Bool} {ip : Chars} {fp : Option Chars} {ec : Char}
    {sg : Option Char} {bt : Chars} {dscan : DigScan} {lex rest : Chars}
    (h : scanExpDigs m neg ip fp ec sg bt dscan = .done lex rest) :
    rest = ec :: bt ∨ rest = [] ∨ ∃ ds, dscan = .done ds rest := by
  unfold scanExpDigs at h
  split at h
  · split at h
    · split at h
      · simp only [NumScan.done.injEq] at h
        exact Or.inl h.2.symm
      · simp only [NumScan.done.injEq] at h
        exact Or.inr (Or.inl h.2.symm)
    · simp at h
  · rename_i ds rest1
    split at h
    · simp only [NumScan.done.injEq] at h
      exact Or.inl h.2.symm
    · simp only [NumScan.done.injEq] at h
      exact Or.inr (Or.inr ⟨ds, by rw [h.2]⟩)

theorem scanExpTail_le {m neg : Bool} {ip : Chars} {fp : Option Chars} {ec : Char}
    {cs lex rest : Chars} (h : scanExpTail m neg ip fp ec cs = .done lex rest) :
    rest.length ≤ cs.length + 1 := by
  unfold scanExpTail at h
  split at h
  · rename_i s cs1
    split at h
    · rcases scanExpDigs_done_le h with h9 | h9 | ⟨ds, h9⟩
      · simp [h9]
      · simp [h9]
      · have := takeDigsU_le _ _ _ h9
        simp only [List.length_cons]
        omega
    · rcases scanExpDigs_done_le h with h9 | h9 | ⟨ds, h9⟩
      · simp [h9]
      · simp [h9]
      · have := takeDigsU_le _ _ _ h9
        simp only [List.length_cons] at this ⊢
        omega
  · rcases scanExpDigs_done_le h with h9 | h9 | ⟨ds, h9⟩
    · simp [h9]
    · simp [h9]
    · simp [takeDigsU] at h9

theorem scanFracTail_le {o : Options} {m neg : Bool} {ip : Chars}
    {cs lex rest : Chars} (h : scanFracTail o m neg ip cs = .done lex rest) :
    rest.length ≤ cs.length + 1 := by
  unfold scanFracTail at h
  split at h
  · rename_i ds hq
    split at h
    · split at h
      · split at h
        · simp only [NumScan.done.injEq] at h
          obtain ⟨h1, h2⟩ := h
          simp [← h2]
        · simp only [NumScan.done.injEq] at h
          obtain ⟨h1, h2⟩ := h
          simp [← h2]
      · simp only [NumScan.done.injEq] at h
        obtain ⟨h1, h2⟩ := h
        simp [← h2]
    · simp at h
  · rename_i ds rest3 hq
    have hle := takeDigsU_le _ _ _ hq
    split at h
    · split at h
      · simp only [NumScan.done.injEq] at h
        obtain ⟨h1, h2⟩ := h
        rw [← h2]
        omega
      · simp only [NumScan.done.injEq] at h
        obtain ⟨h1, h2⟩ := h
        simp [← h2]
    · split at h
      · rename_i e cs4 heq
        split at h
        · have := scanExpTail_le h
          simp only [List.length_cons] at hle
          omega
        · simp only [NumScan.done.injEq] at h
          obtain ⟨h1, h2⟩ := h
          rw [← h2]
          simp only [List.length_cons] at hle ⊢
          omega
      · simp only [NumScan.done.injEq] at h
        obtain ⟨h1, h2⟩ := h
        simp [← h2]

theorem scanBaseTail_le {m neg : Bool} {p : Char → Bool} {base : Nat}
    {fb cs lex rest : Chars} (h : scanBaseTail m neg p base fb cs = .done lex rest) :
    rest.length ≤ fb.length ∨ rest.length ≤ cs.length := by
  unfold scanBaseTail at h
  split at h
  · split at h
    · split at h
      · simp only [NumScan.done.injEq] at h
        obtain ⟨h1, h2⟩ := h
        simp [← h2]
      · simp only [NumScan.done.injEq] at h
        obtain ⟨h1, h2⟩ := h
        simp [← h2]
    · simp at h
  · rename_i ds rest1 hq
    have hle := takeBase_le _ _ _ hq
    split at h
    · simp only [NumScan.done.injEq] at h
      obtain ⟨h1, h2⟩ := h
      simp [← h2]
    · simp only [NumScan.done.injEq] at h
      obtain ⟨h1, h2⟩ := h
      rw [← h2]
      right
      exact hle

theorem scanIntTail_le {o : Options} {m neg : Bool} {cs lex rest : Chars}
    (h : scanIntTail o m neg cs = .done lex rest) : rest.length ≤ cs.length := by
  unfold scanIntTail at h
  split at h
  · split at h
    · simp only [NumScan.done.injEq] at h
      obtain ⟨h1, h2⟩ := h
      simp [← h2]
    · simp at h
  · rename_i ds rest1 hq
    have hle := takeDigsU_le _ _ _ hq
    split at h
    · rename_i r cs2 heq
      simp only [List.length_cons] at hle
      split at h
      · have := scanFracTail_le h
        omega
      · split at h
        · have := scanExpTail_le h
          omega
        · split at h
          · rcases scanBaseTail_le h with h9 | h9
            · simp only [List.length_cons] at h9
              omega
            · omega
          · split at h
            · rcases scanBaseTail_le h with h9 | h9
              · simp only [List.length_cons] at h9
                omega
              · omega
            · split at h
              · rcases scanBaseTail_le h with h9 | h9
                · simp only [List.length_cons] at h9
                  omega
                · omega
              · simp only [NumScan.done.injEq] at h
                obtain ⟨h1, h2⟩ := h
                rw [← h2]
                simp only [List.length_cons]
                omega
    · simp only [NumScan.done.injEq] at h
      obtain ⟨h1, h2⟩ := h
      simp [← h2]

theorem scanNumBody_le {o : Options} {m neg : Bool} {cs lex rest : Chars}
    (h : scanNumBody o m neg cs = .done lex rest) : rest.length ≤ cs.length := by
  unfold scanNumBody at h
  split at h
  · split at h
    · simp only [NumScan.done.injEq] at h
      obtain ⟨h1, h2⟩ := h
      simp [← h2]
    · simp at h
  · rename_i c cs1
    split at h
    · have := scanFracTail_le h
      simp only [List.length_cons]
      omega
    · exact scanIntTail_le h

theorem takeDigsU_digit_done_ne {c : Char} {cs ds rest : Chars} (hc : isDigitCh c = true)
    (h : takeDigsU (c :: cs) = .done ds rest) : ds ≠ [] := by
  rw [takeDigsU.eq_def] at h
  dsimp only at h
  rw [if_pos hc] at h
  match hq : takeDigsU cs with
  | .done ds1 rest1 => rw [hq] at h; simp at h; simp [← h.1]
  | .more ds1 => rw [hq] at h; simp at h

theorem takeDigsU_digit_more_ne {c : Char} {cs ds : Chars} (hc : isDigitCh c = true)
    (h : takeDigsU (c :: cs) = .more ds) : ds ≠ [] := by
  rw [takeDigsU.eq_def] at h
  dsimp only at h
  rw [if_pos hc] at h
  match hq : takeDigsU cs with
  | .done ds1 rest1 => rw [hq] at h; simp at h
  | .more ds1 => rw [hq] at h; simp at h; simp [← h]

theorem scanIntTail_digit_le {o : Options} {m neg : Bool} {c : Char} {cs1 lex rest : Chars}
    (hc : isDigitCh c = true) (h : scanIntTail o m neg (c :: cs1) = .done lex rest) :
    rest.length ≤ cs1.length := by
  unfold scanIntTail at h
  split at h
  · split at h
    · simp only [NumScan.done.injEq] at h
      obtain ⟨h1, h2⟩ := h
      simp [← h2]
    · simp at h
  · rename_i ds rest1 hq
    have hle := takeDigsU_digit_le hc hq
    split at h
    · rename_i r cs2 heq
      simp only [List.length_cons] at hle
      split at h
      · have := scanFracTail_le h
        omega
      · split at h
        · have := scanExpTail_le h
          omega
        · split at h
          · rcases scanBaseTail_le h with h9 | h9
            · simp only [List.length_cons] at h9
              omega
            · omega
          · split at h
            · rcases scanBaseTail_le h with h9 | h9
              · simp only [List.length_cons] at h9
                omega
              · omega
            · split at h
              · rcases scanBaseTail_le h with h9 | h9
                · simp only [List.length_cons] at h9
                  omega
                · omega
              · simp only [NumScan.done.injEq] at h
                obtain ⟨h1, h2⟩ := h
                rw [← h2]
                simp only [List.length_cons]
                omega
    · simp only [NumScan.done.injEq] at h
      obtain ⟨h1, h2⟩ := h
      simp [← h2]

theorem scanFracTail_digit_le {o : Options} {m neg : Bool} {ip : Chars} {d : Char}
    {cs2 lex rest : Chars} (hd : isDigitCh d = true)
    (h : scanFracTail o m neg ip (d :: cs2) = .done lex rest) :
    rest.length ≤ cs2.length + 1 := by
  unfold scanFracTail at h
  split at h
  · rename_i ds hq
    have hne := takeDigsU_digit_more_ne hd hq
    split at h
    · split at h
      · simp_all
      · simp only [NumScan.done.injEq] at h
        obtain ⟨h1, h2⟩ := h
        simp [← h2]
    · simp at h
  · rename_i ds rest3 hq
    have hne := takeDigsU_digit_done_ne hd hq
    have hle := takeDigsU_digit_le hd hq
    split at h
    · simp_all
    · split at h
      · rename_i e cs4 heq
        split at h
        · have := scanExpTail_le h
          simp only [List.length_cons] at hle
          omega
        · simp only [NumScan.done.injEq] at h
          obtain ⟨h1, h2⟩ := h
          rw [← h2]
          simp only [List.length_cons] at hle ⊢
          omega
      · simp only [NumScan.done.injEq] at h
        obtain ⟨h1, h2⟩ := h
        rw [← h2]
        omega

theorem scanNumber_digit_le {o : Options} {m : Bool} {c : Char} {cs1 lex rest : Chars}
    (hc : isDigitCh c = true) (h : scanNumber o m (c :: cs1) = .done lex rest) :
    rest.length ≤ cs1.length := by
  have hcm : c ≠ '-' := by
    intro e; rw [e] at hc; exact absurd hc (by decide)
  unfold scanNumber at h
  split at h
  · rename_i cs1' heq
    simp only [List.cons.injEq] at heq
    exact absurd heq.1 hcm
  · unfold scanNumBody at h
    split at h
    · rename_i heq
      simp at heq
    · rename_i c' cs1' heq
      simp only [List.cons.injEq] at heq
      obtain ⟨e1, e2⟩ := heq
      subst e1
      subst e2
      split at h
      · rename_i hdot
        rw [hdot] at hc
        exact absurd hc (by decide)
      · exact scanIntTail_digit_le hc h

theorem scanNumber_minus_le {o : Options} {m : Bool} {cs1 lex rest : Chars}
    (h : scanNumber o m ('-' :: cs1) = .done lex rest) : rest.length ≤ cs1.length := by
  unfold scanNumber at h
  split at h
  · rename_i cs1' heq
    simp only [List.cons.injEq] at heq
    obtain ⟨e1, e2⟩ := heq
    subst e2
    exact scanNumBody_le h
  · rename_i hne
    exact (hne cs1 rfl).elim

theorem scanNumber_dot_le {o : Options} {m : Bool} {d : Char} {cs2 lex rest : Chars}
    (hd : isDigitCh d = true) (h : scanNumber o m ('.' :: d :: cs2) = .done lex rest) :
    rest.length ≤ cs2.length + 1 := by
  unfold scanNumber at h
  split at h
  · rename_i cs1' heq
    simp at heq
  · unfold scanNumBody at h
    split at h
    · rename_i heq
      simp at heq
    · rename_i c' cs1' heq
      simp only [List.cons.injEq] at heq
      obtain ⟨e1, e2⟩ := heq
      subst e1
      subst e2
      split at h
      · exact scanFracTail_digit_le hd h
      · rename_i hne
        exact absurd rfl hne

set_option maxHeartbeats 2000000 in
theorem pSize (o : Options) (m : Bool) : ∀ f : Nat,
    (∀ cs v rest, pVal o m f cs = .ok v rest → rest.length < cs.length) ∧
    (∀ acc cs v rest, pObj o m f acc cs = .ok v rest → rest.length ≤ cs.length) ∧
    (∀ acc k cs v rest, pKeyed o m f acc k cs = .ok v rest → rest.length ≤ cs.length) ∧
    (∀ acc k cs v rest, pMemVal o m f acc k cs = .ok v rest → rest.length ≤ cs.length) ∧
    (∀ acc cs v rest, pArr o m f acc cs = .ok v rest → rest.length ≤ cs.length) := by
  intro f
  induction f with
  | zero =>
    exact ⟨fun cs v rest h => by simp [pVal] at h,
           fun acc cs v rest h => by simp [pObj] at h,
           fun acc k cs v rest h => by simp [pKeyed] at h,
           fun acc k cs v rest h => by simp [pMemVal] at h,
           fun acc cs v rest h => by simp [pArr] at h⟩
  | succ f ih =>
    obtain ⟨ihV, ihO, ihK, ihM, ihA⟩ := ih
    refine ⟨?_, ?_, ?_, ?_, ?_⟩
    · intro cs v rest h
      rw [pVal] at h
      split at h
      · simp at h
      · split at h <;> simp at h
      · rename_i c cs1 hst
        have hsl := striv_le o m cs _ hst
        simp only [List.length_cons] at hsl
        split at h
        · have := ihO _ _ _ _ h
          omega
        · split at h
          · have := ihA _ _ _ _ h
            omega
          · split at h
            · split at h
              · rename_i s2 rest2 hss
                have h9 := scanStr_lt _ _ _ _ _ hss
                simp only [PRes.ok.injEq] at h
                obtain ⟨e1, e2⟩ := h
                rw [← e2]
                omega
              · rename_i s2 hss
                split at h
                · split at h
                  · simp only [PRes.ok.injEq] at h
                    obtain ⟨e1, e2⟩ := h
                    rw [← e2]
                    simp only [List.length_nil]
                    omega
                  · simp at h
                · simp at h
            · split at h
              · split at h
                · rename_i lex2 rest2 hsi
                  obtain ⟨g1, g2, g3⟩ := scanIdent_done_eq hsi
                  simp only [PRes.ok.injEq] at h
                  obtain ⟨e1, e2⟩ := h
                  rw [← e2, g2]
                  rename_i hident _
                  have hcid : isIdentCh c = true := by simp [isIdentCh, hident]
                  rw [List.dropWhile_cons, if_pos hcid]
                  have h9 : (cs1.dropWhile isIdentCh).length ≤ cs1.length := by
                    have := @takeWhile_dropWhile_length isIdentCh cs1
                    omega
                  omega
                · rename_i lex2 hsi
                  split at h
                  · simp only [PRes.ok.injEq] at h
                    obtain ⟨e1, e2⟩ := h
                    rw [← e2]
                    simp only [List.length_nil]
                    omega
                  · simp at h
              · split at h
                · split at h
                  · rename_i hdig _ lex2 rest2 hsn
                    have h9 := scanNumber_digit_le hdig hsn
                    simp only [PRes.ok.injEq] at h
                    obtain ⟨e1, e2⟩ := h
                    rw [← e2]
                    omega
                  · simp at h
                · split at h
                  · split at h
                    · split at h <;> simp at h
                    · rename_i hmc hjunk d cs2
                      split at h
                      · split at h
                        · rename_i hgd _ lex2 rest2 hsn
                          rw [hmc] at hsn
                          have h9 := scanNumber_minus_le hsn
                          simp only [PRes.ok.injEq] at h
                          obtain ⟨e1, e2⟩ := h
                          rw [← e2]
                          simp only [List.length_cons] at h9 hsl
                          omega
                        · simp at h
                      · split at h
                        · simp only [PRes.ok.injEq] at h
                          obtain ⟨e1, e2⟩ := h
                          rw [← e2]
                          have h9 : ((d :: cs2).drop 8).length ≤ cs2.length + 1 := by
                            rw [List.length_drop]
                            simp only [List.length_cons]
                            omega
                          simp only [List.length_cons] at hsl
                          omega
                        · split at h <;> simp at h
                  · rename_i hdc0
                    cases cs1 with
                    | nil =>
                      dsimp only at h
                      cases m <;> split at h <;> simp at h
                    | cons d cs2 =>
                      dsimp only at h
                      split at h
                      · rename_i hdot1
                        split at h
                        · rename_i hgd1
                          split at h
                          · rename_i hj4 lex2 rest2 hsn
                            have hdc : c = '.' := by
                              simp only [Bool.and_eq_true, decide_eq_true_eq] at hdot1
                              exact hdot1.1
                            rw [hdc] at hsn
                            have h9 := scanNumber_dot_le hgd1 hsn
                            simp only [PRes.ok.injEq] at h
                            obtain ⟨e1, e2⟩ := h
                            rw [← e2]
                            simp only [List.length_cons] at hsl
                            omega
                          · simp at h
                        · simp at h
                      · simp at h
    · intro acc cs v rest h
      rw [pObj] at h
      split at h
      · simp at h
      · split at h
        · split at h
          · simp only [PRes.ok.injEq] at h
            obtain ⟨e1, e2⟩ := h
            rw [← e2]
            simp
          · simp at h
        · simp at h
      · rename_i c cs1 hst
        have hsl := striv_le o m cs _ hst
        simp only [List.length_cons] at hsl
        split at h
        · simp only [PRes.ok.injEq] at h
          obtain ⟨e1, e2⟩ := h
          rw [← e2]
          omega
        · split at h
          · simp only [PRes.ok.injEq] at h
            obtain ⟨e1, e2⟩ := h
            rw [← e2]
            simp only [List.length_cons]
            omega
          · split at h
            · have := ihO _ _ _ _ h
              omega
            · split at h
              · split at h
                · rename_i k2 rest2 hss
                  have h9 := scanStr_lt _ _ _ _ _ hss
                  have := ihK _ _ _ _ _ h
                  omega
                · rename_i k2 hss
                  split at h
                  · split at h
                    · simp only [PRes.ok.injEq] at h
                      obtain ⟨e1, e2⟩ := h
                      rw [← e2]
                      simp
                    · simp at h
                  · simp at h
              · split at h
                · split at h
                  · rename_i lex2 rest2 hsi
                    obtain ⟨g1, g2, g3⟩ := scanIdent_done_eq hsi
                    have h8 := @takeWhile_dropWhile_length isIdentCh (c :: cs1)
                    have := ihK _ _ _ _ _ h
                    rw [g2] at this
                    simp only [List.length_cons] at h8
                    omega
                  · rename_i lex2 hsi
                    split at h
                    · split at h
                      · simp only [PRes.ok.injEq] at h
                        obtain ⟨e1, e2⟩ := h
                        rw [← e2]
                        simp
                      · simp at h
                    · simp at h
                · simp at h
    · intro acc k cs v rest h
      rw [pKeyed] at h
      split at h
      · simp at h
      · split at h
        · split at h
          · simp only [PRes.ok.injEq] at h
            obtain ⟨e1, e2⟩ := h
            rw [← e2]
            simp
          · simp at h
        · simp at h
      · rename_i c cs1 hst
        have hsl := striv_le o m cs _ hst
        simp only [List.length_cons] at hsl
        split at h
        · have := ihM _ _ _ _ _ h
          omega
        · split at h
          · simp only [PRes.ok.injEq] at h
            obtain ⟨e1, e2⟩ := h
            rw [← e2]
            omega
          · split at h
            · simp only [PRes.ok.injEq] at h
              obtain ⟨e1, e2⟩ := h
              rw [← e2]
              simp only [List.length_cons]
              omega
            · split at h
              · have := ihO _ _ _ _ h
                omega
              · have := ihM _ _ _ _ _ h
                simp only [List.length_cons] at this
                omega
    · intro acc k cs v rest h
      rw [pMemVal] at h
      split at h
      · simp at h
      · split at h
        · split at h
          · simp only [PRes.ok.injEq] at h
            obtain ⟨e1, e2⟩ := h
            rw [← e2]
            simp
          · simp at h
        · simp at h
      · rename_i c cs1 hst
        have hsl := striv_le o m cs _ hst
        simp only [List.length_cons] at hsl
        split at h
        · simp only [PRes.ok.injEq] at h
          obtain ⟨e1, e2⟩ := h
          rw [← e2]
          omega
        · split at h
          · simp only [PRes.ok.injEq] at h
            obtain ⟨e1, e2⟩ := h
            rw [← e2]
            simp only [List.length_cons]
            omega
          · split at h
            · have := ihO _ _ _ _ h
              omega
            · split at h
              · rename_i v4 rest4 hpv
                have h9 := ihV _ _ _ hpv
                have := ihO _ _ _ _ h
                simp only [List.length_cons] at h9
                omega
              · rename_i r hne
                rw [h] at hne
                exact absurd rfl (by intro hcon; exact hne v rest hcon)
    · intro acc cs v rest h
      rw [pArr] at h
      split at h
      · simp at h
      · split at h
        · split at h
          · simp only [PRes.ok.injEq] at h
            obtain ⟨e1, e2⟩ := h
            rw [← e2]
            simp
          · simp at h
        · simp at h
      · rename_i c cs1 hst
        have hsl := striv_le o m cs _ hst
        simp only [List.length_cons] at hsl
        split at h
        · simp only [PRes.ok.injEq] at h
          obtain ⟨e1, e2⟩ := h
          rw [← e2]
          omega
        · split at h
          · simp only [PRes.ok.injEq] at h
            obtain ⟨e1, e2⟩ := h
            rw [← e2]
            simp only [List.length_cons]
            omega
          · split at h
            · have := ihA _ _ _ _ h
              omega
            · split at h
              · rename_i v4 rest4 hpv
                have h9 := ihV _ _ _ hpv
                have := ihA _ _ _ _ h
                simp only [List.length_cons] at h9
                omega
              · rename_i r hne
                rw [h] at hne
                exact absurd rfl (by intro hcon; exact hne v rest hcon)

/-- An error of the recovery parser: kind and remaining suffix length. -/
abbrev PErr := ErrKind × Nat

/-- Stray characters the top-level loop discards with a repair-log entry:
separators and closes with no open frame (§4.4). -/
def strayCh (c : Char) : Bool := c = ',' || c = ']' || c = rbrace

/-- Fuel budget for a buffer: ample for the recovery parser, whose state
transitions consume fuel at most three times as fast as input characters. -/
def fuelFor (cs : Chars) : Nat := 3 * cs.length + 8

/-- Modelled from the spec: the whole-input driver loop.  It parses as many
top-level values as the buffer holds, discarding stray separators, with the
end of the buffer treated as the end of the input. -/
def consumeB (o : Options) (F : Nat) (cs : Chars) : Except PErr (List JValue) :=
  match h0 : striv o true cs with
  | none => .ok []
  | some [] => .ok []
  | some (c :: r) =>
    if strayCh c then consumeB o F r
    else
      match hp : pVal o true F (c :: r) with
      | .ok v rest => (consumeB o F rest).map (fun vs => v :: vs)
      | .fail k rem => .error (k, rem)
      | .more => .error (.internalError, 0)
      | .out => .error (.internalError, 0)
termination_by cs.length
decreasing_by
  · have h1 := striv_le o true cs _ h0
    simp only [List.length_cons] at h1
    omega
  · have h1 := striv_le o true cs _ h0
    have h2 := (pSize o true F).1 _ _ _ hp
    simp only [List.length_cons] at h1 h2
    omega

/-- Modelled from the spec: the stream driver's consumption loop (§4.6).  It
parses complete top-level values off the front of the carry buffer; a value
still open at the end of the buffer stops the loop with the bytes kept, and
an unrecoverable error stops it with the failing suffix reported. -/
def consumeS (o : Options) (F : Nat) (cs : Chars) : List JValue × Option PErr × Chars :=
  match h0 : striv o false cs with
  | none => ([], none, cs)
  | some [] => ([], none, cs)
  | some (c :: r) =>
    if strayCh c then consumeS o F r
    else
      match hp : pVal o false F (c :: r) with
      | .ok v rest =>
        let t := consumeS o F rest
        (v :: t.1, t.2.1, t.2.2)
      | .more => ([], none, cs)
      | .fail k rem => ([], some (k, rem), c :: r)
      | .out => ([], some (.internalError, 0), c :: r)
termination_by cs.length
decreasing_by
  · have h1 := striv_le o false cs _ h0
    simp only [List.length_cons] at h1
    omega
  · have h1 := striv_le o false cs _ h0
    have h2 := (pSize o false F).1 _ _ _ hp
    simp only [List.length_cons] at h1 h2
    omega

/-- Index of the first triple-backtick fence. -/
def findFence : Chars → Option Nat
  | '`' :: '`' :: '`' :: _ => some 0
  | _ :: cs => (findFence cs).map (fun n => n + 1)
  | [] => none

/-- Modelled from the spec: fenced code block extraction (§4.2).  The first
fence opens after its info line; parsing runs to the matching closing fence
or the end of input.  Returns the content slice and its offset in the
original input, so error positions refer to the original input. -/
def fenceExtract (cs : Chars) : Chars × Nat :=
  match findFence cs with
  | none => (cs, 0)
  | some i =>
    let after := cs.drop (i + 3)
    match skipLine after with
    | none => ([], cs.length)
    | some r1 =>
      let content := r1.tail
      let start := i + 3 + (after.length - r1.length) + 1
      match findFence content with
      | some j => (content.take j, start)
      | none => (content, start)

/-- The structured error surfaced across the boundary: kind and position in
the original input. -/
structure RepErr : Type where
  kind : ErrKind
  pos : Nat
deriving Repr, DecidableEq

/-- Modelled from the spec: the single output document of a batch repair
(§8, no-trailing-garbage).  Several top-level values are wrapped into one
array; in NDJSON-aggregate mode the output is always one array; an input
with no value at all is an error. -/
def batchDoc (o : Options) (vs : List JValue) : Option JValue :=
  if o.stream_ndjson_aggregate then some (.arr vs)
  else
    match vs with
    | [] => none
    | [v] => some v
    | vs => some (.arr vs)

/-- Modelled from the spec: the one-shot repair pipeline — preprocessing,
recovery parse of the value sequence, emission of the single strict
document. -/
def repairCore (o : Options) (s : String) : Except RepErr String :=
  let pre := if o.fenced_code_blocks then fenceExtract s.data else (s.data, 0)
  match consumeB o (fuelFor pre.1) pre.1 with
  | .error (k, rem) => .error ⟨k, pre.2 + (pre.1.length - rem)⟩
  | .ok vs =>
    match batchDoc o vs with
    | none => .error ⟨.unexpectedToken, pre.2 + pre.1.length⟩
    | some v => .ok (String.mk (emitVal o v))

/-- The `jsonrepair_repair_with_options` surface: null on any failure. -/
def jrRepairWith (o : Options) (s : String) : Option String := (repairCore o s).toOption

/-- The `jsonrepair_repair` surface with non-null input. -/
def jrRepair (s : String) : Option String := jrRepairWith defaultOptions s

/-- The `jsonrepair_repair` surface including the null-pointer case. -/
def jrRepairC : Option String → Option String
  | none => none
  | some s => jrRepair s

/-- The `jsonrepair_repair_ex` surface: on success the caller's error record
is left untouched; on failure (or a null input pointer, the `InvalidInput`
kind) the record is populated and the message allocated. -/
def jrRepairEx (o : Options) (inp : Option String) (rec0 : ErrRec) : Option String × ErrRec :=
  match inp with
  | none => (none, { code := .invalidInput, position := 0, message := some "null input pointer" })
  | some s =>
    match repairCore o s with
    | .ok out => (some out, rec0)
    | .error e => (none, { code := e.kind, position := e.pos, message := some "repair failed" })

/-- Modelled from the spec: the stream state — options, carry buffer, count
of values emitted so far, and whether the aggregate array is open. -/
structure StreamSt : Type where
  o : Options
  buf : Chars
  emitted : Nat
  agOpen : Bool
deriving Repr, DecidableEq

/-- The `jsonrepair_stream_new` surface. -/
def streamNew (o : Options) : StreamSt := ⟨o, [], 0, false⟩

/-- Modelled from the spec: plausible value-start characters used for error
recovery in the stream driver (§4.6). -/
def plausibleStart (c : Char) : Bool :=
  c = lbrace || c = '[' || c = '"' || isDigitCh c || c = '-' || isIdentStart c

/-- Modelled from the spec: after a push error the carry buffer is truncated
past the offending region up to the next plausible value start. -/
def recoverSkip (buf : Chars) : Chars := (buf.drop 1).dropWhile (fun c => !plausibleStart c)

/-- Modelled from the spec: output formatting of a batch of streamed values —
newline separation between values, or aggregate-array punctuation when
`stream_ndjson_aggregate` is set (§4.6). -/
def fmtVals (o : Options) : Nat → Bool → List JValue → Chars
  | _, _, [] => []
  | emitted, agOpen, v :: vs =>
    if o.stream_ndjson_aggregate then
      ((if agOpen then sepComma o else ['[']) ++ emitVal o v) ++ fmtVals o (emitted + 1) true vs
    else
      ((if emitted = 0 then [] else ['
']) ++ emitVal o v) ++ fmtVals o (emitted + 1) agOpen vs

/-- The `jsonrepair_stream_push_ex` surface: append the chunk to the carry
buffer, emit every completed value, keep an incomplete tail buffered, and on
an unrecoverable error report it and recover at the next plausible start. -/
def streamPushEx (st : StreamSt) (chunk : String) : Option String × Option RepErr × StreamSt :=
  let buf := st.buf ++ chunk.data
  let r := consumeS st.o (fuelFor buf) buf
  let vs := r.1
  let outCs := fmtVals st.o st.emitted st.agOpen vs
  let left := match r.2.1 with
    | some _ => recoverSkip r.2.2
    | none => r.2.2
  let st2 : StreamSt :=
    ⟨st.o, left, st.emitted + vs.length,
      st.agOpen || (st.o.stream_ndjson_aggregate && !vs.isEmpty)⟩
  ((if outCs.isEmpty then none else some (String.mk outCs)),
   (match r.2.1 with
    | some (k, rem) => some ⟨k, buf.length - rem⟩
    | none => none),
   st2)

/-- The `jsonrepair_stream_push` surface. -/
def streamPush (st : StreamSt) (chunk : String) : Option String × StreamSt :=
  let r := streamPushEx st chunk
  (r.1, r.2.2)

/-- The `jsonrepair_stream_flush_ex` surface: parse the remaining carry
buffer with aggressive truncation fixes forced on (flush is terminal), and
in aggregate mode emit the closing bracket. -/
def streamFlushEx (st : StreamSt) : Option String × Option RepErr :=
  match consumeB { st.o with aggressive_truncation_fix := true } (fuelFor st.buf) st.buf with
  | .error (k, rem) => (none, some ⟨k, st.buf.length - rem⟩)
  | .ok vs =>
    let outCs := fmtVals st.o st.emitted st.agOpen vs
    let closing : Chars :=
      if st.o.stream_ndjson_aggregate then
        if st.agOpen || !vs.isEmpty then [']'] else ['[', ']']
      else []
    let all := outCs ++ closing
    ((if all.isEmpty then none else some (String.mk all)), none)

/-- The `jsonrepair_stream_flush` surface. -/
def streamFlush (st : StreamSt) : Option String := (streamFlushEx st).1

/-- Result of driving a whole stream: concatenated output text, values in
emission order, per-push errors, and the flush error if any. -/
structure RunRes : Type where
  out : Chars
  vals : List JValue
  pushErrs : List RepErr
  flushErr : Option RepErr
deriving Repr, DecidableEq

/-- All pushes of a chunk list applied in order, collecting outputs, parsed
values and errors. -/
def streamSteps (st : StreamSt) : List String → Chars × List JValue × List RepErr × StreamSt
  | [] => ([], [], [], st)
  | c :: cs =>
    let buf := st.buf ++ c.data
    let parsed := consumeS st.o (fuelFor buf) buf
    let r := streamPushEx st c
    let t := streamSteps r.2.2 cs
    ((match r.1 with | some s => s.data | none => []) ++ t.1,
     parsed.1 ++ t.2.1,
     (match r.2.1 with | some e => [e] | none => []) ++ t.2.2.1,
     t.2.2.2)

/-- A full streaming session: pushes followed by the terminal flush. -/
def streamRun (o : Options) (chunks : List String) : RunRes :=
  let t := streamSteps (streamNew o) chunks
  let st := t.2.2.2
  let f := streamFlushEx st
  let fvals :=
    match consumeB { st.o with aggressive_truncation_fix := true } (fuelFor st.buf) st.buf with
    | .ok vs => vs
    | .error _ => []
  ⟨t.1 ++ (match f.1 with | some s => s.data | none => []),
   t.2.1 ++ fvals, t.2.2.1, f.2⟩

/-! ### Error-position bounds -/

theorem skipLine_pos {cs rest : Chars} (h : skipLine cs = some rest) :
    1 ≤ rest.length := by
  induction cs with
  | nil => simp [skipLine] at h
  | cons c cs ih =>
    unfold skipLine at h
    split at h
    · cases h
      simp
    · exact ih h

theorem findFence_le : ∀ (cs : Chars) (i : Nat), findFence cs = some i → i + 3 ≤ cs.length := by
  intro cs
  induction cs with
  | nil => intro i h; simp [findFence] at h
  | cons c cs ih =>
    intro i h
    rw [findFence.eq_def] at h
    split at h
    · rename_i heq
      simp only [List.cons.injEq] at heq
      simp only [Option.some.injEq] at h
      obtain ⟨h1, h2⟩ := heq
      subst h2
      simp only [List.length_cons]
      omega
    · rename_i hd tl hno heq
      simp only [List.cons.injEq] at heq
      obtain ⟨hc, hcs⟩ := heq
      subst hcs
      simp only [Option.map_eq_some'] at h
      obtain ⟨j, hj, hji⟩ := h
      have := ih j hj
      simp only [List.length_cons]
      omega
    · cases h

theorem fenceExtract_le (cs : Chars) :
    (fenceExtract cs).2 + (fenceExtract cs).1.length ≤ cs.length := by
  cases hf : findFence cs with
  | none => simp [fenceExtract, hf]
  | some i =>
    have hi := findFence_le cs i hf
    cases hs : skipLine (cs.drop (i + 3)) with
    | none => simp [fenceExtract, hf, hs]
    | some r1 =>
      have hr1 := skipLine_length hs
      have hr1p := skipLine_pos hs
      have hal : (cs.drop (i + 3)).length = cs.length - (i + 3) := List.length_drop _ _
      have htt : r1.tail.length = r1.length - 1 := List.length_tail _
      cases hf2 : findFence r1.tail with
      | some j =>
        simp only [fenceExtract, hf, hs, hf2, List.length_take]
        omega
      | none =>
        simp only [fenceExtract, hf, hs, hf2]
        omega

theorem repairCore_pos_le (o : Options) (s : String) (e : RepErr)
    (h : repairCore o s = .error e) : e.pos ≤ s.length := by
  rw [repairCore] at h
  have hlen : s.length = s.data.length := rfl
  by_cases hf : o.fenced_code_blocks
  · simp only [hf, if_pos] at h
    have hb := fenceExtract_le s.data
    split at h
    · rename_i k rem hc
      cases h
      simp only
      omega
    · split at h
      · cases h
        simp only
        omega
      · cases h
  · simp only [hf, Bool.false_eq_true, if_false] at h
    split at h
    · rename_i k rem hc
      cases h
      simp only
      omega
    · split at h
      · cases h
        simp only
        omega
      · cases h

/-! ### The strict number grammar -/

/-- ASCII code-point test. -/
def asciiCh (c : Char) : Bool := c.toNat ≤ 127

/-- Strict integer part of a number: `0`, or a nonzero digit followed by
digits. -/
def sNumInt : Chars → Option (Chars × Chars)
  | c :: cs =>
    if c = '0' then some (['0'], cs)
    else if isDigitCh c then some (c :: cs.takeWhile isDigitCh, cs.dropWhile isDigitCh)
    else none
  | [] => none

/-- Strict fraction part: nothing, or a dot with at least one digit. -/
def sNumFrac (cs : Chars) : Option (Chars × Chars) :=
  match cs with
  | '.' :: cs1 =>
    if (cs1.takeWhile isDigitCh).isEmpty then none
    else some ('.' :: cs1.takeWhile isDigitCh, cs1.dropWhile isDigitCh)
  | _ => some ([], cs)

/-- Strict exponent part: nothing, or an exponent letter, an optional sign
and at least one digit. -/
def sNumExp (cs : Chars) : Option (Chars × Chars) :=
  match cs with
  | e :: cs1 =>
    if e = 'e' || e = 'E' then
      match cs1 with
      | s :: cs2 =>
        if s = '+' || s = '-' then
          if (cs2.takeWhile isDigitCh).isEmpty then none
          else some (e :: s :: cs2.takeWhile isDigitCh, cs2.dropWhile isDigitCh)
        else
          if (cs1.takeWhile isDigitCh).isEmpty then none
          else some (e :: cs1.takeWhile isDigitCh, cs1.dropWhile isDigitCh)
      | [] => none
    else some ([], cs)
  | [] => some ([], [])

/-- A strict RFC 8259 number without sign at the head of the input: lexeme
and rest. -/
def sNumScan1 (cs : Chars) : Option (Chars × Chars) :=
  match sNumInt cs with
  | none => none
  | some (ip, r1) =>
    match sNumFrac r1 with
    | none => none
    | some (fp, r2) =>
      match sNumExp r2 with
      | none => none
      | some (ep, r3) => some (ip ++ fp ++ ep, r3)

/-- A strict RFC 8259 number at the head of the input: lexeme and rest. -/
def sNumScan (cs : Chars) : Option (Chars × Chars) :=
  match cs with
  | '-' :: cs1 => (sNumScan1 cs1).map (fun p => ('-' :: p.1, p.2))
  | _ => sNumScan1 cs

/-- The lexeme is exactly one strict number. -/
def numLexOK (lex : Chars) : Bool := decide (sNumScan lex = some (lex, []))

mutual

/-- Every number lexeme inside the value satisfies the strict number
grammar. -/
def vLexOK : JValue → Bool
  | .null => true
  | .bool _ => true
  | .num lex => numLexOK lex.data
  | .str _ => true
  | .arr l => vLexOKList l
  | .obj ms => vLexOKMems ms

/-- `vLexOK` over a list of elements. -/
def vLexOKList : List JValue → Bool
  | [] => true
  | v :: l => vLexOK v && vLexOKList l

/-- `vLexOK` over object members. -/
def vLexOKMems : List (String × JValue) → Bool
  | [] => true
  | (_, v) :: ms => vLexOK v && vLexOKMems ms

end

/-! ### Digit runs and lexeme shape lemmas -/

theorem all_dropWhile {p q : Char → Bool} : ∀ (l : Chars), l.all p = true →
    (l.dropWhile q).all p = true := by
  intro l
  induction l with
  | nil => intro h; simp
  | cons c l1 ih =>
    intro h
    simp only [List.all_cons, Bool.and_eq_true] at h
    rw [List.dropWhile_cons]
    split
    · exact ih h.2
    · simp only [List.all_cons, Bool.and_eq_true]
      exact ⟨h.1, h.2⟩

theorem dropWhile_head_false {p : Char → Bool} : ∀ (l : Chars) (c : Char) (t : Chars),
    l.dropWhile p = c :: t → p c = false := by
  intro l
  induction l with
  | nil => intro c t h; simp at h
  | cons a l1 ih =>
    intro c t h
    rw [List.dropWhile_cons] at h
    split at h
    · exact ih c t h
    · rename_i hpa
      simp only [List.cons.injEq] at h
      rw [← h.1]
      exact Bool.not_eq_true _ ▸ (by simpa using hpa)

theorem digitRun_split {ds t : Chars} (hds : ds.all isDigitCh = true)
    (ht : t = [] ∨ isDigitCh (t.headD ' ') = false) :
    (ds ++ t).takeWhile isDigitCh = ds ∧ (ds ++ t).dropWhile isDigitCh = t := by
  induction ds with
  | nil =>
    simp only [List.nil_append]
    cases ht with
    | inl h => subst h; simp
    | inr h =>
      cases t with
      | nil => simp
      | cons a t1 =>
        simp only [List.headD_cons] at h
        simp [List.takeWhile_cons, List.dropWhile_cons, h]
  | cons d ds1 ih =>
    simp only [List.all_cons, Bool.and_eq_true] at hds
    obtain ⟨h1, h2⟩ := ih hds.2
    simp [List.takeWhile_cons, List.dropWhile_cons, hds.1, h1, h2]

theorem takeDigsU_digits : ∀ (cs : Chars),
    (∀ ds rest, takeDigsU cs = .done ds rest → ds.all isDigitCh = true) ∧
    (∀ ds, takeDigsU cs = .more ds → ds.all isDigitCh = true) := by
  intro cs
  induction cs with
  | nil =>
    constructor
    · intro ds rest h; simp [takeDigsU] at h
    · intro ds h
      simp only [takeDigsU, DigScan.more.injEq] at h
      rw [← h]
      simp
  | cons c cs1 ih =>
    constructor
    · intro ds rest h
      rw [takeDigsU.eq_def] at h
      dsimp only at h
      split at h
      · rename_i hdc
        match hq : takeDigsU cs1 with
        | .done ds1 rest1 =>
          rw [hq] at h
          simp only [DigScan.done.injEq] at h
          rw [← h.1]
          simp only [List.all_cons, Bool.and_eq_true]
          exact ⟨hdc, (ih.1 ds1 rest1 hq)⟩
        | .more ds1 => rw [hq] at h; simp at h
      · split at h
        · split at h
          · simp at h
          · split at h
            · exact ih.1 ds rest h
            · simp only [DigScan.done.injEq] at h
              rw [← h.1]
              simp
        · simp only [DigScan.done.injEq] at h
          rw [← h.1]
          simp
    · intro ds h
      rw [takeDigsU.eq_def] at h
      dsimp only at h
      split at h
      · rename_i hdc
        match hq : takeDigsU cs1 with
        | .done ds1 rest1 => rw [hq] at h; simp at h
        | .more ds1 =>
          rw [hq] at h
          simp only [DigScan.more.injEq] at h
          rw [← h]
          simp only [List.all_cons, Bool.and_eq_true]
          exact ⟨hdc, (ih.2 ds1 hq)⟩
      · split at h
        · split at h
          · simp only [DigScan.more.injEq] at h
            rw [← h]
            simp
          · split at h
            · exact ih.2 ds h
            · simp at h
        · simp at h

theorem digitCh_digit {k : Nat} (hk : k < 10) : isDigitCh (digitCh k) = true := by
  interval_cases k <;> decide

theorem digitCh_ne_zero {k : Nat} (hk : k < 10) (h0 : k ≠ 0) : digitCh k ≠ '0' := by
  interval_cases k
  · exact absurd rfl h0
  all_goals decide

theorem natDigits_shape : ∀ (n : Nat),
    (natDigits n).all isDigitCh = true ∧ natDigits n ≠ [] ∧
      (n = 0 ∨ (natDigits n).headD ' ' ≠ '0') := by
  intro n
  induction n using Nat.strong_induction_on with
  | _ n ih =>
    rw [natDigits]
    split
    · rename_i hlt
      refine ⟨by simp [digitCh_digit hlt], by simp, ?_⟩
      by_cases h0 : n = 0
      · exact Or.inl h0
      · right
        simpa using digitCh_ne_zero hlt h0
    · rename_i hge
      have hd : n / 10 < n := Nat.div_lt_self (by omega) (by omega)
      obtain ⟨a1, a2, a3⟩ := ih (n / 10) hd
      refine ⟨?_, by simp [a2], ?_⟩
      · simp only [List.all_append, Bool.and_eq_true]
        exact ⟨a1, by simp [digitCh_digit (Nat.mod_lt n (by omega))]⟩
      · right
        cases hnd : natDigits (n / 10) with
        | nil => exact absurd hnd a2
        | cons a t =>
          have ha : a ≠ '0' := by
            rcases a3 with h0 | hh
            · exact absurd h0 (by omega)
            · rw [hnd] at hh
              simpa using hh
          simp [hnd, ha]

theorem stripZeros_shape {ip : Chars} (h : ip.all isDigitCh = true) :
    stripZeros ip = ['0'] ∨
    ((stripZeros ip).all isDigitCh = true ∧ stripZeros ip ≠ [] ∧
      (stripZeros ip).headD ' ' ≠ '0') := by
  by_cases he : (ip.dropWhile (fun c => decide (c = '0'))).isEmpty = true
  · left
    simp [stripZeros, he]
  · right
    have hstz : stripZeros ip = ip.dropWhile (fun c => decide (c = '0')) := by
      simp [stripZeros, he]
    rw [hstz]
    refine ⟨all_dropWhile ip h, by simpa [List.isEmpty_iff] using he, ?_⟩
    cases hd : ip.dropWhile (fun c => decide (c = '0')) with
    | nil =>
      rw [hd] at he
      simp at he
    | cons a t =>
      have h2 := dropWhile_head_false ip a t hd
      simp only [decide_eq_false_iff_not] at h2
      simp only [hd, List.headD_cons]
      exact h2

theorem sNumInt_reads {z t : Chars}
    (hz : z = ['0'] ∨ (z.all isDigitCh = true ∧ z ≠ [] ∧ z.headD ' ' ≠ '0'))
    (ht : t = [] ∨ isDigitCh (t.headD ' ') = false) :
    sNumInt (z ++ t) = some (z, t) := by
  rcases hz with h0 | ⟨ha, hne, hh⟩
  · subst h0
    rfl
  · cases z with
    | nil => exact absurd rfl hne
    | cons c z1 =>
      simp only [List.headD_cons] at hh
      simp only [List.all_cons, Bool.and_eq_true] at ha
      obtain ⟨hs1, hs2⟩ := digitRun_split ha.2 ht
      simp only [List.cons_append, sNumInt, if_neg hh, if_pos ha.1, hs1, hs2]

theorem sNumFrac_reads_none {t : Chars} (ht : t = [] ∨ t.headD ' ' ≠ '.') :
    sNumFrac t = some ([], t) := by
  rcases ht with h0 | hh
  · subst h0; rfl
  · cases t with
    | nil => rfl
    | cons a t1 =>
      simp only [List.headD_cons] at hh
      rw [sNumFrac.eq_def]
      split
      · rename_i heq
        simp only [List.cons.injEq] at heq
        exact absurd heq.1 hh
      · rfl

theorem sNumFrac_reads_some {ds t : Chars} (hds : ds.all isDigitCh = true)
    (hne : ds ≠ []) (ht : t = [] ∨ isDigitCh (t.headD ' ') = false) :
    sNumFrac ('.' :: (ds ++ t)) = some ('.' :: ds, t) := by
  obtain ⟨hs1, hs2⟩ := digitRun_split hds ht
  rw [sNumFrac.eq_def]
  simp only [hs1, hs2]
  rw [if_neg]
  simp [List.isEmpty_iff, hne]

theorem sNumExp_reads_some {ec : Char} {sg : Option Char} {ds : Chars}
    (hec : ec = 'e' ∨ ec = 'E')
    (hsg : sg = none ∨ sg = some '+' ∨ sg = some '-')
    (hds : ds.all isDigitCh = true) (hne : ds ≠ []) :
    sNumExp (ec :: ((match sg with | none => [] | some s => [s]) ++ ds)) =
      some (ec :: ((match sg with | none => [] | some s => [s]) ++ ds), []) := by
  obtain ⟨hs1, hs2⟩ := digitRun_split hds (Or.inl rfl)
  rw [List.append_nil] at hs1 hs2
  have hecb : (ec = 'e' || ec = 'E') = true := by
    rcases hec with h | h <;> simp [h]
  rcases hsg with h0 | hp | hm
  · subst h0
    simp only [List.nil_append]
    cases ds with
    | nil => exact absurd rfl hne
    | cons d ds1 =>
      simp only [List.all_cons, Bool.and_eq_true] at hds
      have hdpm : (d = '+' || d = '-') = false := by
        have hd1 := hds.1
        by_cases h1 : d = '+'
        · subst h1
          exact absurd hd1 (by decide)
        · by_cases h2 : d = '-'
          · subst h2
            exact absurd hd1 (by decide)
          · simp [h1, h2]
      simp [sNumExp, hecb, hdpm, hs1, hs2]
  · subst hp
    simp only [List.cons_append, List.nil_append]
    simp [sNumExp, hecb, hs1, hs2, List.isEmpty_iff, hne]
  · subst hm
    simp only [List.cons_append, List.nil_append]
    simp [sNumExp, hecb, hs1, hs2, List.isEmpty_iff, hne]

theorem numLexOK_iff {lex : Chars} : numLexOK lex = true ↔ sNumScan lex = some (lex, []) := by
  simp [numLexOK]

theorem sNumScan1_build {z F E : Chars}
    (h1 : sNumInt (z ++ (F ++ E)) = some (z, F ++ E))
    (h2 : sNumFrac (F ++ E) = some (F, E))
    (h3 : sNumExp E = some (E, [])) :
    sNumScan1 (z ++ (F ++ E)) = some (z ++ F ++ E, []) := by
  rw [sNumScan1]
  simp only [h1, h2, h3, List.append_assoc]

theorem sNumScan_build {z F E : Chars} (neg : Bool)
    (hzne : z ≠ []) (hzh : z.headD ' ' ≠ '-')
    (h1 : sNumInt (z ++ (F ++ E)) = some (z, F ++ E))
    (h2 : sNumFrac (F ++ E) = some (F, E))
    (h3 : sNumExp E = some (E, [])) :
    sNumScan ((if neg then ['-'] else []) ++ (z ++ (F ++ E))) =
      some ((if neg then ['-'] else []) ++ (z ++ (F ++ E)), []) := by
  have hb := sNumScan1_build h1 h2 h3
  cases neg with
  | true =>
    simp only [if_true, List.cons_append, List.nil_append]
    rw [sNumScan.eq_def]
    simp only [hb, Option.map_some', List.append_assoc]
  | false =>
    simp only [Bool.false_eq_true, if_false, List.nil_append]
    cases z with
    | nil => exact absurd rfl hzne
    | cons a z1 =>
      simp only [List.headD_cons] at hzh
      rw [sNumScan.eq_def]
      split
      · rename_i heq
        simp only [List.cons_append, List.cons.injEq] at heq
        exact absurd heq.1 hzh
      · rw [hb]
        simp [List.append_assoc]

theorem renderBase_lexOK {neg : Bool} {n : Nat} :
    numLexOK (renderBase neg n) = true := by
  obtain ⟨a1, a2, a3⟩ := natDigits_shape n
  have hz : natDigits n = ['0'] ∨
      ((natDigits n).all isDigitCh = true ∧ natDigits n ≠ [] ∧
        (natDigits n).headD ' ' ≠ '0') := by
    rcases a3 with h0 | hh
    · subst h0
      left
      rw [natDigits]
      rfl
    · right
      exact ⟨a1, a2, hh⟩
  have hzh : (natDigits n).headD ' ' ≠ '-' := by
    cases hd : natDigits n with
    | nil => exact absurd hd a2
    | cons a t =>
      have : isDigitCh a = true := by
        have := a1
        rw [hd] at this
        simp only [List.all_cons, Bool.and_eq_true] at this
        exact this.1
      simp only [List.headD_cons]
      intro hcon
      rw [hcon] at this
      exact absurd this (by decide)
  have h1 : sNumInt (natDigits n ++ ([] ++ [])) = some (natDigits n, [] ++ []) := by
    simpa using sNumInt_reads hz (Or.inl rfl)
  have h2 : sNumFrac ([] ++ []) = some ([], []) := by
    simpa using sNumFrac_reads_none (Or.inl rfl)
  have h3 : sNumExp [] = some ([], []) := rfl
  rw [numLexOK_iff]
  have hfin := sNumScan_build neg a2 hzh h1 h2 h3
  simp only [List.append_nil] at hfin
  rw [renderBase]
  cases neg with
  | true => simpa using hfin
  | false => simpa using hfin

/-- The sign characters of an optional exponent sign. -/
def sgChars : Option Char → Chars
  | none => []
  | some s => [s]

/-- The characters of an optional exponent block. -/
def expChars : Option (Char × Option Char × Chars) → Chars
  | none => []
  | some (ec, sg, ds) => ec :: (sgChars sg ++ ds)

/-- The characters of an optional fraction block. -/
def fracChars : Option Chars → Chars
  | none => []
  | some ds => '.' :: (if ds.isEmpty then ['0'] else ds)

/-- The characters of a fraction block known to be nonempty when present. -/
def fracBlock : Option Chars → Chars
  | none => []
  | some ds => '.' :: ds

/-- The integer block of a rendered number. -/
def intChars (ip : Chars) : Chars := if ip.isEmpty then ['0'] else stripZeros ip

theorem renderNum_eq (neg : Bool) (ip : Chars) (fp : Option Chars)
    (ep : Option (Char × Option Char × Chars)) :
    renderNum neg ip fp ep =
      (if neg then ['-'] else []) ++ (intChars ip ++ (fracChars fp ++ expChars ep)) := by
  unfold renderNum
  rcases fp with _ | ds
  · rcases ep with _ | ⟨ec, sg, ds2⟩
    · simp [intChars, fracChars, expChars, List.append_assoc]
    · rcases sg with _ | s <;>
        simp [intChars, fracChars, expChars, sgChars, List.append_assoc]
  · rcases ep with _ | ⟨ec, sg, ds2⟩
    · simp [intChars, fracChars, expChars, List.append_assoc]
    · rcases sg with _ | s <;>
        simp [intChars, fracChars, expChars, sgChars, List.append_assoc]

theorem sNumExp_reads_sg {ec : Char} {sg : Option Char} {ds : Chars}
    (hec : ec = 'e' ∨ ec = 'E')
    (hsg : sg = none ∨ sg = some '+' ∨ sg = some '-')
    (hds : ds.all isDigitCh = true) (hne : ds ≠ []) :
    sNumExp (ec :: (sgChars sg ++ ds)) = some (ec :: (sgChars sg ++ ds), []) := by
  cases sg with
  | none => simpa [sgChars] using sNumExp_reads_some hec hsg hds hne
  | some s => simpa [sgChars] using sNumExp_reads_some hec hsg hds hne

theorem renderNum_lexOK {neg : Bool} {ip : Chars} {fp : Option Chars}
    {ep : Option (Char × Option Char × Chars)}
    (hip : ip.all isDigitCh = true)
    (hfp : ∀ ds, fp = some ds → ds.all isDigitCh = true)
    (hep : ∀ ec sg ds, ep = some (ec, sg, ds) →
      (ec = 'e' ∨ ec = 'E') ∧ (sg = none ∨ sg = some '+' ∨ sg = some '-') ∧
      ds ≠ [] ∧ ds.all isDigitCh = true) :
    numLexOK (renderNum neg ip fp ep) = true := by
  have hz : intChars ip = ['0'] ∨
      ((intChars ip).all isDigitCh = true ∧ intChars ip ≠ [] ∧
       (intChars ip).headD ' ' ≠ '0') := by
    rw [intChars]
    by_cases hie : ip.isEmpty = true
    · simp [hie]
    · simp only [hie, if_false]
      exact stripZeros_shape hip
  have hzne : intChars ip ≠ [] := by
    rcases hz with h0 | ⟨_, hne, _⟩
    · rw [h0]
      simp
    · exact hne
  have hzdig : (intChars ip).all isDigitCh = true := by
    rcases hz with h0 | ⟨ha, _, _⟩
    · rw [h0]
      decide
    · exact ha
  have hzh : (intChars ip).headD ' ' ≠ '-' := by
    cases hd : intChars ip with
    | nil => exact absurd hd hzne
    | cons a t =>
      have ha : isDigitCh a = true := by
        have h5 := hzdig
        rw [hd] at h5
        simp only [List.all_cons, Bool.and_eq_true] at h5
        exact h5.1
      simp only [List.headD_cons]
      intro hcon
      rw [hcon] at ha
      exact absurd ha (by decide)
  have hE1 : sNumExp (expChars ep) = some (expChars ep, []) := by
    cases ep with
    | none => rfl
    | some p =>
      obtain ⟨ec, sg, ds⟩ := p
      obtain ⟨hec, hsg, hdne, hdall⟩ := hep ec sg ds rfl
      simpa [expChars] using sNumExp_reads_sg hec hsg hdall hdne
  have hE2 : expChars ep = [] ∨
      (isDigitCh ((expChars ep).headD ' ') = false ∧ (expChars ep).headD ' ' ≠ '.') := by
    cases ep with
    | none => exact Or.inl rfl
    | some p =>
      obtain ⟨ec, sg, ds⟩ := p
      obtain ⟨hec, hsg, hdne, hdall⟩ := hep ec sg ds rfl
      right
      constructor
      · simp only [expChars, List.headD_cons]
        rcases hec with h | h <;> rw [h] <;> decide
      · simp only [expChars, List.headD_cons]
        rcases hec with h | h <;> rw [h] <;> decide
  have hF1 : sNumFrac (fracChars fp ++ expChars ep) = some (fracChars fp, expChars ep) := by
    cases fp with
    | none =>
      simp only [fracChars, List.nil_append]
      apply sNumFrac_reads_none
      rcases hE2 with h0 | ⟨_, hh⟩
      · exact Or.inl h0
      · exact Or.inr hh
    | some ds =>
      have hdall : ds.all isDigitCh = true := hfp ds rfl
      have hdall2 : (if ds.isEmpty = true then ['0'] else ds).all isDigitCh = true := by
        by_cases hde : ds.isEmpty = true
        · simp only [hde, if_true]
          decide
        · simpa [hde] using hdall
      have hdne2 : (if ds.isEmpty = true then ['0'] else ds) ≠ [] := by
        by_cases hde : ds.isEmpty = true
        · simp [hde]
        · simp only [hde, if_false]
          simpa [List.isEmpty_iff] using hde
      have ht : expChars ep = [] ∨ isDigitCh ((expChars ep).headD ' ') = false := by
        rcases hE2 with h0 | ⟨hh, _⟩
        · exact Or.inl h0
        · exact Or.inr hh
      have hgoal := sNumFrac_reads_some hdall2 hdne2 ht
      simpa [fracChars, List.cons_append] using hgoal
  have hI1 : sNumInt (intChars ip ++ (fracChars fp ++ expChars ep)) =
      some (intChars ip, fracChars fp ++ expChars ep) := by
    apply sNumInt_reads hz
    cases fp with
    | none =>
      simp only [fracChars, List.nil_append]
      rcases hE2 with h0 | ⟨hh, _⟩
      · exact Or.inl h0
      · exact Or.inr hh
    | some ds =>
      right
      simp only [fracChars, List.cons_append, List.headD_cons]
      decide
  rw [numLexOK_iff, renderNum_eq]
  exact sNumScan_build neg hzne hzh hI1 hF1 hE1

theorem scanExpDigs_lexOK {m neg : Bool} {ip : Chars} {fp : Option Chars} {ec : Char}
    {sg : Option Char} {bt : Chars} {dscan : DigScan} {lex rest : Chars}
    (hip : ip.all isDigitCh = true)
    (hfp : ∀ ds, fp = some ds → ds.all isDigitCh = true)
    (hec : ec = 'e' ∨ ec = 'E')
    (hsg : sg = none ∨ sg = some '+' ∨ sg = some '-')
    (hds : (∀ ds r, dscan = DigScan.done ds r → ds.all isDigitCh = true) ∧
           (∀ ds, dscan = DigScan.more ds → ds.all isDigitCh = true))
    (h : scanExpDigs m neg ip fp ec sg bt dscan = .done lex rest) :
    numLexOK lex = true := by
  rw [scanExpDigs.eq_def] at h
  split at h
  · rename_i ds
    split at h
    · split at h
      · simp only [NumScan.done.injEq] at h
        rw [← h.1]
        exact renderNum_lexOK hip hfp (by intro a b c hq; cases hq)
      · rename_i hdse
        simp only [NumScan.done.injEq] at h
        rw [← h.1]
        apply renderNum_lexOK hip hfp
        intro a b c hq
        simp only [Option.some.injEq, Prod.mk.injEq] at hq
        obtain ⟨q1, q2, q3⟩ := hq
        subst q1
        subst q2
        subst q3
        exact ⟨hec, hsg, by simpa [List.isEmpty_iff] using hdse, hds.2 ds rfl⟩
    · simp at h
  · rename_i ds r
    split at h
    · simp only [NumScan.done.injEq] at h
      rw [← h.1]
      exact renderNum_lexOK hip hfp (by intro a b c hq; cases hq)
    · rename_i hdse
      simp only [NumScan.done.injEq] at h
      rw [← h.1]
      apply renderNum_lexOK hip hfp
      intro a b c hq
      simp only [Option.some.injEq, Prod.mk.injEq] at hq
      obtain ⟨q1, q2, q3⟩ := hq
      subst q1
      subst q2
      subst q3
      exact ⟨hec, hsg, by simpa [List.isEmpty_iff] using hdse, hds.1 ds r rfl⟩

theorem scanExpTail_lexOK {m neg : Bool} {ip : Chars} {fp : Option Chars} {ec : Char}
    {cs lex rest : Chars}
    (hip : ip.all isDigitCh = true)
    (hfp : ∀ ds, fp = some ds → ds.all isDigitCh = true)
    (hec : ec = 'e' ∨ ec = 'E')
    (h : scanExpTail m neg ip fp ec cs = .done lex rest) :
    numLexOK lex = true := by
  rw [scanExpTail.eq_def] at h
  split at h
  · rename_i s cs1
    split at h
    · rename_i hspm
      have hsg : (some s : Option Char) = none ∨ some s = some '+' ∨ some s = some '-' := by
        simp only [Bool.or_eq_true, decide_eq_true_eq] at hspm
        rcases hspm with h1 | h1
        · exact Or.inr (Or.inl (by rw [h1]))
        · exact Or.inr (Or.inr (by rw [h1]))
      exact scanExpDigs_lexOK hip hfp hec hsg (takeDigsU_digits cs1) h
    · exact scanExpDigs_lexOK hip hfp hec (Or.inl rfl) (takeDigsU_digits (s :: cs1)) h
  · exact scanExpDigs_lexOK hip hfp hec (Or.inl rfl) (takeDigsU_digits []) h

theorem scanFracTail_lexOK {o : Options} {m neg : Bool} {ip : Chars} {cs lex rest : Chars}
    (hip : ip.all isDigitCh = true)
    (h : scanFracTail o m neg ip cs = .done lex rest) :
    numLexOK lex = true := by
  rw [scanFracTail] at h
  split at h
  · rename_i ds heq
    split at h
    · split at h
      · split at h
        · simp only [NumScan.done.injEq] at h
          rw [← h.1]
          apply renderNum_lexOK hip ?_ (by intro a b c hq; cases hq)
          intro a hq
          simp only [Option.some.injEq] at hq
          rw [← hq]
          simp
        · simp only [NumScan.done.injEq] at h
          rw [← h.1]
          exact renderNum_lexOK hip (by intro a hq; cases hq) (by intro a b c hq; cases hq)
      · simp only [NumScan.done.injEq] at h
        rw [← h.1]
        apply renderNum_lexOK hip ?_ (by intro a b c hq; cases hq)
        intro a hq
        simp only [Option.some.injEq] at hq
        rw [← hq]
        exact (takeDigsU_digits cs).2 ds heq
    · simp at h
  · rename_i ds rest2 heq
    have hdd : ds.all isDigitCh = true := (takeDigsU_digits cs).1 ds rest2 heq
    split at h
    · split at h
      · simp only [NumScan.done.injEq] at h
        rw [← h.1]
        apply renderNum_lexOK hip ?_ (by intro a b c hq; cases hq)
        intro a hq
        simp only [Option.some.injEq] at hq
        rw [← hq]
        simp
      · simp only [NumScan.done.injEq] at h
        rw [← h.1]
        exact renderNum_lexOK hip (by intro a hq; cases hq) (by intro a b c hq; cases hq)
    · split at h
      · rename_i e cs4
        split at h
        · rename_i heE
          have hec : e = 'e' ∨ e = 'E' := by
            simp only [Bool.or_eq_true, decide_eq_true_eq] at heE
            exact heE
          apply scanExpTail_lexOK hip ?_ hec h
          intro a hq
          simp only [Option.some.injEq] at hq
          rw [← hq]
          exact hdd
        · simp only [NumScan.done.injEq] at h
          rw [← h.1]
          apply renderNum_lexOK hip ?_ (by intro a b c hq; cases hq)
          intro a hq
          simp only [Option.some.injEq] at hq
          rw [← hq]
          exact hdd
      · simp only [NumScan.done.injEq] at h
        rw [← h.1]
        apply renderNum_lexOK hip ?_ (by intro a b c hq; cases hq)
        intro a hq
        simp only [Option.some.injEq] at hq
        rw [← hq]
        exact hdd

theorem scanBaseTail_lexOK {m neg : Bool} {p : Char → Bool} {base : Nat}
    {fallbackRest cs lex rest : Chars}
    (h : scanBaseTail m neg p base fallbackRest cs = .done lex rest) :
    numLexOK lex = true := by
  rw [scanBaseTail] at h
  split at h
  · split at h
    · split at h
      · simp only [NumScan.done.injEq] at h
        rw [← h.1]
        exact renderNum_lexOK (by decide) (by intro a hq; cases hq) (by intro a b c hq; cases hq)
      · simp only [NumScan.done.injEq] at h
        rw [← h.1]
        exact renderBase_lexOK
    · simp at h
  · split at h
    · simp only [NumScan.done.injEq] at h
      rw [← h.1]
      exact renderNum_lexOK (by decide) (by intro a hq; cases hq) (by intro a b c hq; cases hq)
    · simp only [NumScan.done.injEq] at h
      rw [← h.1]
      exact renderBase_lexOK

theorem scanIntTail_lexOK {o : Options} {m neg : Bool} {cs lex rest : Chars}
    (h : scanIntTail o m neg cs = .done lex rest) :
    numLexOK lex = true := by
  rw [scanIntTail] at h
  split at h
  · rename_i ds heq
    split at h
    · simp only [NumScan.done.injEq] at h
      rw [← h.1]
      exact renderNum_lexOK ((takeDigsU_digits cs).2 ds heq)
        (by intro a hq; cases hq) (by intro a b c hq; cases hq)
    · simp at h
  · rename_i ds rest2 heq
    have hdd : ds.all isDigitCh = true := (takeDigsU_digits cs).1 ds rest2 heq
    split at h
    · rename_i r cs2
      split at h
      · exact scanFracTail_lexOK hdd h
      · split at h
        · rename_i hrE
          have hec : r = 'e' ∨ r = 'E' := by
            simp only [Bool.or_eq_true, decide_eq_true_eq] at hrE
            exact hrE
          exact scanExpTail_lexOK hdd (by intro a hq; cases hq) hec h
        · split at h
          · exact scanBaseTail_lexOK h
          · split at h
            · exact scanBaseTail_lexOK h
            · split at h
              · exact scanBaseTail_lexOK h
              · simp only [NumScan.done.injEq] at h
                rw [← h.1]
                exact renderNum_lexOK hdd
                  (by intro a hq; cases hq) (by intro a b c hq; cases hq)
    · simp only [NumScan.done.injEq] at h
      rw [← h.1]
      exact renderNum_lexOK hdd (by intro a hq; cases hq) (by intro a b c hq; cases hq)

theorem scanNumBody_lexOK {o : Options} {m neg : Bool} {cs lex rest : Chars}
    (h : scanNumBody o m neg cs = .done lex rest) :
    numLexOK lex = true := by
  rw [scanNumBody.eq_def] at h
  split at h
  · split at h
    · simp only [NumScan.done.injEq] at h
      rw [← h.1]
      exact renderNum_lexOK (by decide) (by intro a hq; cases hq) (by intro a b c hq; cases hq)
    · simp at h
  · rename_i c cs1
    split at h
    · exact scanFracTail_lexOK (by decide) h
    · exact scanIntTail_lexOK h

theorem scanNumber_lexOK {o : Options} {m : Bool} {cs lex rest : Chars}
    (h : scanNumber o m cs = .done lex rest) :
    numLexOK lex = true := by
  rw [scanNumber.eq_def] at h
  split at h
  · exact scanNumBody_lexOK h
  · exact scanNumBody_lexOK h

theorem kwValue_lexOK (o : Options) (lex : Chars) : vLexOK (kwValue o lex) = true := by
  unfold kwValue
  repeat' split
  all_goals rfl

theorem vLexOKMems_eq_all : ∀ (ms : List (String × JValue)),
    vLexOKMems ms = ms.all (fun kv => vLexOK kv.2)
  | [] => rfl
  | (k, v) :: ms => by
    simp only [vLexOKMems, List.all_cons]
    rw [vLexOKMems_eq_all ms]

theorem vLexOKList_eq_all : ∀ (l : List JValue), vLexOKList l = l.all vLexOK
  | [] => rfl
  | v :: l => by
    simp only [vLexOKList, List.all_cons]
    rw [vLexOKList_eq_all l]

theorem objRev_lexOK {acc : List (String × JValue)} (h : vLexOKMems acc = true) :
    vLexOK (JValue.obj acc.reverse) = true := by
  have h1 : vLexOK (JValue.obj acc.reverse) = vLexOKMems acc.reverse := rfl
  rw [h1, vLexOKMems_eq_all, List.all_reverse, ← vLexOKMems_eq_all]
  exact h

theorem arrRev_lexOK {acc : List JValue} (h : vLexOKList acc = true) :
    vLexOK (JValue.arr acc.reverse) = true := by
  have h1 : vLexOK (JValue.arr acc.reverse) = vLexOKList acc.reverse := rfl
  rw [h1, vLexOKList_eq_all, List.all_reverse, ← vLexOKList_eq_all]
  exact h

theorem memsCons_lexOK {k : String} {v : JValue} {acc : List (String × JValue)}
    (hv : vLexOK v = true) (h : vLexOKMems acc = true) :
    vLexOKMems ((k, v) :: acc) = true := by
  simp only [vLexOKMems, Bool.and_eq_true]
  exact ⟨hv, h⟩

theorem listCons_lexOK {v : JValue} {acc : List JValue}
    (hv : vLexOK v = true) (h : vLexOKList acc = true) :
    vLexOKList (v :: acc) = true := by
  simp only [vLexOKList, Bool.and_eq_true]
  exact ⟨hv, h⟩

set_option maxHeartbeats 2000000 in
theorem pLex (o : Options) (m : Bool) : ∀ f : Nat,
    (∀ cs v rest, pVal o m f cs = .ok v rest → vLexOK v = true) ∧
    (∀ acc cs v rest, vLexOKMems acc = true →
      pObj o m f acc cs = .ok v rest → vLexOK v = true) ∧
    (∀ acc k cs v rest, vLexOKMems acc = true →
      pKeyed o m f acc k cs = .ok v rest → vLexOK v = true) ∧
    (∀ acc k cs v rest, vLexOKMems acc = true →
      pMemVal o m f acc k cs = .ok v rest → vLexOK v = true) ∧
    (∀ acc cs v rest, vLexOKList acc = true →
      pArr o m f acc cs = .ok v rest → vLexOK v = true) := by
  intro f
  induction f with
  | zero =>
    exact ⟨fun cs v rest h => by simp [pVal] at h,
           fun acc cs v rest ha h => by simp [pObj] at h,
           fun acc k cs v rest ha h => by simp [pKeyed] at h,
           fun acc k cs v rest ha h => by simp [pMemVal] at h,
           fun acc cs v rest ha h => by simp [pArr] at h⟩
  | succ f ih =>
    obtain ⟨ihV, ihO, ihK, ihM, ihA⟩ := ih
    refine ⟨?_, ?_, ?_, ?_, ?_⟩
    · intro cs v rest h
      rw [pVal] at h
      split at h
      · simp at h
      · split at h <;> simp at h
      · rename_i c cs1 hst
        split at h
        · exact ihO [] _ _ _ rfl h
        · split at h
          · exact ihA [] _ _ _ rfl h
          · split at h
            · split at h
              · simp only [PRes.ok.injEq] at h
                rw [← h.1]
                rfl
              · split at h
                · split at h
                  · simp only [PRes.ok.injEq] at h
                    rw [← h.1]
                    rfl
                  · simp at h
                · simp at h
            · split at h
              · split at h
                · rename_i lex2 rest2 hsi
                  simp only [PRes.ok.injEq] at h
                  rw [← h.1]
                  exact kwValue_lexOK o lex2
                · rename_i lex2 hsi
                  split at h
                  · simp only [PRes.ok.injEq] at h
                    rw [← h.1]
                    exact kwValue_lexOK o lex2
                  · simp at h
              · split at h
                · split at h
                  · rename_i hdig _ lex2 rest2 hsn
                    simp only [PRes.ok.injEq] at h
                    rw [← h.1]
                    exact scanNumber_lexOK hsn
                  · simp at h
                · split at h
                  · split at h
                    · split at h <;> simp at h
                    · rename_i hmc hjunk d cs2
                      split at h
                      · split at h
                        · rename_i hgd _ lex2 rest2 hsn
                          simp only [PRes.ok.injEq] at h
                          rw [← h.1]
                          exact scanNumber_lexOK hsn
                        · simp at h
                      · split at h
                        · simp only [PRes.ok.injEq] at h
                          rw [← h.1]
                          rfl
                        · split at h <;> simp at h
                  · rename_i hdc0
                    cases cs1 with
                    | nil =>
                      dsimp only at h
                      cases m <;> split at h <;> simp at h
                    | cons d cs2 =>
                      dsimp only at h
                      split at h
                      · rename_i hdot1
                        split at h
                        · rename_i hgd1
                          split at h
                          · rename_i hj4 lex2 rest2 hsn
                            simp only [PRes.ok.injEq] at h
                            rw [← h.1]
                            exact scanNumber_lexOK hsn
                          · simp at h
                        · simp at h
                      · simp at h
    · intro acc cs v rest hacc h
      rw [pObj] at h
      split at h
      · simp at h
      · split at h
        · split at h
          · simp only [PRes.ok.injEq] at h
            rw [← h.1]
            exact objRev_lexOK hacc
          · simp at h
        · simp at h
      · rename_i c cs1 hst
        split at h
        · simp only [PRes.ok.injEq] at h
          rw [← h.1]
          exact objRev_lexOK hacc
        · split at h
          · simp only [PRes.ok.injEq] at h
            rw [← h.1]
            exact objRev_lexOK hacc
          · split at h
            · exact ihO _ _ _ _ hacc h
            · split at h
              · split at h
                · rename_i k2 rest2 hss
                  exact ihK _ _ _ _ _ hacc h
                · rename_i k2 hss
                  split at h
                  · split at h
                    · simp only [PRes.ok.injEq] at h
                      rw [← h.1]
                      exact objRev_lexOK (memsCons_lexOK (by rfl) hacc)
                    · simp at h
                  · simp at h
              · split at h
                · split at h
                  · rename_i lex2 rest2 hsi
                    exact ihK _ _ _ _ _ hacc h
                  · rename_i lex2 hsi
                    split at h
                    · split at h
                      · simp only [PRes.ok.injEq] at h
                        rw [← h.1]
                        exact objRev_lexOK (memsCons_lexOK (by rfl) hacc)
                      · simp at h
                    · simp at h
                · simp at h
    · intro acc k cs v rest hacc h
      rw [pKeyed] at h
      split at h
      · simp at h
      · split at h
        · split at h
          · simp only [PRes.ok.injEq] at h
            rw [← h.1]
            exact objRev_lexOK (memsCons_lexOK (by rfl) hacc)
          · simp at h
        · simp at h
      · rename_i c cs1 hst
        split at h
        · exact ihM _ _ _ _ _ hacc h
        · split at h
          · simp only [PRes.ok.injEq] at h
            rw [← h.1]
            exact objRev_lexOK (memsCons_lexOK (by rfl) hacc)
          · split at h
            · simp only [PRes.ok.injEq] at h
              rw [← h.1]
              exact objRev_lexOK (memsCons_lexOK (by rfl) hacc)
            · split at h
              · exact ihO _ _ _ _ (memsCons_lexOK (by rfl) hacc) h
              · exact ihM _ _ _ _ _ hacc h
    · intro acc k cs v rest hacc h
      rw [pMemVal] at h
      split at h
      · simp at h
      · split at h
        · split at h
          · simp only [PRes.ok.injEq] at h
            rw [← h.1]
            exact objRev_lexOK (memsCons_lexOK (by rfl) hacc)
          · simp at h
        · simp at h
      · rename_i c cs1 hst
        split at h
        · simp only [PRes.ok.injEq] at h
          rw [← h.1]
          exact objRev_lexOK (memsCons_lexOK (by rfl) hacc)
        · split at h
          · simp only [PRes.ok.injEq] at h
            rw [← h.1]
            exact objRev_lexOK (memsCons_lexOK (by rfl) hacc)
          · split at h
            · exact ihO _ _ _ _ (memsCons_lexOK (by rfl) hacc) h
            · split at h
              · rename_i v4 rest4 hpv
                have hv4 := ihV _ _ _ hpv
                exact ihO _ _ _ _ (memsCons_lexOK hv4 hacc) h
              · rename_i r hne
                rw [h] at hne
                exact absurd rfl (by intro hcon; exact hne v rest hcon)
    · intro acc cs v rest hacc h
      rw [pArr] at h
      split at h
      · simp at h
      · split at h
        · split at h
          · simp only [PRes.ok.injEq] at h
            rw [← h.1]
            exact arrRev_lexOK hacc
          · simp at h
        · simp at h
      · rename_i c cs1 hst
        split at h
        · simp only [PRes.ok.injEq] at h
          rw [← h.1]
          exact arrRev_lexOK hacc
        · split at h
          · simp only [PRes.ok.injEq] at h
            rw [← h.1]
            exact arrRev_lexOK hacc
          · split at h
            · exact ihA _ _ _ _ hacc h
            · split at h
              · rename_i v4 rest4 hpv
                have hv4 := ihV _ _ _ hpv
                exact ihA _ _ _ _ (listCons_lexOK hv4 hacc) h
              · rename_i r hne
                rw [h] at hne
                exact absurd rfl (by intro hcon; exact hne v rest hcon)

/-! ### ASCII safety of the emitter -/

theorem isDigitCh_ascii {c : Char} (h : isDigitCh c = true) : asciiCh c = true := by
  simp only [isDigitCh, Bool.and_eq_true, decide_eq_true_eq] at h
  simp only [asciiCh, decide_eq_true_eq]
  omega

theorem all_digits_ascii {l : Chars} (h : l.all isDigitCh = true) : l.all asciiCh = true := by
  induction l with
  | nil => rfl
  | cons c l1 ih =>
    simp only [List.all_cons, Bool.and_eq_true] at h ⊢
    exact ⟨isDigitCh_ascii h.1, ih h.2⟩

theorem takeWhile_all {p : Char → Bool} : ∀ (l : Chars), (l.takeWhile p).all p = true := by
  intro l
  induction l with
  | nil => rfl
  | cons c l1 ih =>
    rw [List.takeWhile_cons]
    split
    · rename_i hp
      simp only [List.all_cons, Bool.and_eq_true]
      exact ⟨hp, ih⟩
    · rfl

theorem sNumInt_ascii {cs ip r : Chars} (h : sNumInt cs = some (ip, r)) :
    ip.all asciiCh = true := by
  rw [sNumInt.eq_def] at h
  split at h
  · rename_i c cs1
    split at h
    · simp only [Option.some.injEq, Prod.mk.injEq] at h
      rw [← h.1]
      decide
    · rename_i hdc
      split at h
      · rename_i hdig
        simp only [Option.some.injEq, Prod.mk.injEq] at h
        rw [← h.1]
        simp only [List.all_cons, Bool.and_eq_true]
        exact ⟨isDigitCh_ascii hdig, all_digits_ascii (takeWhile_all cs1)⟩
      · cases h
  · cases h

theorem sNumFrac_ascii {cs fp r : Chars} (h : sNumFrac cs = some (fp, r)) :
    fp.all asciiCh = true := by
  rw [sNumFrac.eq_def] at h
  split at h
  · rename_i cs1
    split at h
    · cases h
    · simp only [Option.some.injEq, Prod.mk.injEq] at h
      rw [← h.1]
      simp only [List.all_cons, Bool.and_eq_true]
      exact ⟨by decide, all_digits_ascii (takeWhile_all cs1)⟩
  · simp only [Option.some.injEq, Prod.mk.injEq] at h
    rw [← h.1]
    rfl

theorem sNumExp_ascii {cs ep r : Chars} (h : sNumExp cs = some (ep, r)) :
    ep.all asciiCh = true := by
  rw [sNumExp.eq_def] at h
  split at h
  · rename_i e cs1
    split at h
    · rename_i heE
      simp only [Bool.or_eq_true, decide_eq_true_eq] at heE
      have hea : asciiCh e = true := by
        rcases heE with h1 | h1 <;> rw [h1] <;> decide
      split at h
      · rename_i s cs2
        split at h
        · rename_i hspm
          simp only [Bool.or_eq_true, decide_eq_true_eq] at hspm
          have hsa : asciiCh s = true := by
            rcases hspm with h1 | h1 <;> rw [h1] <;> decide
          split at h
          · cases h
          · simp only [Option.some.injEq, Prod.mk.injEq] at h
            rw [← h.1]
            simp only [List.all_cons, Bool.and_eq_true]
            exact ⟨hea, hsa, all_digits_ascii (takeWhile_all cs2)⟩
        · split at h
          · cases h
          · simp only [Option.some.injEq, Prod.mk.injEq] at h
            rw [← h.1]
            simp only [List.all_cons, Bool.and_eq_true]
            refine ⟨hea, ?_⟩
            exact all_digits_ascii (takeWhile_all (s :: cs2))
      · cases h
    · simp only [Option.some.injEq, Prod.mk.injEq] at h
      rw [← h.1]
      rfl
  · simp only [Option.some.injEq, Prod.mk.injEq] at h
    rw [← h.1]
    rfl

theorem numLexOK_ascii {lex : Chars} (h : numLexOK lex = true) : lex.all asciiCh = true := by
  rw [numLexOK_iff] at h
  rw [sNumScan.eq_def] at h
  split at h
  · rename_i cs1
    simp only [Option.map_eq_some'] at h
    obtain ⟨⟨l1, r1⟩, hp, hq⟩ := h
    rw [sNumScan1] at hp
    split at hp
    · cases hp
    · rename_i ip rin hint
      split at hp
      · cases hp
      · rename_i fp rfr hfrac
        split at hp
        · cases hp
        · rename_i ep rex hexp
          simp only [Option.some.injEq, Prod.mk.injEq] at hp
          simp only [Prod.mk.injEq] at hq
          obtain ⟨hq1, hq2⟩ := hq
          rw [← hq1, ← hp.1]
          simp only [List.all_cons, List.all_append, Bool.and_eq_true]
          exact ⟨by decide, ⟨sNumInt_ascii hint, sNumFrac_ascii hfrac⟩, sNumExp_ascii hexp⟩
  · rw [sNumScan1] at h
    split at h
    · cases h
    · rename_i ip rin hint
      split at h
      · cases h
      · rename_i fp rfr hfrac
        split at h
        · cases h
        · rename_i ep rex hexp
          simp only [Option.some.injEq, Prod.mk.injEq] at h
          rw [← h.1]
          simp only [List.all_append, Bool.and_eq_true]
          exact ⟨⟨sNumInt_ascii hint, sNumFrac_ascii hfrac⟩, sNumExp_ascii hexp⟩

theorem hexDigitCh_ascii {k : Nat} (hk : k < 16) : asciiCh (hexDigitCh k) = true := by
  interval_cases k <;> decide

theorem hex4_ascii {n : Nat} : (hex4 n).all asciiCh = true := by
  simp only [hex4, List.all_cons, List.all_nil, Bool.and_eq_true, and_true]
  exact ⟨hexDigitCh_ascii (Nat.mod_lt _ (by omega)),
         hexDigitCh_ascii (Nat.mod_lt _ (by omega)),
         hexDigitCh_ascii (Nat.mod_lt _ (by omega)),
         hexDigitCh_ascii (Nat.mod_lt _ (by omega))⟩

theorem escCharJ_ascii {c : Char} : (escCharJ true c).all asciiCh = true := by
  rw [escCharJ]
  split
  · decide
  · split
    · decide
    · split
      · simp only [List.all_cons, Bool.and_eq_true]
        exact ⟨by decide, by decide, hex4_ascii⟩
      · split
        · split
          · simp only [List.all_cons, Bool.and_eq_true]
            exact ⟨by decide, by decide, hex4_ascii⟩
          · simp only [List.append_assoc, List.all_append, List.all_cons,
              Bool.and_eq_true, List.all_nil, and_true]
            exact ⟨⟨by decide, by decide, hex4_ascii⟩, by decide, by decide, hex4_ascii⟩
        · rename_i h3 h4
          simp only [Bool.and_eq_true, decide_eq_true_eq, true_and, not_le] at h4
          simp only [List.all_cons, List.all_nil, Bool.and_eq_true, and_true]
          simp only [asciiCh, decide_eq_true_eq]
          omega

theorem escBody_ascii : ∀ (s : Chars), (escBody true s).all asciiCh = true := by
  intro s
  induction s with
  | nil => rfl
  | cons c s1 ih =>
    rw [escBody]
    simp only [List.all_append, Bool.and_eq_true]
    exact ⟨escCharJ_ascii, ih⟩

theorem escStr_ascii {s : String} : (escStr true s).all asciiCh = true := by
  rw [escStr]
  simp only [List.all_cons, List.all_append, List.all_nil, Bool.and_eq_true, and_true]
  exact ⟨by decide, escBody_ascii s.data, by decide⟩

theorem sepComma_ascii {o : Options} : (sepComma o).all asciiCh = true := by
  rw [sepComma]
  split <;> decide

theorem sepColon_ascii {o : Options} : (sepColon o).all asciiCh = true := by
  rw [sepColon]
  split <;> decide

mutual

theorem emitVal_ascii {o : Options} (ho : o.ensure_ascii = true) :
    ∀ (v : JValue), vLexOK v = true → (emitVal o v).all asciiCh = true
  | .null, _ => by
    rw [emitVal]
    decide
  | .bool b, _ => by
    cases b <;> rw [emitVal] <;> decide
  | .num lex, h => by
    rw [emitVal]
    exact numLexOK_ascii (by simpa [vLexOK] using h)
  | .str s, _ => by
    rw [emitVal, ho]
    exact escStr_ascii
  | .arr l, h => by
    rw [emitVal]
    simp only [List.all_cons, List.all_append, List.all_nil, Bool.and_eq_true, and_true]
    exact ⟨by decide, emitElems_ascii ho l (by simpa [vLexOK] using h), by decide⟩
  | .obj ms, h => by
    rw [emitVal]
    simp only [List.all_cons, List.all_append, List.all_nil, Bool.and_eq_true, and_true]
    exact ⟨by decide, emitMems_ascii ho ms (by simpa [vLexOK] using h), by decide⟩

theorem emitElems_ascii {o : Options} (ho : o.ensure_ascii = true) :
    ∀ (l : List JValue), vLexOKList l = true → (emitElems o l).all asciiCh = true
  | [], _ => by rw [emitElems]; rfl
  | [v], h => by
    rw [emitElems]
    have hv : vLexOK v = true := by
      simpa [vLexOKList] using h
    exact emitVal_ascii ho v hv
  | v :: v2 :: vs, h => by
    show ((emitVal o v ++ sepComma o) ++ emitElems o (v2 :: vs)).all asciiCh = true
    have hv : vLexOK v = true ∧ vLexOKList (v2 :: vs) = true := by
      have h2 : (vLexOK v && vLexOKList (v2 :: vs)) = true := h
      simpa [Bool.and_eq_true] using h2
    simp only [List.all_append, Bool.and_eq_true]
    exact ⟨⟨emitVal_ascii ho v hv.1, sepComma_ascii⟩,
           emitElems_ascii ho (v2 :: vs) hv.2⟩

theorem emitMems_ascii {o : Options} (ho : o.ensure_ascii = true) :
    ∀ (ms : List (String × JValue)), vLexOKMems ms = true →
      (emitMems o ms).all asciiCh = true
  | [], _ => by rw [emitMems]; rfl
  | [(k, v)], h => by
    rw [emitMems, ho]
    have hv : vLexOK v = true := by
      simpa [vLexOKMems] using h
    simp only [List.all_append, Bool.and_eq_true]
    exact ⟨⟨escStr_ascii, sepColon_ascii⟩, emitVal_ascii ho v hv⟩
  | (k, v) :: m2 :: ms, h => by
    show ((((escStr o.ensure_ascii k ++ sepColon o) ++ emitVal o v) ++ sepComma o) ++
        emitMems o (m2 :: ms)).all asciiCh = true
    rw [ho]
    have hv : vLexOK v = true ∧ vLexOKMems (m2 :: ms) = true := by
      have h2 : (vLexOK v && vLexOKMems (m2 :: ms)) = true := h
      simpa [Bool.and_eq_true] using h2
    simp only [List.all_append, Bool.and_eq_true]
    exact ⟨⟨⟨⟨escStr_ascii, sepColon_ascii⟩, emitVal_ascii ho v hv.1⟩, sepComma_ascii⟩,
           emitMems_ascii ho (m2 :: ms) hv.2⟩

end

theorem consumeB_lexOK (o : Options) (F : Nat) : ∀ (cs : Chars) (vs : List JValue),
    consumeB o F cs = .ok vs → vLexOKList vs = true
  | cs, vs => by
    intro h
    rw [consumeB] at h
    split at h
    · simp only [Except.ok.injEq] at h
      rw [← h]
      rfl
    · simp only [Except.ok.injEq] at h
      rw [← h]
      rfl
    · rename_i c r h0
      have hsl := striv_le o true cs _ h0
      simp only [List.length_cons] at hsl
      split at h
      · have hd1 : r.length < cs.length := by omega
        exact consumeB_lexOK o F r vs h
      · split at h
        · rename_i v1 rest1 hp
          have hvr := (pSize o true F).1 _ _ _ hp
          simp only [List.length_cons] at hvr
          have hd2 : rest1.length < cs.length := by omega
          cases hc : consumeB o F rest1 with
          | error e =>
            rw [hc] at h
            simp [Except.map] at h
          | ok vs1 =>
            rw [hc] at h
            simp only [Except.map, Except.ok.injEq] at h
            rw [← h]
            exact listCons_lexOK ((pLex o true F).1 _ _ _ hp)
              (consumeB_lexOK o F rest1 vs1 hc)
        · simp at h
        · simp at h
        · simp at h
termination_by cs => cs.length
decreasing_by
  all_goals assumption

theorem batchDoc_lexOK {o : Options} {vs : List JValue} {v : JValue}
    (hl : vLexOKList vs = true) (h : batchDoc o vs = some v) : vLexOK v = true := by
  by_cases hag : o.stream_ndjson_aggregate = true
  · unfold batchDoc at h
    rw [if_pos hag] at h
    simp only [Option.some.injEq] at h
    rw [← h]
    exact hl
  · cases vs with
    | nil => simp [batchDoc, hag] at h
    | cons v1 vs1 =>
      cases vs1 with
      | nil =>
        unfold batchDoc at h
        rw [if_neg hag] at h
        simp only [Option.some.injEq] at h
        rw [← h]
        simpa [vLexOKList] using hl
      | cons v2 vs2 =>
        unfold batchDoc at h
        rw [if_neg hag] at h
        simp only [Option.some.injEq] at h
        rw [← h]
        exact hl

theorem repairCore_lexOK {o : Options} {s out : String}
    (h : repairCore o s = .ok out) :
    ∃ v, vLexOK v = true ∧ out.data = emitVal o v := by
  rw [repairCore] at h
  split at h
  · cases h
  · rename_i vs hc
    split at h
    · cases h
    · rename_i v hb
      simp only [Except.ok.injEq] at h
      refine ⟨v, batchDoc_lexOK (consumeB_lexOK o _ _ _ hc) hb, ?_⟩
      rw [← h]

/-! ### A strict RFC 8259 parser, from the spec's words

The spec promises outputs "that parse cleanly under a strict JSON parser"
and idempotence on strict JSON.  The following parser follows the RFC 8259
grammar (with the conservative choice that a `\u` escape must be a valid
scalar or a full surrogate pair): it is the specification side of those
refinement claims, not a translation of the repairer. -/

/-- Strict JSON whitespace. -/
def isJsonWs (c : Char) : Bool := c = ' ' || c = '\t' || c = '\n' || c = '\r'

/-- Token boundary after a strict number or keyword: end of input,
whitespace, or a structural character. -/
def sBoundary (cs : Chars) : Bool :=
  match cs with
  | [] => true
  | c :: _ => isJsonWs c || c = ',' || c = ']' || c = rbrace

/-- Strict string body scanner, after the opening quote: strict escapes,
`\u` escapes with mandatory surrogate pairing, no raw control characters,
and a mandatory closing quote. -/
def sScanStr (acc : Chars) (cs : Chars) : Option (Chars × Chars) :=
  match cs with
  | [] => none
  | c :: cs1 =>
    if c = '"' then some (acc.reverse, cs1)
    else if c = '\\' then
      match cs1 with
      | [] => none
      | e :: cs2 =>
        if e = 'u' then
          match h1 : hexQuadAt cs2 with
          | some (n, cs3) =>
            if isHighSur n then
              match h2 : lowSurAt cs3 with
              | some (n2, cs4) =>
                sScanStr (charFromNat (0x10000 + (n - 0xD800) * 1024 + (n2 - 0xDC00)) :: acc) cs4
              | none => none
            else if isLowSur n then none
            else sScanStr (charFromNat n :: acc) cs3
          | none => none
        else if e = '"' || e = '\\' || e = '/' || e = 'b' || e = 'f' ||
            e = 'n' || e = 'r' || e = 't' then
          sScanStr (escDecode e :: acc) cs2
        else none
    else if c.toNat < 32 then none
    else sScanStr (c :: acc) cs1
termination_by cs.length
decreasing_by
  all_goals simp only [List.length_cons]
  all_goals first
    | omega
    | (have h3 := hexQuadAt_length h1; have h4 := lowSurAt_length h2; omega)
    | (have h3 := hexQuadAt_length h1; omega)

/-- Strict keyword at the head of the input, with its token boundary. -/
def kwAt (cs : Chars) : Option (JValue × Chars) :=
  if "true".data.isPrefixOf cs && sBoundary (cs.drop 4) then some (.bool true, cs.drop 4)
  else if "false".data.isPrefixOf cs && sBoundary (cs.drop 5) then some (.bool false, cs.drop 5)
  else if "null".data.isPrefixOf cs && sBoundary (cs.drop 4) then some (.null, cs.drop 4)
  else none

mutual

/-- Strict JSON value at the head of the input, skipping leading whitespace;
fuel decreases exactly as in the recovery parser, so that a strict success
maps onto a recovery-parser run with the same fuel. -/
def sVal : Nat → Chars → Option (JValue × Chars)
  | 0, _ => none
  | Nat.succ f, cs =>
    match cs.dropWhile isJsonWs with
    | [] => none
    | c :: cs1 =>
      if c = lbrace then sObjKey f true [] cs1
      else if c = '[' then sArrEl f true [] cs1
      else if c = '"' then
        match sScanStr [] cs1 with
        | some (s, rest) => some (.str (String.mk s), rest)
        | none => none
      else
        match kwAt (c :: cs1) with
        | some (v, rest) => some (v, rest)
        | none =>
          if isDigitCh c || c = '-' then
            match sNumScan (c :: cs1) with
            | some (lex, rest) =>
              if sBoundary rest then some (.num (String.mk lex), rest) else none
            | none => none
          else none

/-- Strict object state expecting a key (or, right after the brace, the
close). -/
def sObjKey : Nat → Bool → List (String × JValue) → Chars → Option (JValue × Chars)
  | 0, _, _, _ => none
  | Nat.succ f, canClose, acc, cs =>
    match cs.dropWhile isJsonWs with
    | [] => none
    | c :: cs1 =>
      if c = rbrace then
        if canClose then some (.obj acc.reverse, cs1) else none
      else if c = '"' then
        match sScanStr [] cs1 with
        | some (k, rest) => sKeyed f acc (String.mk k) rest
        | none => none
      else none

/-- Strict object state after a member: comma or close. -/
def sObjSep : Nat → List (String × JValue) → Chars → Option (JValue × Chars)
  | 0, _, _ => none
  | Nat.succ f, acc, cs =>
    match cs.dropWhile isJsonWs with
    | [] => none
    | c :: cs1 =>
      if c = rbrace then some (.obj acc.reverse, cs1)
      else if c = ',' then sObjKey f false acc cs1
      else none

/-- Strict object state after a key: the colon. -/
def sKeyed : Nat → List (String × JValue) → String → Chars → Option (JValue × Chars)
  | 0, _, _, _ => none
  | Nat.succ f, acc, k, cs =>
    match cs.dropWhile isJsonWs with
    | [] => none
    | c :: cs1 =>
      if c = ':' then sMemVal f acc k cs1
      else none

/-- Strict object state after the colon: the member value, then the
separator state. -/
def sMemVal : Nat → List (String × JValue) → String → Chars → Option (JValue × Chars)
  | 0, _, _, _ => none
  | Nat.succ f, acc, k, cs =>
    match cs.dropWhile isJsonWs with
    | [] => none
    | c :: cs1 =>
      match sVal f (c :: cs1) with
      | some (v, rest) => sObjSep f ((k, v) :: acc) rest
      | none => none

/-- Strict array state expecting an element (or, right after the bracket,
the close). -/
def sArrEl : Nat → Bool → List JValue → Chars → Option (JValue × Chars)
  | 0, _, _, _ => none
  | Nat.succ f, canClose, acc, cs =>
    match cs.dropWhile isJsonWs with
    | [] => none
    | c :: cs1 =>
      if c = ']' then
        if canClose then some (.arr acc.reverse, cs1) else none
      else
        match sVal f (c :: cs1) with
        | some (v, rest) => sArrSep f (v :: acc) rest
        | none => none

/-- Strict array state after an element: comma or close. -/
def sArrSep : Nat → List JValue → Chars → Option (JValue × Chars)
  | 0, _, _ => none
  | Nat.succ f, acc, cs =>
    match cs.dropWhile isJsonWs with
    | [] => none
    | c :: cs1 =>
      if c = ']' then some (.arr acc.reverse, cs1)
      else if c = ',' then sArrEl f false acc cs1
      else none

end

/-- Strict parse of a whole document: exactly one value with only
whitespace around it. -/
def strictParseDoc (cs : Chars) : Option JValue :=
  match sVal (fuelFor cs) cs with
  | some (v, r) => if (r.dropWhile isJsonWs).isEmpty then some v else none
  | none => none

mutual

/-- Fuel weight of a value for the strict parser. -/
def wVal : JValue → Nat
  | .null => 1
  | .bool _ => 1
  | .num _ => 1
  | .str _ => 1
  | .arr l => 1 + wArrEl l
  | .obj ms => 1 + wObjKey ms

/-- Fuel weight of the element state over the remaining elements. -/
def wArrEl : List JValue → Nat
  | [] => 1
  | v :: vs => 1 + wVal v + wArrSep vs

/-- Fuel weight of the array separator state over the remaining elements. -/
def wArrSep : List JValue → Nat
  | [] => 1
  | vs => 1 + wArrEl vs

/-- Fuel weight of the key state over the remaining members. -/
def wObjKey : List (String × JValue) → Nat
  | [] => 1
  | (_, v) :: rest => 3 + wVal v + wObjSep rest

/-- Fuel weight of the object separator state over the remaining members. -/
def wObjSep : List (String × JValue) → Nat
  | [] => 1
  | ms => 1 + wObjKey ms

end

/-! ### Aggregate stream output forms one array -/

theorem optChars_eq (l : Chars) :
    (match (if l.isEmpty then none else some (String.mk l)) with
     | some s => s.data
     | none => []) = l := by
  by_cases he : l.isEmpty = true
  · simp only [he, if_true]
    simpa [List.isEmpty_iff] using he
  · have h2 : l.isEmpty = false := by simpa using he
    rw [h2]
    simp

theorem listIsEmpty_append {α : Type} (l1 l2 : List α) :
    (l1 ++ l2).isEmpty = (l1.isEmpty && l2.isEmpty) := by
  cases l1 <;> simp

theorem fmtVals_append (o : Options) : ∀ (vs ws : List JValue) (e : Nat) (a : Bool),
    fmtVals o e a (vs ++ ws) =
      fmtVals o e a vs ++
        fmtVals o (e + vs.length) (a || (o.stream_ndjson_aggregate && !vs.isEmpty)) ws := by
  intro vs
  induction vs with
  | nil =>
    intro ws e a
    simp [fmtVals]
  | cons v vs ih =>
    intro ws e a
    by_cases hag : o.stream_ndjson_aggregate = true
    · simp only [List.cons_append, fmtVals, hag, if_true]
      simp only [List.append_eq]
      rw [ih ws (e + 1) true]
      simp only [hag, List.isEmpty_cons, Bool.not_false, Bool.true_and, Bool.or_true,
        Bool.true_or, List.length_cons, List.append_assoc]
      have he : e + 1 + vs.length = e + (vs.length + 1) := by omega
      rw [he]
    · have hag2 : o.stream_ndjson_aggregate = false := by
        simpa using hag
      simp only [List.cons_append, fmtVals, hag2, Bool.false_eq_true, if_false]
      simp only [List.append_eq]
      rw [ih ws (e + 1) a]
      simp only [hag2, Bool.false_and, Bool.or_false, List.length_cons, List.append_assoc]
      have he : e + 1 + vs.length = e + (vs.length + 1) := by omega
      rw [he]

theorem fmt_emitElems {o : Options} (hag : o.stream_ndjson_aggregate = true) :
    ∀ (vs : List JValue) (v : JValue) (e : Nat),
      emitElems o (v :: vs) = emitVal o v ++ fmtVals o e true vs := by
  intro vs
  induction vs with
  | nil =>
    intro v e
    rw [emitElems]
    simp [fmtVals]
  | cons v2 vs3 ih =>
    intro v e
    show emitVal o v ++ sepComma o ++ emitElems o (v2 :: vs3) = _
    simp only [fmtVals, hag, if_true]
    rw [ih v2 (e + 1)]
    simp [List.append_assoc]

theorem fmt_agg_array {o : Options} (hag : o.stream_ndjson_aggregate = true)
    (vs : List JValue) (e : Nat) :
    emitVal o (.arr vs) =
      fmtVals o e false vs ++ (if vs.isEmpty then ['[', ']'] else [']']) := by
  cases vs with
  | nil =>
    rw [emitVal, emitElems]
    rfl
  | cons v vs2 =>
    rw [emitVal]
    simp only [List.isEmpty_cons, if_false, Bool.false_eq_true]
    simp only [fmtVals, hag, if_true, Bool.false_eq_true, if_false]
    rw [fmt_emitElems hag vs2 v (e + 1)]
    simp [List.append_assoc]

theorem streamSteps_agg {o : Options} (hag : o.stream_ndjson_aggregate = true) :
    ∀ (chunks : List String) (st : StreamSt), st.o = o →
      (streamSteps st chunks).1 =
        fmtVals o st.emitted st.agOpen (streamSteps st chunks).2.1 ∧
      (streamSteps st chunks).2.2.2.o = o ∧
      (streamSteps st chunks).2.2.2.agOpen
        = (st.agOpen || !(streamSteps st chunks).2.1.isEmpty) ∧
      (streamSteps st chunks).2.2.2.emitted
        = st.emitted + (streamSteps st chunks).2.1.length := by
  intro chunks
  induction chunks with
  | nil =>
    intro st hst
    refine ⟨by simp [streamSteps, fmtVals], hst, by simp [streamSteps], by simp [streamSteps]⟩
  | cons c cs ih =>
    intro st hst
    rw [streamSteps]
    simp only
    have hpush : streamPushEx st c =
        ((if (fmtVals st.o st.emitted st.agOpen
              (consumeS st.o (fuelFor (st.buf ++ c.data)) (st.buf ++ c.data)).1).isEmpty
          then none
          else some (String.mk (fmtVals st.o st.emitted st.agOpen
              (consumeS st.o (fuelFor (st.buf ++ c.data)) (st.buf ++ c.data)).1))),
         (match (consumeS st.o (fuelFor (st.buf ++ c.data)) (st.buf ++ c.data)).2.1 with
          | some (k, rem) => some ⟨k, (st.buf ++ c.data).length - rem⟩
          | none => none),
         ⟨st.o,
          (match (consumeS st.o (fuelFor (st.buf ++ c.data)) (st.buf ++ c.data)).2.1 with
           | some _ => recoverSkip (consumeS st.o (fuelFor (st.buf ++ c.data)) (st.buf ++ c.data)).2.2
           | none => (consumeS st.o (fuelFor (st.buf ++ c.data)) (st.buf ++ c.data)).2.2),
          st.emitted + (consumeS st.o (fuelFor (st.buf ++ c.data)) (st.buf ++ c.data)).1.length,
          st.agOpen || (st.o.stream_ndjson_aggregate &&
            !(consumeS st.o (fuelFor (st.buf ++ c.data)) (st.buf ++ c.data)).1.isEmpty)⟩) := rfl
    set buf := st.buf ++ c.data with hbuf
    set p := consumeS st.o (fuelFor buf) buf with hp
    rw [hpush]
    simp only
    set st1 : StreamSt :=
      ⟨st.o,
       (match p.2.1 with
        | some _ => recoverSkip p.2.2
        | none => p.2.2),
       st.emitted + p.1.length,
       st.agOpen || (st.o.stream_ndjson_aggregate && !p.1.isEmpty)⟩ with hst1
    obtain ⟨ih1, ih2, ih3, ih4⟩ := ih st1 (by rw [hst1, hst])
    refine ⟨?_, ih2, ?_, ?_⟩
    · rw [optChars_eq, ih1]
      rw [fmtVals_append o p.1 (streamSteps st1 cs).2.1 st.emitted st.agOpen]
      rw [hst, hag]
      have hemit : st1.emitted = st.emitted + p.1.length := by rw [hst1]
      have hopen : st1.agOpen = (st.agOpen || (true && !p.1.isEmpty)) := by
        rw [hst1, hst, hag]
      rw [← hemit, ← hopen]
    · rw [ih3]
      rw [hst1]
      simp only [hst, hag, Bool.true_and]
      rw [listIsEmpty_append]
      cases st.agOpen <;> cases hpe : p.1.isEmpty <;>
        cases hte : (streamSteps st1 cs).2.1.isEmpty <;> simp
    · rw [ih4]
      rw [hst1]
      simp only [List.length_append]
      omega

unseal natDigits scanStr striv consumeB consumeS in
/-- C9: with `stream_ndjson_aggregate` on and an error-free flush, the
concatenation of all push outputs with the flush output (which closes the
bracket) is exactly the emission of one JSON array holding the repaired
values in push order. -/
theorem c9_aggregate_forms_array (o : Options) (chunks : List String)
    (hag : o.stream_ndjson_aggregate = true)
    (hfe : (streamRun o chunks).flushErr = none) :
    (streamRun o chunks).out = emitVal o (.arr (streamRun o chunks).vals) := by
  rw [streamRun] at hfe ⊢
  simp only at hfe ⊢
  obtain ⟨s1, s2, s3, s4⟩ := streamSteps_agg hag chunks (streamNew o) rfl
  set t := streamSteps (streamNew o) chunks with ht
  set st1 := t.2.2.2 with hst1
  rw [streamFlushEx] at hfe ⊢
  split at hfe
  · simp at hfe
  · rename_i fvals hc
    rw [hc]
    dsimp only at hfe ⊢
    rw [optChars_eq]
    rw [s1]
    have hopen : st1.agOpen = !t.2.1.isEmpty := by
      rw [s3]
      simp [streamNew]
    have hemit : st1.emitted = t.2.1.length := by
      rw [s4]
      simp [streamNew]
    rw [s2, hag]
    simp only [if_true]
    rw [fmt_agg_array hag (t.2.1 ++ fvals) 0]
    rw [fmtVals_append o t.2.1 fvals 0 false]
    simp only [streamNew, Bool.false_or, hag, Bool.true_and, List.append_assoc]
    rw [← hemit, ← hopen]
    have hcl : (if st1.agOpen || !fvals.isEmpty then [']'] else ['[', ']'])
        = (if (t.2.1 ++ fvals).isEmpty then ['[', ']'] else ([']'] : Chars)) := by
      rw [hopen, listIsEmpty_append]
      cases h1 : t.2.1.isEmpty <;> cases h2 : fvals.isEmpty <;> simp
    rw [hcl]
    simp

/-! ### Strict tokens re-scanned by the tolerant scanners -/

theorem run_split {p : Char → Bool} {ds t : Chars} (hds : ds.all p = true)
    (ht : t = [] ∨ p (t.headD ' ') = false) :
    (ds ++ t).takeWhile p = ds ∧ (ds ++ t).dropWhile p = t := by
  induction ds with
  | nil =>
    simp only [List.nil_append]
    cases ht with
    | inl h => subst h; simp
    | inr h =>
      cases t with
      | nil => simp
      | cons a t1 =>
        simp only [List.headD_cons] at h
        simp [List.takeWhile_cons, List.dropWhile_cons, h]
  | cons d ds1 ih =>
    simp only [List.all_cons, Bool.and_eq_true] at hds
    obtain ⟨h1, h2⟩ := ih hds.2
    simp [List.takeWhile_cons, List.dropWhile_cons, hds.1, h1, h2]

theorem takeDigsU_exact : ∀ (ds t : Chars), ds.all isDigitCh = true →
    (t = [] ∨ (isDigitCh (t.headD ' ') = false ∧ t.headD ' ' ≠ '_')) →
    takeDigsU (ds ++ t) = (match t with | [] => DigScan.more ds | _ => DigScan.done ds t) := by
  intro ds
  induction ds with
  | nil =>
    intro t hds ht
    rcases ht with h0 | ⟨h1, h2⟩
    · subst h0
      rfl
    · cases t with
      | nil => rfl
      | cons c cs1 =>
        simp only [List.headD_cons] at h1 h2
        simp only [List.nil_append]
        rw [takeDigsU.eq_def]
        dsimp only
        rw [if_neg (by simp [h1]), if_neg (by simpa using h2)]
  | cons d ds1 ih =>
    intro t hds ht
    simp only [List.all_cons, Bool.and_eq_true] at hds
    simp only [List.cons_append]
    rw [takeDigsU.eq_def]
    dsimp only
    rw [if_pos hds.1]
    rw [ih t hds.2 ht]
    cases t <;> rfl

theorem stripZeros_id {ip : Chars}
    (h : ip = ['0'] ∨ (ip ≠ [] ∧ ip.headD ' ' ≠ '0')) : stripZeros ip = ip := by
  rcases h with h0 | ⟨h1, h2⟩
  · subst h0
    rfl
  · cases ip with
    | nil => exact absurd rfl h1
    | cons c cs =>
      simp only [List.headD_cons] at h2
      have hd : (c :: cs).dropWhile (fun x => decide (x = '0')) = c :: cs := by
        rw [List.dropWhile_cons, if_neg (by simpa using h2)]
      rw [stripZeros]
      simp only [hd]
      rw [if_neg (by simp)]

theorem renderNum_id {neg : Bool} {ip : Chars} {fp : Option Chars}
    {ep : Option (Char × Option Char × Chars)}
    (hip : ip = ['0'] ∨ (ip ≠ [] ∧ ip.headD ' ' ≠ '0'))
    (hfp : ∀ ds, fp = some ds → ds ≠ []) :
    renderNum neg ip fp ep =
      (if neg then ['-'] else []) ++ (ip ++ (fracBlock fp ++ expChars ep)) := by
  rw [renderNum_eq]
  have h1 : intChars ip = ip := by
    rw [intChars]
    have hne : ip ≠ [] := by
      rcases hip with h0 | ⟨h1, _⟩
      · subst h0
        simp
      · exact h1
    rw [if_neg (by simpa [List.isEmpty_iff] using hne)]
    exact stripZeros_id hip
  have h2 : fracChars fp = fracBlock fp := by
    cases fp with
    | none => rfl
    | some ds =>
      have h3 := hfp ds rfl
      rw [fracChars, fracBlock]
      rw [if_neg (by simpa [List.isEmpty_iff] using h3)]
  rw [h1, h2]

theorem sNumInt_inv {cs ip r : Chars} (h : sNumInt cs = some (ip, r)) :
    cs = ip ++ r ∧ ip.all isDigitCh = true ∧ ip ≠ [] ∧
      (ip = ['0'] ∨ ip.headD ' ' ≠ '0') := by
  rw [sNumInt.eq_def] at h
  split at h
  · rename_i c cs1
    split at h
    · rename_i hc0
      simp only [Option.some.injEq, Prod.mk.injEq] at h
      rw [← h.1, ← h.2, hc0]
      exact ⟨rfl, by decide, by simp, Or.inl rfl⟩
    · rename_i hc0
      split at h
      · rename_i hdig
        simp only [Option.some.injEq, Prod.mk.injEq] at h
        rw [← h.1, ← h.2]
        refine ⟨?_, ?_, by simp, ?_⟩
        · simp [List.takeWhile_append_dropWhile]
        · simp only [List.all_cons, Bool.and_eq_true]
          exact ⟨hdig, takeWhile_all cs1⟩
        · right
          simpa using hc0
      · cases h
  · cases h

theorem sNumFrac_inv {cs fp r : Chars} (h : sNumFrac cs = some (fp, r)) :
    cs = fp ++ r ∧
      ((fp = [] ∧ r = cs) ∨
       (∃ ds, fp = '.' :: ds ∧ ds ≠ [] ∧ ds.all isDigitCh = true ∧
         (r = [] ∨ isDigitCh (r.headD ' ') = false))) := by
  rw [sNumFrac.eq_def] at h
  split at h
  · rename_i cs1
    split at h
    · cases h
    · rename_i hne
      simp only [Option.some.injEq, Prod.mk.injEq] at h
      rw [← h.1, ← h.2]
      constructor
      · simp [List.takeWhile_append_dropWhile]
      · right
        refine ⟨cs1.takeWhile isDigitCh, rfl, by simpa [List.isEmpty_iff] using hne,
          takeWhile_all cs1, ?_⟩
        cases hd : cs1.dropWhile isDigitCh with
        | nil => exact Or.inl rfl
        | cons a t =>
          right
          simp only [hd, List.headD_cons]
          exact dropWhile_head_false cs1 a t hd
  · simp only [Option.some.injEq, Prod.mk.injEq] at h
    rw [← h.1, ← h.2]
    exact ⟨by simp, Or.inl ⟨rfl, rfl⟩⟩

theorem sNumExp_inv {cs ep r : Chars} (h : sNumExp cs = some (ep, r)) :
    cs = ep ++ r ∧
      ((ep = [] ∧ r = cs ∧ (cs = [] ∨ (cs.headD ' ' ≠ 'e' ∧ cs.headD ' ' ≠ 'E'))) ∨
       (∃ e sg ds, ep = e :: (sgChars sg ++ ds) ∧ (e = 'e' ∨ e = 'E') ∧
         (sg = none ∨ sg = some '+' ∨ sg = some '-') ∧
         ds ≠ [] ∧ ds.all isDigitCh = true ∧
         (r = [] ∨ isDigitCh (r.headD ' ') = false))) := by
  rw [sNumExp.eq_def] at h
  split at h
  · rename_i e cs1
    split at h
    · rename_i heE
      simp only [Bool.or_eq_true, decide_eq_true_eq] at heE
      split at h
      · rename_i s cs2
        split at h
        · rename_i hspm
          simp only [Bool.or_eq_true, decide_eq_true_eq] at hspm
          split at h
          · cases h
          · rename_i hne
            simp only [Option.some.injEq, Prod.mk.injEq] at h
            rw [← h.1, ← h.2]
            constructor
            · simp [List.takeWhile_append_dropWhile]
            · right
              refine ⟨e, some s, cs2.takeWhile isDigitCh, by simp [sgChars], heE, ?_,
                by simpa [List.isEmpty_iff] using hne, takeWhile_all cs2, ?_⟩
              · rcases hspm with h1 | h1
                · exact Or.inr (Or.inl (by rw [h1]))
                · exact Or.inr (Or.inr (by rw [h1]))
              · cases hd : cs2.dropWhile isDigitCh with
                | nil => exact Or.inl rfl
                | cons a t =>
                  right
                  simp only [hd, List.headD_cons]
                  exact dropWhile_head_false cs2 a t hd
        · rename_i hspm
          split at h
          · cases h
          · rename_i hne
            simp only [Option.some.injEq, Prod.mk.injEq] at h
            rw [← h.1, ← h.2]
            constructor
            · simp [List.takeWhile_append_dropWhile]
            · right
              refine ⟨e, none, (s :: cs2).takeWhile isDigitCh, by simp [sgChars], heE,
                Or.inl rfl, by simpa [List.isEmpty_iff] using hne,
                takeWhile_all (s :: cs2), ?_⟩
              cases hd : (s :: cs2).dropWhile isDigitCh with
              | nil => exact Or.inl rfl
              | cons a t =>
                right
                simp only [hd, List.headD_cons]
                exact dropWhile_head_false (s :: cs2) a t hd
      · cases h
    · rename_i heE
      simp only [Bool.or_eq_true, decide_eq_true_eq, not_or] at heE
      simp only [Option.some.injEq, Prod.mk.injEq] at h
      rw [← h.1, ← h.2]
      refine ⟨by simp, Or.inl ⟨rfl, rfl, Or.inr ?_⟩⟩
      simp only [List.headD_cons]
      exact heE
  · simp only [Option.some.injEq, Prod.mk.injEq] at h
    rw [← h.1, ← h.2]
    exact ⟨by simp, Or.inl ⟨rfl, rfl, Or.inl rfl⟩⟩

theorem sBoundary_facts {r : Chars} (hb : sBoundary r = true) :
    r = [] ∨ (isDigitCh (r.headD ' ') = false ∧ r.headD ' ' ≠ '_' ∧
      r.headD ' ' ≠ '.' ∧ r.headD ' ' ≠ 'e' ∧ r.headD ' ' ≠ 'E' ∧
      r.headD ' ' ≠ 'x' ∧ r.headD ' ' ≠ 'X' ∧ r.headD ' ' ≠ 'o' ∧
      r.headD ' ' ≠ 'O' ∧ r.headD ' ' ≠ 'b' ∧ r.headD ' ' ≠ 'B') := by
  cases r with
  | nil => exact Or.inl rfl
  | cons c cs =>
    right
    rw [sBoundary] at hb
    simp only [isJsonWs, Bool.or_eq_true, decide_eq_true_eq] at hb
    simp only [List.headD_cons]
    have hc : c = ' ' ∨ c = '\t' ∨ c = '\n' ∨ c = '\x0d' ∨ c = ',' ∨ c = ']' ∨ c = rbrace := by
      tauto
    rcases hc with h | h | h | h | h | h | h <;> subst h <;> exact (by decide)

theorem digit_not_pm {d : Char} (hd : isDigitCh d = true) : (d = '+' || d = '-') = false := by
  by_cases h1 : d = '+'
  · subst h1
    exact absurd hd (by decide)
  · by_cases h2 : d = '-'
    · subst h2
      exact absurd hd (by decide)
    · simp [h1, h2]

theorem digit_not_dot {d : Char} (hd : isDigitCh d = true) : d ≠ '.' := by
  intro h
  subst h
  exact absurd hd (by decide)

theorem strict_scanExpTail (neg : Bool) {ip : Chars} {fp : Option Chars}
    {e : Char} {sg : Option Char} {ds2 r3 : Chars}
    (he : e = 'e' ∨ e = 'E') (hsg : sg = none ∨ sg = some '+' ∨ sg = some '-')
    (hdne : ds2 ≠ []) (hdall : ds2.all isDigitCh = true)
    (hr3 : r3 = [] ∨ (isDigitCh (r3.headD ' ') = false ∧ r3.headD ' ' ≠ '_')) :
    scanExpTail true neg ip fp e (sgChars sg ++ (ds2 ++ r3)) =
      NumScan.done (renderNum neg ip fp (some (e, sg, ds2))) r3 := by
  have htd := takeDigsU_exact ds2 r3 hdall hr3
  have hdie : ds2.isEmpty = false := by
    simpa [List.isEmpty_iff] using hdne
  rcases hsg with h0 | hp | hm
  · subst h0
    simp only [sgChars, List.nil_append]
    cases ds2 with
    | nil => exact absurd rfl hdne
    | cons d ds2t =>
      simp only [List.all_cons, Bool.and_eq_true] at hdall
      rw [scanExpTail.eq_def]
      simp only [List.cons_append]
      rw [if_neg (by simp [digit_not_pm hdall.1])]
      rw [show d :: (ds2t ++ r3) = (d :: ds2t) ++ r3 from rfl, htd]
      cases r3 with
      | nil =>
        rw [scanExpDigs]
        simp only [if_true, hdie, Bool.false_eq_true, if_false]
      | cons c3 r3t =>
        rw [scanExpDigs]
        simp only [hdie, Bool.false_eq_true, if_false]
  · subst hp
    simp only [sgChars, List.cons_append, List.nil_append]
    rw [scanExpTail.eq_def]
    dsimp only
    rw [if_pos (by decide)]
    rw [htd]
    cases r3 with
    | nil =>
      rw [scanExpDigs]
      simp only [if_true, hdie, Bool.false_eq_true, if_false]
    | cons c3 r3t =>
      rw [scanExpDigs]
      simp only [hdie, Bool.false_eq_true, if_false]
  · subst hm
    simp only [sgChars, List.cons_append, List.nil_append]
    rw [scanExpTail.eq_def]
    dsimp only
    rw [if_pos (by decide)]
    rw [htd]
    cases r3 with
    | nil =>
      rw [scanExpDigs]
      simp only [if_true, hdie, Bool.false_eq_true, if_false]
    | cons c3 r3t =>
      rw [scanExpDigs]
      simp only [hdie, Bool.false_eq_true, if_false]

theorem strict_scanFracTail_noexp (o : Options) (neg : Bool) {ip ds r3 : Chars}
    (hdne : ds ≠ []) (hdall : ds.all isDigitCh = true)
    (hr3 : r3 = [] ∨ (isDigitCh (r3.headD ' ') = false ∧ r3.headD ' ' ≠ '_' ∧
      r3.headD ' ' ≠ 'e' ∧ r3.headD ' ' ≠ 'E')) :
    scanFracTail o true neg ip (ds ++ r3) =
      NumScan.done (renderNum neg ip (some ds) none) r3 := by
  have htd := takeDigsU_exact ds r3 hdall (by
    rcases hr3 with h | ⟨h1, h2, _⟩
    · exact Or.inl h
    · exact Or.inr ⟨h1, h2⟩)
  have hdie : ds.isEmpty = false := by
    simpa [List.isEmpty_iff] using hdne
  rw [scanFracTail, htd]
  cases r3 with
  | nil =>
    dsimp only
    simp only [hdie, Bool.false_eq_true, if_false, if_true]
  | cons c3 r3t =>
    rcases hr3 with h | ⟨h1, h2, h3, h4⟩
    · cases h
    · simp only [List.headD_cons] at h3 h4
      have hce : (c3 = 'e' || c3 = 'E') = false := by
        simp [h3, h4]
      dsimp only
      simp only [hdie, Bool.false_eq_true, if_false, hce]

theorem strict_scanFracTail_exp (o : Options) (neg : Bool) {ip ds : Chars}
    {e : Char} {sg : Option Char} {ds2 r3 : Chars}
    (hdne : ds ≠ []) (hdall : ds.all isDigitCh = true)
    (he : e = 'e' ∨ e = 'E') (hsg : sg = none ∨ sg = some '+' ∨ sg = some '-')
    (hdne2 : ds2 ≠ []) (hdall2 : ds2.all isDigitCh = true)
    (hr3 : r3 = [] ∨ (isDigitCh (r3.headD ' ') = false ∧ r3.headD ' ' ≠ '_')) :
    scanFracTail o true neg ip (ds ++ (e :: (sgChars sg ++ (ds2 ++ r3)))) =
      NumScan.done (renderNum neg ip (some ds) (some (e, sg, ds2))) r3 := by
  have hednd : isDigitCh e = false ∧ e ≠ '_' := by
    rcases he with h | h <;> subst h <;> exact (by decide)
  have htd := takeDigsU_exact ds (e :: (sgChars sg ++ (ds2 ++ r3))) hdall
    (Or.inr (by simpa using hednd))
  have hdie : ds.isEmpty = false := by
    simpa [List.isEmpty_iff] using hdne
  have heE : (e = 'e' || e = 'E') = true := by
    rcases he with h | h <;> simp [h]
  rw [scanFracTail, htd]
  dsimp only
  simp only [hdie, Bool.false_eq_true, if_false, heE, if_true]
  exact strict_scanExpTail neg he hsg hdne2 hdall2 hr3

theorem strict_scanIntTail (o : Options) (neg : Bool) {ip : Chars} {fp : Option Chars}
    {ep : Option (Char × Option Char × Chars)} {r3 : Chars}
    (hipd : ip.all isDigitCh = true) (hipne : ip ≠ [])
    (hfpc : fp = none ∨ ∃ ds, fp = some ds ∧ ds ≠ [] ∧ ds.all isDigitCh = true)
    (hepc : ep = none ∨ ∃ e sg ds2, ep = some (e, sg, ds2) ∧ (e = 'e' ∨ e = 'E') ∧
      (sg = none ∨ sg = some '+' ∨ sg = some '-') ∧ ds2 ≠ [] ∧ ds2.all isDigitCh = true)
    (hb3 : r3 = [] ∨ (isDigitCh (r3.headD ' ') = false ∧ r3.headD ' ' ≠ '_' ∧
      r3.headD ' ' ≠ '.' ∧ r3.headD ' ' ≠ 'e' ∧ r3.headD ' ' ≠ 'E' ∧
      r3.headD ' ' ≠ 'x' ∧ r3.headD ' ' ≠ 'X' ∧ r3.headD ' ' ≠ 'o' ∧
      r3.headD ' ' ≠ 'O' ∧ r3.headD ' ' ≠ 'b' ∧ r3.headD ' ' ≠ 'B')) :
    scanIntTail o true neg (ip ++ (fracBlock fp ++ (expChars ep ++ r3))) =
      NumScan.done (renderNum neg ip fp ep) r3 := by
  rcases hfpc with hfp0 | ⟨ds, hfp, hdne, hdall⟩
  · subst hfp0
    rcases hepc with hep0 | ⟨e, sg, ds2, hep, he, hsg, hdne2, hdall2⟩
    · subst hep0
      simp only [fracBlock, expChars, List.nil_append]
      have htd := takeDigsU_exact ip r3 hipd (by
        rcases hb3 with h | ⟨h1, h2, _⟩
        · exact Or.inl h
        · exact Or.inr ⟨h1, h2⟩)
      rw [scanIntTail, htd]
      cases r3 with
      | nil => rfl
      | cons c3 r3t =>
        rcases hb3 with h | ⟨h1, h2, h3, h4, h5, h6, h7, h8, h9, h10, h11⟩
        · cases h
        · simp only [List.headD_cons] at h3 h4 h5 h6 h7 h8 h9 h10 h11
          dsimp only
          rw [if_neg (by simpa using h3)]
          rw [if_neg (by simp [h4, h5])]
          rw [if_neg (by simp [h6, h7])]
          rw [if_neg (by simp [h8, h9])]
          rw [if_neg (by simp [h10, h11])]
    · subst hep
      simp only [fracBlock, expChars, List.nil_append]
      have hednd : isDigitCh e = false ∧ e ≠ '_' := by
        rcases he with h | h <;> subst h <;> exact (by decide)
      have htd := takeDigsU_exact ip (e :: (sgChars sg ++ ds2 ++ r3)) hipd
        (Or.inr (by simpa using hednd))
      rw [show (e :: (sgChars sg ++ ds2) ++ r3 : Chars) = e :: (sgChars sg ++ ds2 ++ r3) by
        simp [List.append_assoc]]
      rw [scanIntTail, htd]
      dsimp only
      have hene : e ≠ '.' := by
        rcases he with h | h <;> subst h <;> exact (by decide)
      rw [if_neg (by simpa using hene)]
      have heE : (e = 'e' || e = 'E') = true := by
        rcases he with h | h <;> simp [h]
      rw [if_pos (by simpa using heE)]
      rw [show (sgChars sg ++ ds2 ++ r3 : Chars) = sgChars sg ++ (ds2 ++ r3) by
        simp [List.append_assoc]]
      exact strict_scanExpTail neg he hsg hdne2 hdall2 (by
        rcases hb3 with h | ⟨h1, h2, _⟩
        · exact Or.inl h
        · exact Or.inr ⟨h1, h2⟩)
  · subst hfp
    simp only [fracBlock]
    have htd := takeDigsU_exact ip
      ('.' :: ds ++ (expChars ep ++ r3)) hipd (Or.inr (by
        simp only [List.cons_append, List.headD_cons]
        decide))
    rw [show ('.' :: ds ++ (expChars ep ++ r3) : Chars) = '.' :: (ds ++ (expChars ep ++ r3)) by
      simp] at htd ⊢
    rw [scanIntTail, htd]
    dsimp only
    rw [if_pos rfl]
    rcases hepc with hep0 | ⟨e, sg, ds2, hep, he, hsg, hdne2, hdall2⟩
    · subst hep0
      simp only [expChars, List.nil_append]
      exact strict_scanFracTail_noexp o neg hdne hdall (by
        rcases hb3 with h | ⟨h1, h2, h3, h4, h5, _⟩
        · exact Or.inl h
        · exact Or.inr ⟨h1, h2, h4, h5⟩)
    · subst hep
      simp only [expChars]
      rw [show (e :: (sgChars sg ++ ds2) ++ r3 : Chars) = e :: (sgChars sg ++ (ds2 ++ r3)) by
        simp [List.append_assoc]]
      exact strict_scanFracTail_exp o neg hdne hdall he hsg hdne2 hdall2 (by
        rcases hb3 with h | ⟨h1, h2, _⟩
        · exact Or.inl h
        · exact Or.inr ⟨h1, h2⟩)

theorem strict_scanNumBody (o : Options) (neg : Bool) {cs lex r : Chars}
    (h : sNumScan1 cs = some (lex, r)) (hb : sBoundary r = true) :
    scanNumBody o true neg cs = .done ((if neg then ['-'] else []) ++ lex) r ∧
      cs = lex ++ r := by
  rw [sNumScan1] at h
  split at h
  · cases h
  · rename_i ip r1 hι
    split at h
    · cases h
    · rename_i fp r2 hφ
      split at h
      · cases h
      · rename_i ep r3 hξ
        simp only [Option.some.injEq, Prod.mk.injEq] at h
        obtain ⟨hlex, hr⟩ := h
        subst hr
        subst hlex
        obtain ⟨hcs, hipd, hipne, hipz⟩ := sNumInt_inv hι
        obtain ⟨hr1, hfpc⟩ := sNumFrac_inv hφ
        obtain ⟨hr2, hepc⟩ := sNumExp_inv hξ
        subst hcs
        subst hr1
        subst hr2
        have hbf := sBoundary_facts hb
        have hfopt : ∃ fpo, fp = fracBlock fpo ∧
            (fpo = none ∨ ∃ ds, fpo = some ds ∧ ds ≠ [] ∧ ds.all isDigitCh = true) := by
          rcases hfpc with ⟨hfp0, _⟩ | ⟨ds, hfp, hdne, hdall, _⟩
          · exact ⟨none, hfp0, Or.inl rfl⟩
          · exact ⟨some ds, by rw [hfp, fracBlock], Or.inr ⟨ds, rfl, hdne, hdall⟩⟩
        have hEopt : ∃ epo, ep = expChars epo ∧
            (epo = none ∨ ∃ e sg ds2, epo = some (e, sg, ds2) ∧ (e = 'e' ∨ e = 'E') ∧
              (sg = none ∨ sg = some '+' ∨ sg = some '-') ∧ ds2 ≠ [] ∧
              ds2.all isDigitCh = true) := by
          rcases hepc with ⟨hep0, _⟩ | ⟨e, sg, ds2, hep, he, hsg, hdne2, hdall2, _⟩
          · exact ⟨none, hep0, Or.inl rfl⟩
          · exact ⟨some (e, sg, ds2), by rw [hep, expChars],
              Or.inr ⟨e, sg, ds2, rfl, he, hsg, hdne2, hdall2⟩⟩
        obtain ⟨fpo, hfB, hES2⟩ := hfopt
        obtain ⟨epo, hEB, hES⟩ := hEopt
        subst hfB
        subst hEB
        have hint := strict_scanIntTail o neg hipd hipne hES2 hES hbf
        have hipz2 : ip = ['0'] ∨ (ip ≠ [] ∧ ip.headD ' ' ≠ '0') := by
          rcases hipz with h1 | h1
          · exact Or.inl h1
          · exact Or.inr ⟨hipne, h1⟩
        have hfpne : ∀ ds, fpo = some ds → ds ≠ [] := by
          intro ds hds
          rcases hES2 with h1 | ⟨ds2, h1, h2, h3⟩
          · rw [h1] at hds
            cases hds
          · rw [h1] at hds
            simp only [Option.some.injEq] at hds
            rw [← hds]
            exact h2
        have hrn : renderNum neg ip fpo epo = (if neg then ['-'] else []) ++
            (ip ++ fracBlock fpo ++ expChars epo) := by
          rw [renderNum_id hipz2 hfpne]
          simp [List.append_assoc]
        constructor
        · cases hip2 : ip with
          | nil => exact absurd hip2 hipne
          | cons i0 ipt =>
            have hi0d : isDigitCh i0 = true := by
              rw [hip2] at hipd
              simp only [List.all_cons, Bool.and_eq_true] at hipd
              exact hipd.1
            rw [hip2] at hint hrn
            show scanNumBody o true neg
                (i0 :: (ipt ++ (fracBlock fpo ++ (expChars epo ++ r3)))) = _
            rw [scanNumBody]
            rw [if_neg (by simpa using digit_not_dot hi0d)]
            have hint2 : scanIntTail o true neg
                (i0 :: (ipt ++ (fracBlock fpo ++ (expChars epo ++ r3)))) =
                NumScan.done (renderNum neg (i0 :: ipt) fpo epo) r3 := hint
            rw [hint2, hrn]
        · simp [List.append_assoc]

theorem strict_scanNumber (o : Options) {cs lex r : Chars}
    (h : sNumScan cs = some (lex, r)) (hb : sBoundary r = true) :
    scanNumber o true cs = .done lex r ∧ cs = lex ++ r := by
  rw [sNumScan.eq_def] at h
  split at h
  · rename_i cs0 cs1
    simp only [Option.map_eq_some'] at h
    obtain ⟨⟨l1, r1⟩, hp, hq⟩ := h
    simp only [Prod.mk.injEq] at hq
    obtain ⟨hq1, hq2⟩ := hq
    subst hq2
    obtain ⟨hbody, hsplit⟩ := strict_scanNumBody o true hp hb
    constructor
    · rw [show scanNumber o true ('-' :: cs1) = scanNumBody o true true cs1 from rfl]
      rw [hbody, ← hq1]
      rfl
    · rw [← hq1, hsplit]
      simp
  · rename_i hnot
    obtain ⟨hbody, hsplit⟩ := strict_scanNumBody o false h hb
    constructor
    · rw [scanNumber.eq_def]
      split
      · rename_i a1 a2
        exact (hnot _ rfl).elim
      · simpa using hbody
    · exact hsplit

/-! ### Trivia skipping on strict text -/

theorem isJsonWs_eq : isJsonWs = isWsCh := rfl

theorem not_hash_cond {c : Char} (o : Options) (h : c ≠ '#') :
    (c = '#' && o.tolerate_hash_comments) = false := by
  simp [h]

theorem digit_not_trivia {c : Char} (hd : isDigitCh c = true) : isTriviaWs c = false := by
  have h1 : c ≠ ' ' := fun h => absurd hd (by subst h; decide)
  have h2 : c ≠ '\t' := fun h => absurd hd (by subst h; decide)
  have h3 : c ≠ '\n' := fun h => absurd hd (by subst h; decide)
  have h4 : c ≠ '\x0d' := fun h => absurd hd (by subst h; decide)
  have h5 : c.toNat ≠ 0xFEFF := by
    simp only [isDigitCh, Bool.and_eq_true, decide_eq_true_eq] at hd
    omega
  simp [isTriviaWs, isWsCh, h1, h2, h3, h4, h5]

theorem digit_not_slash {c : Char} (hd : isDigitCh c = true) : c ≠ '/' :=
  fun h => absurd hd (by subst h; decide)

theorem digit_not_hashch {c : Char} (hd : isDigitCh c = true) : c ≠ '#' :=
  fun h => absurd hd (by subst h; decide)

theorem digit_not_openquote {c : Char} (hd : isDigitCh c = true) : isOpenQuote c = false := by
  simp only [isDigitCh, Bool.and_eq_true, decide_eq_true_eq] at hd
  by_contra hcon
  have h : isOpenQuote c = true := by
    simpa using hcon
  simp only [isOpenQuote, Bool.or_eq_true, decide_eq_true_eq] at h
  rcases h with ((((h1 | h1) | h1) | h1) | h1) | h1
  · have h2 := congrArg Char.toNat h1
    have h3 : ('"' : Char).toNat = 34 := rfl
    rw [h3] at h2
    omega
  · have h2 := congrArg Char.toNat h1
    have h3 : ('\'' : Char).toNat = 39 := rfl
    rw [h3] at h2
    omega
  all_goals omega

theorem digit_not_identStart {c : Char} (hd : isDigitCh c = true) : isIdentStart c = false := by
  simp only [isDigitCh, Bool.and_eq_true, decide_eq_true_eq] at hd
  by_contra hcon
  have h : isIdentStart c = true := by
    simpa using hcon
  simp only [isIdentStart, Bool.or_eq_true, Bool.and_eq_true, decide_eq_true_eq] at h
  rcases h with ((⟨h1, h2⟩ | ⟨h1, h2⟩) | h1) | h1
  · omega
  · omega
  · have h2 := congrArg Char.toNat h1
    have h3 : ('_' : Char).toNat = 95 := rfl
    rw [h3] at h2
    omega
  · have h2 := congrArg Char.toNat h1
    have h3 : ('$' : Char).toNat = 36 := rfl
    rw [h3] at h2
    omega

theorem striv_strict (o : Options) (m : Bool) : ∀ (ws rest : Chars),
    ws.all isWsCh = true →
    (∀ c cs1, rest = c :: cs1 → isTriviaWs c = false ∧ c ≠ '/' ∧
      (c = '#' && o.tolerate_hash_comments) = false) →
    striv o m (ws ++ rest) = some rest
  | [], rest => by
    intro _ hr
    cases rest with
    | nil =>
      show striv o m [] = some []
      rw [striv.eq_def]
    | cons c cs1 =>
      obtain ⟨h1, h2, h3⟩ := hr c cs1 rfl
      rw [List.nil_append, striv.eq_def]
      dsimp only
      rw [if_neg (by simp [h1]), if_neg (by simpa using h2), if_neg (by simp [h3])]
  | w :: ws1, rest => by
    intro hws hr
    simp only [List.all_cons, Bool.and_eq_true] at hws
    have htw : isTriviaWs w = true := by
      simp [isTriviaWs, hws.1]
    rw [List.cons_append, striv.eq_def]
    dsimp only
    rw [if_pos htw]
    exact striv_strict o m ws1 rest hws.2 hr

theorem boundary_not_identCh {r : Chars} (hb : sBoundary r = true) :
    r = [] ∨ isIdentCh (r.headD ' ') = false := by
  cases r with
  | nil => exact Or.inl rfl
  | cons c cs =>
    right
    rw [sBoundary] at hb
    simp only [isJsonWs, Bool.or_eq_true, decide_eq_true_eq] at hb
    simp only [List.headD_cons]
    have hc : c = ' ' ∨ c = '\t' ∨ c = '\n' ∨ c = '\x0d' ∨ c = ',' ∨ c = ']' ∨ c = rbrace := by
      tauto
    rcases hc with h | h | h | h | h | h | h <;> subst h <;> decide

theorem kwAt_inv {cs : Chars} {v : JValue} {rest : Chars} (h : kwAt cs = some (v, rest)) :
    ∃ kw : Chars, cs = kw ++ rest ∧ sBoundary rest = true ∧ kw ≠ [] ∧
      kw.all isIdentCh = true ∧ (∀ o : Options, kwValue o kw = v) ∧
      (∃ c0 t0, kw = c0 :: t0 ∧ (c0 = 't' ∨ c0 = 'f' ∨ c0 = 'n')) := by
  rw [kwAt] at h
  split at h
  · rename_i hg
    simp only [Bool.and_eq_true] at hg
    simp only [Option.some.injEq, Prod.mk.injEq] at h
    obtain ⟨hv, hrest⟩ := h
    obtain ⟨t, ht⟩ := List.isPrefixOf_iff_prefix.mp hg.1
    have hdrop : cs.drop 4 = t := by
      rw [← ht]
      have h0 := List.drop_left ("true".data) t
      simpa using h0
    refine ⟨"true".data, ?_, ?_, by decide, by decide, ?_,
      ⟨'t', "rue".data, rfl, Or.inl rfl⟩⟩
    · rw [← hrest, hdrop, ← ht]
    · rw [← hrest]
      exact hg.2
    · intro o
      rw [← hv]
      rfl
  · split at h
    · rename_i hg
      simp only [Bool.and_eq_true] at hg
      simp only [Option.some.injEq, Prod.mk.injEq] at h
      obtain ⟨hv, hrest⟩ := h
      obtain ⟨t, ht⟩ := List.isPrefixOf_iff_prefix.mp hg.1
      have hdrop : cs.drop 5 = t := by
        rw [← ht]
        have h0 := List.drop_left ("false".data) t
        simpa using h0
      refine ⟨"false".data, ?_, ?_, by decide, by decide, ?_,
        ⟨'f', "alse".data, rfl, Or.inr (Or.inl rfl)⟩⟩
      · rw [← hrest, hdrop, ← ht]
      · rw [← hrest]
        exact hg.2
      · intro o
        rw [← hv]
        rfl
    · split at h
      · rename_i hg
        simp only [Bool.and_eq_true] at hg
        simp only [Option.some.injEq, Prod.mk.injEq] at h
        obtain ⟨hv, hrest⟩ := h
        obtain ⟨t, ht⟩ := List.isPrefixOf_iff_prefix.mp hg.1
        have hdrop : cs.drop 4 = t := by
          rw [← ht]
          have h0 := List.drop_left ("null".data) t
          simpa using h0
        refine ⟨"null".data, ?_, ?_, by decide, by decide, ?_,
          ⟨'n', "ull".data, rfl, Or.inr (Or.inr rfl)⟩⟩
        · rw [← hrest, hdrop, ← ht]
        · rw [← hrest]
          exact hg.2
        · intro o
          rw [← hv]
          rfl
      · cases h

/-! ### Strict string bodies re-scanned by the tolerant string scanner -/

theorem sScanStr_sub :
    ∀ (acc cs s r : Chars), sScanStr acc cs = some (s, r) →
      scanStr '"' acc cs = .done s r
  | acc, [], s, r => by
    intro h
    simp [sScanStr] at h
  | acc, c :: cs1, s, r => by
    intro h
    rw [sScanStr.eq_def] at h
    dsimp only at h
    split at h
    · rename_i hcq
      simp only [Option.some.injEq, Prod.mk.injEq] at h
      obtain ⟨h1, h2⟩ := h
      rw [scanStr.eq_def]
      dsimp only
      rw [if_pos hcq, h1, h2]
    · rename_i hcq
      split at h
      · rename_i hcb
        cases cs1 with
        | nil => simp at h
        | cons e cs2 =>
          dsimp only at h
          split at h
          · rename_i heu
            split at h
            · rename_i n1 cs3 h1
              have hb1 := hexQuadAt_length h1
              split at h
              · rename_i hhs
                split at h
                · rename_i n2 cs4 h2
                  have hb2 := lowSurAt_length h2
                  have ih := sScanStr_sub _ cs4 s r h
                  rw [scanStr.eq_def]
                  dsimp only
                  rw [if_neg hcq, if_pos hcb]
                  rw [if_pos heu]
                  split
                  · rename_i a b heq
                    rw [h1] at heq
                    simp only [Option.some.injEq, Prod.mk.injEq] at heq
                    obtain ⟨he1, he2⟩ := heq
                    subst he1
                    subst he2
                    rw [if_pos hhs]
                    split
                    · rename_i a2 b2 heq2
                      rw [h2] at heq2
                      simp only [Option.some.injEq, Prod.mk.injEq] at heq2
                      obtain ⟨hf1, hf2⟩ := heq2
                      subst hf1
                      subst hf2
                      exact ih
                    · rename_i heq2
                      rw [h2] at heq2
                      cases heq2
                  · rename_i heq
                    rw [h1] at heq
                    cases heq
                · cases h
              · rename_i hhs
                split at h
                · cases h
                · rename_i hls
                  have ih := sScanStr_sub _ cs3 s r h
                  rw [scanStr.eq_def]
                  dsimp only
                  rw [if_neg hcq, if_pos hcb]
                  rw [if_pos heu]
                  split
                  · rename_i a b heq
                    rw [h1] at heq
                    simp only [Option.some.injEq, Prod.mk.injEq] at heq
                    obtain ⟨he1, he2⟩ := heq
                    subst he1
                    subst he2
                    rw [if_neg hhs, if_neg hls]
                    exact ih
                  · rename_i heq
                    rw [h1] at heq
                    cases heq
            · cases h
          · rename_i heu
            split at h
            · have ih := sScanStr_sub _ cs2 s r h
              rw [scanStr.eq_def]
              dsimp only
              rw [if_neg hcq, if_pos hcb]
              rw [if_neg heu]
              exact ih
            · cases h
      · rename_i hcb
        split at h
        · cases h
        · have ih := sScanStr_sub _ cs1 s r h
          rw [scanStr.eq_def]
          dsimp only
          rw [if_neg hcq, if_neg hcb]
          exact ih
termination_by acc cs s r => cs.length
decreasing_by
  all_goals simp only [List.length_cons] at *
  all_goals omega

/-! ### Head characters of strict tokens -/

theorem sNumScan1_head {cs lex r : Chars} (h : sNumScan1 cs = some (lex, r)) :
    ∃ d t, cs = d :: t ∧ isDigitCh d = true := by
  rw [sNumScan1] at h
  split at h
  · cases h
  · rename_i ip r1 hint
    cases cs with
    | nil => rw [sNumInt] at hint; cases hint
    | cons d t =>
      refine ⟨d, t, rfl, ?_⟩
      rw [sNumInt] at hint
      split at hint
      · rename_i h0
        subst h0
        decide
      · split at hint
        · rename_i hd
          exact hd
        · cases hint

theorem sNumScan_head {cs lex r : Chars} (h : sNumScan cs = some (lex, r)) :
    (∃ d t, cs = d :: t ∧ isDigitCh d = true) ∨
      (∃ d t, cs = '-' :: d :: t ∧ isDigitCh d = true) := by
  rw [sNumScan.eq_def] at h
  split at h
  · rename_i cs0 cs1
    simp only [Option.map_eq_some'] at h
    obtain ⟨⟨l1, r1⟩, hp, _⟩ := h
    obtain ⟨d, t, hdt, hd⟩ := sNumScan1_head hp
    exact Or.inr ⟨d, t, by rw [hdt], hd⟩
  · exact Or.inl (sNumScan1_head h)

theorem sVal_head {f : Nat} {c : Char} {cs1 : Chars} {v : JValue} {r : Chars}
    (hw : isJsonWs c = false) (h : sVal f (c :: cs1) = some (v, r)) :
    c = lbrace ∨ c = '[' ∨ c = '"' ∨ c = 't' ∨ c = 'f' ∨ c = 'n' ∨
      isDigitCh c = true ∨ c = '-' := by
  cases f with
  | zero => simp [sVal] at h
  | succ f =>
    rw [sVal] at h
    have hdw : (c :: cs1).dropWhile isJsonWs = c :: cs1 := by
      simp [List.dropWhile_cons, hw]
    rw [hdw] at h
    dsimp only at h
    split at h
    · rename_i h1
      exact Or.inl h1
    · split at h
      · rename_i h1
        exact Or.inr (Or.inl h1)
      · split at h
        · rename_i h1
          exact Or.inr (Or.inr (Or.inl h1))
        · split at h
          · rename_i v0 rest0 hk
            obtain ⟨kw, hcseq, _, _, _, _, c0, t0, hkw, hc0⟩ := kwAt_inv hk
            rw [hkw] at hcseq
            simp only [List.cons_append, List.cons.injEq] at hcseq
            rw [hcseq.1]
            rcases hc0 with h0 | h0 | h0
            · exact Or.inr (Or.inr (Or.inr (Or.inl h0)))
            · exact Or.inr (Or.inr (Or.inr (Or.inr (Or.inl h0))))
            · exact Or.inr (Or.inr (Or.inr (Or.inr (Or.inr (Or.inl h0)))))
          · split at h
            · rename_i hdig
              simp only [Bool.or_eq_true, decide_eq_true_eq] at hdig
              rcases hdig with hd | hd
              · exact Or.inr (Or.inr (Or.inr (Or.inr (Or.inr (Or.inr (Or.inl hd))))))
              · exact Or.inr (Or.inr (Or.inr (Or.inr (Or.inr (Or.inr (Or.inr hd))))))
            · cases h

theorem sVal_head_facts {f : Nat} {c : Char} {cs1 : Chars} {v : JValue} {r : Chars}
    (hw : isJsonWs c = false) (h : sVal f (c :: cs1) = some (v, r)) :
    isTriviaWs c = false ∧ c ≠ '/' ∧ c ≠ '#' ∧
      c ≠ rbrace ∧ c ≠ ']' ∧ c ≠ ',' := by
  rcases sVal_head hw h with h0 | h0 | h0 | h0 | h0 | h0 | h0 | h0
  · subst h0; exact ⟨by decide, by decide, by decide, by decide, by decide, by decide⟩
  · subst h0; exact ⟨by decide, by decide, by decide, by decide, by decide, by decide⟩
  · subst h0; exact ⟨by decide, by decide, by decide, by decide, by decide, by decide⟩
  · subst h0; exact ⟨by decide, by decide, by decide, by decide, by decide, by decide⟩
  · subst h0; exact ⟨by decide, by decide, by decide, by decide, by decide, by decide⟩
  · subst h0; exact ⟨by decide, by decide, by decide, by decide, by decide, by decide⟩
  · exact ⟨digit_not_trivia h0, digit_not_slash h0, digit_not_hashch h0,
      fun hc => absurd h0 (by subst hc; decide),
      fun hc => absurd h0 (by subst hc; decide),
      fun hc => absurd h0 (by subst hc; decide)⟩
  · subst h0; exact ⟨by decide, by decide, by decide, by decide, by decide, by decide⟩

theorem striv_drop (o : Options) (m : Bool) {cs : Chars} {c : Char} {cs1 : Chars}
    (hd : cs.dropWhile isJsonWs = c :: cs1)
    (h1 : isTriviaWs c = false) (h2 : c ≠ '/') (h3 : c ≠ '#') :
    striv o m cs = some (c :: cs1) := by
  have hsplit : cs = cs.takeWhile isJsonWs ++ (c :: cs1) := by
    rw [← hd]
    exact (List.takeWhile_append_dropWhile _ _).symm
  rw [hsplit]
  apply striv_strict o m _ _ ?_ ?_
  · rw [← isJsonWs_eq]
    exact takeWhile_all _
  · intro c9 t9 h9
    simp only [List.cons.injEq] at h9
    rw [← h9.1]
    exact ⟨h1, h2, not_hash_cond o h3⟩

/-! ### Strict parses are recovery-parser runs -/

theorem pSub (o : Options) : ∀ f : Nat,
    (∀ cs v r, sVal f cs = some (v, r) → pVal o true f cs = .ok v r) ∧
    (∀ canClose acc cs v r, sObjKey f canClose acc cs = some (v, r) →
      pObj o true f acc cs = .ok v r) ∧
    (∀ acc cs v r, sObjSep f acc cs = some (v, r) →
      pObj o true f acc cs = .ok v r) ∧
    (∀ acc k cs v r, sKeyed f acc k cs = some (v, r) →
      pKeyed o true f acc k cs = .ok v r) ∧
    (∀ acc k cs v r, sMemVal f acc k cs = some (v, r) →
      pMemVal o true f acc k cs = .ok v r) ∧
    (∀ canClose acc cs v r, sArrEl f canClose acc cs = some (v, r) →
      pArr o true f acc cs = .ok v r) ∧
    (∀ acc cs v r, sArrSep f acc cs = some (v, r) →
      pArr o true f acc cs = .ok v r) := by
  intro f
  induction f with
  | zero =>
    exact ⟨fun cs v r h => by simp [sVal] at h,
           fun cc acc cs v r h => by simp [sObjKey] at h,
           fun acc cs v r h => by simp [sObjSep] at h,
           fun acc k cs v r h => by simp [sKeyed] at h,
           fun acc k cs v r h => by simp [sMemVal] at h,
           fun cc acc cs v r h => by simp [sArrEl] at h,
           fun acc cs v r h => by simp [sArrSep] at h⟩
  | succ f ih =>
    obtain ⟨ihV, ihOK, ihOS, ihK, ihM, ihAE, ihAS⟩ := ih
    refine ⟨?_, ?_, ?_, ?_, ?_, ?_, ?_⟩
    · -- sVal → pVal
      intro cs v r h
      rw [sVal] at h
      split at h
      · cases h
      · rename_i c cs1 hdw
        rw [pVal]
        split at h
        · rename_i h1
          subst h1
          rw [striv_drop o true hdw (by decide) (by decide) (by decide)]
          dsimp only
          rw [if_pos rfl]
          exact ihOK true [] cs1 v r h
        · rename_i h1
          split at h
          · rename_i h2
            subst h2
            rw [striv_drop o true hdw (by decide) (by decide) (by decide)]
            dsimp only
            rw [if_neg (by decide), if_pos rfl]
            exact ihAE true [] cs1 v r h
          · rename_i h2
            split at h
            · rename_i h3
              subst h3
              split at h
              · rename_i s rest hscan
                simp only [Option.some.injEq, Prod.mk.injEq] at h
                obtain ⟨hv, hr⟩ := h
                subst hv
                subst hr
                rw [striv_drop o true hdw (by decide) (by decide) (by decide)]
                dsimp only
                rw [if_neg (by decide), if_neg (by decide), if_pos (by decide)]
                have hcl : closerFor '"' = '"' := by decide
                rw [hcl, sScanStr_sub [] cs1 s rest hscan]
              · cases h
            · rename_i h3
              split at h
              · rename_i v0 rest0 hk
                simp only [Option.some.injEq, Prod.mk.injEq] at h
                obtain ⟨hv, hr⟩ := h
                subst hv
                subst hr
                obtain ⟨kw, hcseq, hbound, hkne, hkid, hkval, c0, t0, hkw, hc0⟩ :=
                  kwAt_inv hk
                have hrun := run_split hkid (boundary_not_identCh hbound)
                have hsi1 : (c :: cs1).takeWhile isIdentCh = kw := by
                  rw [hcseq]; exact hrun.1
                have hsi2 : (c :: cs1).dropWhile isIdentCh = rest0 := by
                  rw [hcseq]; exact hrun.2
                have hcc0 : c = c0 := by
                  rw [hkw] at hcseq
                  simp only [List.cons_append, List.cons.injEq] at hcseq
                  exact hcseq.1
                have hstriv : striv o true cs = some (c :: cs1) := by
                  rcases hc0 with h0 | h0 | h0 <;> rw [h0] at hcc0 <;>
                    exact striv_drop o true hdw (by rw [hcc0]; decide)
                      (by rw [hcc0]; decide) (by rw [hcc0]; decide)
                rw [hstriv]
                dsimp only
                have hne1 : ¬(c = lbrace) := by
                  rcases hc0 with h0 | h0 | h0 <;> rw [h0] at hcc0 <;>
                    (rw [hcc0]; decide)
                have hne2 : ¬(c = '[') := by
                  rcases hc0 with h0 | h0 | h0 <;> rw [h0] at hcc0 <;>
                    (rw [hcc0]; decide)
                have hne3 : isOpenQuote c = false := by
                  rcases hc0 with h0 | h0 | h0 <;> rw [h0] at hcc0 <;>
                    (rw [hcc0]; decide)
                have hne4 : isIdentStart c = true := by
                  rcases hc0 with h0 | h0 | h0 <;> rw [h0] at hcc0 <;>
                    (rw [hcc0]; decide)
                rw [if_neg hne1, if_neg hne2, if_neg (by simp [hne3]),
                  if_pos hne4]
                cases rest0 with
                | nil =>
                  have hsi : scanIdent (c :: cs1) = .more kw := by
                    simp [scanIdent, hsi1, hsi2]
                  rw [hsi]
                  dsimp only
                  rw [if_pos rfl, hkval o]
                | cons x xs =>
                  have hsi : scanIdent (c :: cs1) = .done kw (x :: xs) := by
                    simp [scanIdent, hsi1, hsi2]
                  rw [hsi]
                  dsimp only
                  rw [hkval o]
              · rename_i hknone
                split at h
                · rename_i hdig
                  split at h
                  · rename_i lex rest hns
                    split at h
                    · rename_i hbnd
                      simp only [Option.some.injEq, Prod.mk.injEq] at h
                      obtain ⟨hv, hr⟩ := h
                      subst hv
                      subst hr
                      obtain ⟨hnum, hsplit⟩ := strict_scanNumber o hns hbnd
                      rcases sNumScan_head hns with ⟨d, t, hdt, hd⟩ | ⟨d, t, hdt, hd⟩
                      · simp only [List.cons.injEq] at hdt
                        obtain ⟨hcd, hct⟩ := hdt
                        subst hcd
                        rw [striv_drop o true hdw (digit_not_trivia hd)
                          (digit_not_slash hd) (digit_not_hashch hd)]
                        dsimp only
                        rw [if_neg (by intro hc; rw [hc] at hd; exact absurd hd (by decide)),
                          if_neg (by intro hc; rw [hc] at hd; exact absurd hd (by decide)),
                          if_neg (by simp [digit_not_openquote hd]),
                          if_neg (by simp [digit_not_identStart hd]),
                          if_pos hd]
                        rw [hnum]
                      · simp only [List.cons.injEq] at hdt
                        obtain ⟨hcd, hct⟩ := hdt
                        subst hcd
                        subst hct
                        rw [striv_drop o true hdw (by decide) (by decide) (by decide)]
                        dsimp only
                        rw [if_neg (by decide), if_neg (by decide),
                          if_neg (by decide), if_neg (by decide),
                          if_neg (by decide), if_pos rfl]
                        rw [if_pos (by simp [hd])]
                        rw [hnum]
                    · cases h
                  · cases h
                · cases h
    · -- sObjKey → pObj
      intro canClose acc cs v r h
      rw [sObjKey] at h
      split at h
      · cases h
      · rename_i c cs1 hdw
        rw [pObj]
        split at h
        · rename_i h1
          subst h1
          split at h
          · simp only [Option.some.injEq, Prod.mk.injEq] at h
            obtain ⟨hv, hr⟩ := h
            subst hv
            subst hr
            rw [striv_drop o true hdw (by decide) (by decide) (by decide)]
            dsimp only
            rw [if_pos rfl]
          · cases h
        · rename_i h1
          split at h
          · rename_i h2
            subst h2
            split at h
            · rename_i k rest hscan
              rw [striv_drop o true hdw (by decide) (by decide) (by decide)]
              dsimp only
              rw [if_neg (by decide), if_neg (by decide), if_neg (by decide),
                if_pos (by decide)]
              have hcl : closerFor '"' = '"' := by decide
              rw [hcl, sScanStr_sub [] cs1 k rest hscan]
              dsimp only
              exact ihK acc (String.mk k) rest v r h
            · cases h
          · cases h
    · -- sObjSep → pObj
      intro acc cs v r h
      rw [sObjSep] at h
      split at h
      · cases h
      · rename_i c cs1 hdw
        rw [pObj]
        split at h
        · rename_i h1
          subst h1
          simp only [Option.some.injEq, Prod.mk.injEq] at h
          obtain ⟨hv, hr⟩ := h
          subst hv
          subst hr
          rw [striv_drop o true hdw (by decide) (by decide) (by decide)]
          dsimp only
          rw [if_pos rfl]
        · rename_i h1
          split at h
          · rename_i h2
            subst h2
            rw [striv_drop o true hdw (by decide) (by decide) (by decide)]
            dsimp only
            rw [if_neg (by decide), if_neg (by decide), if_pos rfl]
            exact ihOK false acc cs1 v r h
          · cases h
    · -- sKeyed → pKeyed
      intro acc k cs v r h
      rw [sKeyed] at h
      split at h
      · cases h
      · rename_i c cs1 hdw
        rw [pKeyed]
        split at h
        · rename_i h1
          subst h1
          rw [striv_drop o true hdw (by decide) (by decide) (by decide)]
          dsimp only
          rw [if_pos rfl]
          exact ihM acc k cs1 v r h
        · cases h
    · -- sMemVal → pMemVal
      intro acc k cs v r h
      rw [sMemVal] at h
      split at h
      · cases h
      · rename_i c cs1 hdw
        rw [pMemVal]
        split at h
        · rename_i v1 rest hsv
          have hwc : isJsonWs c = false := dropWhile_head_false _ _ _ hdw
          obtain ⟨hf1, hf2, hf3, hf4, hf5, hf6⟩ := sVal_head_facts hwc hsv
          rw [striv_drop o true hdw hf1 hf2 hf3]
          dsimp only
          rw [if_neg hf4, if_neg hf5, if_neg hf6]
          rw [ihV _ _ _ hsv]
          dsimp only
          exact ihOS ((k, v1) :: acc) rest v r h
        · cases h
    · -- sArrEl → pArr
      intro canClose acc cs v r h
      rw [sArrEl] at h
      split at h
      · cases h
      · rename_i c cs1 hdw
        rw [pArr]
        split at h
        · rename_i h1
          subst h1
          split at h
          · simp only [Option.some.injEq, Prod.mk.injEq] at h
            obtain ⟨hv, hr⟩ := h
            subst hv
            subst hr
            rw [striv_drop o true hdw (by decide) (by decide) (by decide)]
            dsimp only
            rw [if_pos rfl]
          · cases h
        · rename_i h1
          split at h
          · rename_i v1 rest hsv
            have hwc : isJsonWs c = false := dropWhile_head_false _ _ _ hdw
            obtain ⟨hf1, hf2, hf3, hf4, hf5, hf6⟩ := sVal_head_facts hwc hsv
            rw [striv_drop o true hdw hf1 hf2 hf3]
            dsimp only
            rw [if_neg h1, if_neg hf4, if_neg hf6]
            rw [ihV _ _ _ hsv]
            dsimp only
            exact ihAS (v1 :: acc) rest v r h
          · cases h
    · -- sArrSep → pArr
      intro acc cs v r h
      rw [sArrSep] at h
      split at h
      · cases h
      · rename_i c cs1 hdw
        rw [pArr]
        split at h
        · rename_i h1
          subst h1
          simp only [Option.some.injEq, Prod.mk.injEq] at h
          obtain ⟨hv, hr⟩ := h
          subst hv
          subst hr
          rw [striv_drop o true hdw (by decide) (by decide) (by decide)]
          dsimp only
          rw [if_pos rfl]
        · rename_i h1
          split at h
          · rename_i h2
            subst h2
            rw [striv_drop o true hdw (by decide) (by decide) (by decide)]
            dsimp only
            rw [if_neg (by decide), if_neg (by decide), if_pos rfl]
            exact ihAE false acc cs1 v r h
          · cases h

theorem striv_allws (o : Options) (m : Bool) {r : Chars}
    (hr : r.dropWhile isJsonWs = []) : striv o m r = some [] := by
  have hrw : r = r.takeWhile isJsonWs ++ ([] : Chars) := by
    rw [← hr]
    exact (List.takeWhile_append_dropWhile _ _).symm
  rw [hrw]
  apply striv_strict o m _ _ ?_ ?_
  · rw [← isJsonWs_eq]
    exact takeWhile_all _
  · intro c9 t9 h9
    cases h9

theorem strict_consumeB (o : Options) {f : Nat} {cs : Chars} {v : JValue} {r : Chars}
    (h : sVal f cs = some (v, r)) (hr : r.dropWhile isJsonWs = []) :
    consumeB o f cs = .ok [v] := by
  cases f with
  | zero => simp [sVal] at h
  | succ f =>
    rw [sVal] at h
    split at h
    · cases h
    · rename_i c cs1 hdw
      have hw : isJsonWs c = false := dropWhile_head_false _ _ _ hdw
      have hshift : sVal (Nat.succ f) (c :: cs1) = some (v, r) := by
        rw [sVal]
        rw [show (c :: cs1).dropWhile isJsonWs = c :: cs1 from by
          simp [List.dropWhile_cons, hw]]
        exact h
      obtain ⟨hf1, hf2, hf3, hf4, hf5, hf6⟩ := sVal_head_facts hw hshift
      have hstriv : striv o true cs = some (c :: cs1) := striv_drop o true hdw hf1 hf2 hf3
      have hpv : pVal o true (Nat.succ f) (c :: cs1) = .ok v r :=
        (pSub o (Nat.succ f)).1 _ _ _ hshift
      have hstray : strayCh c = false := by
        simp [strayCh, hf4, hf5, hf6]
      have htail : consumeB o (Nat.succ f) r = .ok [] := by
        rw [consumeB.eq_def]
        split
        · rfl
        · rfl
        · rename_i c9 r9 h9
          rw [striv_allws o true hr] at h9
          cases h9
      rw [consumeB.eq_def]
      split
      · rename_i h9
        rw [hstriv] at h9
        cases h9
      · rename_i h9
        rw [hstriv] at h9
        cases h9
      · rename_i c9 r9 h9
        rw [hstriv] at h9
        simp only [Option.some.injEq, List.cons.injEq] at h9
        obtain ⟨hc9, hr9⟩ := h9
        subst hc9
        subst hr9
        rw [if_neg (by simp [hstray])]
        split
        · rename_i v9 rest9 hp9
          rw [hpv] at hp9
          simp only [PRes.ok.injEq] at hp9
          obtain ⟨hv9, hr92⟩ := hp9
          subst hv9
          subst hr92
          rw [htail]
          rfl
        · rename_i k9 rem9 hp9
          rw [hpv] at hp9
          cases hp9
        · rename_i hp9
          rw [hpv] at hp9
          cases hp9
        · rename_i hp9
          rw [hpv] at hp9
          cases hp9

theorem strict_repairCore (o : Options) (ho1 : o.fenced_code_blocks = false)
    (ho2 : o.stream_ndjson_aggregate = false) {s : String} {v : JValue}
    (h : strictParseDoc s.data = some v) :
    repairCore o s = .ok (String.mk (emitVal o v)) := by
  rw [strictParseDoc] at h
  split at h
  · rename_i v0 r hsv
    split at h
    · rename_i hre
      simp only [Option.some.injEq] at h
      subst h
      have hr : r.dropWhile isJsonWs = [] := by
        simpa [List.isEmpty_iff] using hre
      have hc := strict_consumeB o hsv hr
      rw [repairCore]
      rw [ho1]
      rw [if_neg (by decide : ¬(false = true))]
      dsimp only
      rw [hc]
      dsimp only
      unfold batchDoc
      rw [ho2]
      rw [if_neg (by decide : ¬(false = true))]
    · cases h
  · cases h

/-! ### The strict parser re-reads emitted text: characters and strings -/

theorem hexVal_hexDigitCh {k : Nat} (h : k < 16) : hexVal (hexDigitCh k) = k := by
  interval_cases k <;> decide

theorem isHexCh_hexDigitCh {k : Nat} (h : k < 16) : isHexCh (hexDigitCh k) = true := by
  interval_cases k <;> decide

theorem hex4Val_hex4 {n : Nat} (h : n < 65536) :
    hex4Val (hexDigitCh (n / 4096 % 16)) (hexDigitCh (n / 256 % 16))
      (hexDigitCh (n / 16 % 16)) (hexDigitCh (n % 16)) = n := by
  rw [hex4Val, hexVal_hexDigitCh (Nat.mod_lt _ (by omega)),
    hexVal_hexDigitCh (Nat.mod_lt _ (by omega)),
    hexVal_hexDigitCh (Nat.mod_lt _ (by omega)),
    hexVal_hexDigitCh (Nat.mod_lt _ (by omega))]
  omega

theorem hexQuadAt_hex4 {n : Nat} (h : n < 65536) (t : Chars) :
    hexQuadAt (hex4 n ++ t) = some (n, t) := by
  rw [hex4]
  simp only [List.cons_append, List.nil_append]
  rw [hexQuadAt]
  rw [if_pos (by simp [isHexCh_hexDigitCh, Nat.mod_lt])]
  rw [hex4Val_hex4 h]

theorem lowSurAt_hex4 {n : Nat} (h : n < 65536) (hl : isLowSur n = true) (t : Chars) :
    lowSurAt ('\\' :: 'u' :: (hex4 n ++ t)) = some (n, t) := by
  rw [hex4]
  simp only [List.cons_append, List.nil_append]
  rw [lowSurAt]
  rw [if_pos (by simp [isHexCh_hexDigitCh, Nat.mod_lt])]
  dsimp only
  rw [hex4Val_hex4 h, if_pos hl]

theorem charFromNat_toNat (c : Char) : charFromNat c.toNat = c := by
  rw [charFromNat]
  rw [if_pos (show Nat.isValidChar c.toNat from c.valid)]
  exact Char.ofNat_toNat c

theorem char_valid_range (c : Char) :
    c.toNat < 55296 ∨ (57344 ≤ c.toNat ∧ c.toNat < 1114112) := c.valid

theorem char_not_highSur (c : Char) : isHighSur c.toNat = false := by
  have h := char_valid_range c
  simp only [isHighSur, Bool.and_eq_false_iff, decide_eq_false_iff_not]
  omega

theorem char_not_lowSur (c : Char) : isLowSur c.toNat = false := by
  have h := char_valid_range c
  simp only [isLowSur, Bool.and_eq_false_iff, decide_eq_false_iff_not]
  omega

theorem sScanStr_escChar (ascii : Bool) (c : Char) (acc rest : Chars) :
    sScanStr acc (escCharJ ascii c ++ rest) = sScanStr (c :: acc) rest := by
  rw [escCharJ]
  split
  · rename_i h1
    subst h1
    rw [show (['\\', '"'] : Chars) ++ rest = '\\' :: '"' :: rest from rfl]
    rw [sScanStr.eq_def]
    try dsimp only
    rw [if_neg (by decide), if_pos rfl]
    try dsimp only
    rw [if_neg (by decide), if_pos (by decide)]
    rfl
  · rename_i h1
    split
    · rename_i h2
      subst h2
      rw [show (['\\', '\\'] : Chars) ++ rest = '\\' :: '\\' :: rest from rfl]
      rw [sScanStr.eq_def]
      try dsimp only
      rw [if_neg (by decide), if_pos rfl]
      try dsimp only
      rw [if_neg (by decide), if_pos (by decide)]
      rfl
    · rename_i h2
      split
      · rename_i h3
        have hlt : c.toNat < 65536 := by omega
        simp only [List.cons_append]
        rw [sScanStr.eq_def]
        try dsimp only
        rw [if_neg (by decide), if_pos rfl]
        try dsimp only
        rw [if_pos rfl]
        split
        · rename_i a b heq
          rw [hexQuadAt_hex4 hlt rest] at heq
          simp only [Option.some.injEq, Prod.mk.injEq] at heq
          obtain ⟨he1, he2⟩ := heq
          subst he1
          subst he2
          rw [if_neg (by simp [char_not_highSur]), if_neg (by simp [char_not_lowSur])]
          rw [charFromNat_toNat]
        · rename_i heq
          rw [hexQuadAt_hex4 hlt rest] at heq
          cases heq
      · rename_i h3
        split
        · rename_i h4
          split
          · rename_i h5
            simp only [List.cons_append]
            rw [sScanStr.eq_def]
            try dsimp only
            rw [if_neg (by decide), if_pos rfl]
            try dsimp only
            rw [if_pos rfl]
            split
            · rename_i a b heq
              rw [hexQuadAt_hex4 h5 rest] at heq
              simp only [Option.some.injEq, Prod.mk.injEq] at heq
              obtain ⟨he1, he2⟩ := heq
              subst he1
              subst he2
              rw [if_neg (by simp [char_not_highSur]), if_neg (by simp [char_not_lowSur])]
              rw [charFromNat_toNat]
            · rename_i heq
              rw [hexQuadAt_hex4 h5 rest] at heq
              cases heq
          · rename_i h5
            have hv := char_valid_range c
            have hx : c.toNat - 65536 < 1048576 := by omega
            have hhi : 55296 + (c.toNat - 65536) / 1024 < 65536 := by omega
            have hlo : 56320 + (c.toNat - 65536) % 1024 < 65536 := by
              have := Nat.mod_lt (c.toNat - 65536) (show 0 < 1024 by omega)
              omega
            simp only [List.cons_append, List.append_assoc]
            rw [sScanStr.eq_def]
            try dsimp only
            rw [if_neg (by decide), if_pos rfl]
            try dsimp only
            rw [if_pos rfl]
            split
            · rename_i a b heq
              rw [hexQuadAt_hex4 hhi ('\\' :: 'u' :: (hex4 (56320 + (c.toNat - 65536) % 1024) ++ rest))] at heq
              simp only [Option.some.injEq, Prod.mk.injEq] at heq
              obtain ⟨he1, he2⟩ := heq
              subst he1
              subst he2
              rw [if_pos (by
                simp only [isHighSur, Bool.and_eq_true, decide_eq_true_eq]
                omega)]
              split
              · rename_i a2 b2 heq2
                rw [lowSurAt_hex4 hlo (by
                  simp only [isLowSur, Bool.and_eq_true, decide_eq_true_eq]
                  have := Nat.mod_lt (c.toNat - 65536) (show 0 < 1024 by omega)
                  omega) rest] at heq2
                simp only [Option.some.injEq, Prod.mk.injEq] at heq2
                obtain ⟨hf1, hf2⟩ := heq2
                subst hf1
                subst hf2
                have harith : 65536 + (55296 + (c.toNat - 65536) / 1024 - 55296) * 1024 +
                    (56320 + (c.toNat - 65536) % 1024 - 56320) = c.toNat := by
                  omega
                rw [harith, charFromNat_toNat]
              · rename_i heq2
                rw [lowSurAt_hex4 hlo (by
                  simp only [isLowSur, Bool.and_eq_true, decide_eq_true_eq]
                  have := Nat.mod_lt (c.toNat - 65536) (show 0 < 1024 by omega)
                  omega) rest] at heq2
                cases heq2
            · rename_i heq
              rw [hexQuadAt_hex4 hhi ('\\' :: 'u' :: (hex4 (56320 + (c.toNat - 65536) % 1024) ++ rest))] at heq
              cases heq
        · rename_i h4
          rw [show ([c] : Chars) ++ rest = c :: rest from rfl]
          rw [sScanStr.eq_def]
          try dsimp only
          rw [if_neg h1, if_neg h2, if_neg h3]

theorem sScanStr_emit (ascii : Bool) :
    ∀ (s acc t : Chars), sScanStr acc (escBody ascii s ++ '"' :: t) = some (acc.reverse ++ s, t) := by
  intro s
  induction s with
  | nil =>
    intro acc t
    rw [escBody]
    rw [List.nil_append]
    rw [sScanStr.eq_def]
    try dsimp only
    rw [if_pos rfl]
    simp
  | cons c s1 ih =>
    intro acc t
    rw [escBody]
    rw [List.append_assoc]
    rw [sScanStr_escChar]
    rw [ih (c :: acc) t]
    simp

/-! ### Strict number and keyword tokens followed by a boundary -/

theorem sNumExp_reads_empty {t : Chars}
    (ht : t = [] ∨ (t.headD ' ' ≠ 'e' ∧ t.headD ' ' ≠ 'E')) :
    sNumExp t = some ([], t) := by
  cases t with
  | nil => rfl
  | cons c cs =>
    rcases ht with h | ⟨h1, h2⟩
    · exact absurd h (by simp)
    · simp only [List.headD_cons] at h1 h2
      rw [sNumExp.eq_def]
      dsimp only
      rw [if_neg (by simp [h1, h2])]

theorem sNumExp_reads_tail {ec : Char} {sg : Option Char} {ds t : Chars}
    (hec : ec = 'e' ∨ ec = 'E')
    (hsg : sg = none ∨ sg = some '+' ∨ sg = some '-')
    (hds : ds.all isDigitCh = true) (hne : ds ≠ [])
    (ht : t = [] ∨ isDigitCh (t.headD ' ') = false) :
    sNumExp (ec :: (sgChars sg ++ (ds ++ t))) = some (ec :: (sgChars sg ++ ds), t) := by
  obtain ⟨hs1, hs2⟩ := digitRun_split hds ht
  have hecb : (ec = 'e' || ec = 'E') = true := by
    rcases hec with h | h <;> simp [h]
  rcases hsg with h0 | hp | hm
  · subst h0
    rw [show sgChars none = ([] : Chars) from rfl]
    simp only [List.nil_append]
    cases ds with
    | nil => exact absurd rfl hne
    | cons d ds1 =>
      simp only [List.all_cons, Bool.and_eq_true] at hds
      have hdpm := digit_not_pm hds.1
      simp only [List.cons_append] at hs1 hs2
      simp [sNumExp, hecb, hdpm, hs1, hs2]
  · subst hp
    rw [show sgChars (some '+') = ['+'] from rfl]
    simp only [List.cons_append, List.nil_append]
    simp [sNumExp, hecb, hs1, hs2, List.isEmpty_iff, hne]
  · subst hm
    rw [show sgChars (some '-') = ['-'] from rfl]
    simp only [List.cons_append, List.nil_append]
    simp [sNumExp, hecb, hs1, hs2, List.isEmpty_iff, hne]

theorem sNumScan1_append {cs t : Chars} (h : sNumScan1 cs = some (cs, []))
    (ht : t = [] ∨ (isDigitCh (t.headD ' ') = false ∧ t.headD ' ' ≠ '.' ∧
      t.headD ' ' ≠ 'e' ∧ t.headD ' ' ≠ 'E')) :
    sNumScan1 (cs ++ t) = some (cs, t) := by
  rw [sNumScan1] at h
  split at h
  · cases h
  · rename_i ip r1 hint
    split at h
    · cases h
    · rename_i fp r2 hfrac
      split at h
      · cases h
      · rename_i ep r3 hexp
        simp only [Option.some.injEq, Prod.mk.injEq] at h
        obtain ⟨hcs, hr3⟩ := h
        subst hr3
        obtain ⟨hi1, hi2, hi3, hi4⟩ := sNumInt_inv hint
        obtain ⟨hf1, hf2⟩ := sNumFrac_inv hfrac
        obtain ⟨he1, he2⟩ := sNumExp_inv hexp
        rw [List.append_nil] at he1
        have htd : t = [] ∨ isDigitCh (t.headD ' ') = false := by
          rcases ht with h9 | h9
          · exact Or.inl h9
          · exact Or.inr h9.1
        have hread3 : sNumExp (ep ++ t) = some (ep, t) := by
          rcases he2 with ⟨hep0, _, _⟩ | ⟨e, sg, ds, hepsh, hecc, hsgc, hdsne, hdsall, _⟩
          · subst hep0
            rw [List.nil_append]
            apply sNumExp_reads_empty
            rcases ht with h9 | h9
            · exact Or.inl h9
            · exact Or.inr ⟨h9.2.2.1, h9.2.2.2⟩
          · rw [hepsh]
            rw [show (e :: (sgChars sg ++ ds)) ++ t = e :: (sgChars sg ++ (ds ++ t)) by
              simp [List.cons_append, List.append_assoc]]
            exact sNumExp_reads_tail hecc hsgc hdsall hdsne htd
        have hheadE : ep ++ t = [] ∨ (isDigitCh ((ep ++ t).headD ' ') = false ∧
            (ep ++ t).headD ' ' ≠ '.') := by
          rcases he2 with ⟨hep0, _, _⟩ | ⟨e, sg, ds, hepsh, hecc, hsgc, hdsne, hdsall, _⟩
          · subst hep0
            rw [List.nil_append]
            rcases ht with h9 | h9
            · exact Or.inl h9
            · exact Or.inr ⟨h9.1, h9.2.1⟩
          · right
            rw [hepsh]
            simp only [List.cons_append, List.headD_cons]
            rcases hecc with h9 | h9 <;> subst h9 <;> exact ⟨by decide, by decide⟩
        have hread2 : sNumFrac (fp ++ (ep ++ t)) = some (fp, ep ++ t) := by
          rcases hf2 with ⟨hfp0, _⟩ | ⟨ds, hfpsh, hdsne, hdsall, _⟩
          · subst hfp0
            rw [List.nil_append]
            apply sNumFrac_reads_none
            rcases hheadE with h9 | h9
            · exact Or.inl h9
            · exact Or.inr h9.2
          · rw [hfpsh]
            rw [show ('.' :: ds) ++ (ep ++ t) = '.' :: (ds ++ (ep ++ t)) from rfl]
            apply sNumFrac_reads_some hdsall hdsne
            rcases hheadE with h9 | h9
            · exact Or.inl h9
            · exact Or.inr h9.1
        have hheadF : fp ++ (ep ++ t) = [] ∨
            isDigitCh ((fp ++ (ep ++ t)).headD ' ') = false := by
          rcases hf2 with ⟨hfp0, _⟩ | ⟨ds, hfpsh, hdsne, hdsall, _⟩
          · subst hfp0
            rw [List.nil_append]
            rcases hheadE with h9 | h9
            · exact Or.inl h9
            · exact Or.inr h9.1
          · right
            rw [hfpsh]
            simp only [List.cons_append, List.headD_cons]
            decide
        have hread1 : sNumInt (ip ++ (fp ++ (ep ++ t))) = some (ip, fp ++ (ep ++ t)) := by
          apply sNumInt_reads ?_ hheadF
          rcases hi4 with h9 | h9
          · exact Or.inl h9
          · exact Or.inr ⟨hi2, hi3, h9⟩
        have hdecomp : cs ++ t = ip ++ (fp ++ (ep ++ t)) := by
          rw [hi1, hf1, he1]
          simp [List.append_assoc]
        rw [hdecomp, sNumScan1, hread1]
        dsimp only
        rw [hread2]
        dsimp only
        rw [hread3]
        dsimp only
        rw [hcs]

theorem sNumScan_append {lex t : Chars} (h : sNumScan lex = some (lex, []))
    (ht : t = [] ∨ (isDigitCh (t.headD ' ') = false ∧ t.headD ' ' ≠ '.' ∧
      t.headD ' ' ≠ 'e' ∧ t.headD ' ' ≠ 'E')) :
    sNumScan (lex ++ t) = some (lex, t) := by
  rcases sNumScan_head h with ⟨d, t1, hdt, hd⟩ | ⟨d, t1, hdt, hd⟩
  · subst hdt
    have hdm : d ≠ '-' := by
      intro h9
      rw [h9] at hd
      exact absurd hd (by decide)
    rw [sNumScan.eq_def] at h
    split at h
    · rename_i cs1 heq
      simp only [List.cons.injEq] at heq
      exact absurd heq.1 hdm
    · rw [List.cons_append, sNumScan.eq_def]
      split
      · rename_i cs1 heq
        simp only [List.cons.injEq] at heq
        exact absurd heq.1 hdm
      · have h2 := sNumScan1_append h ht
        rw [List.cons_append] at h2
        exact h2
  · subst hdt
    rw [show sNumScan ('-' :: d :: t1) =
      (sNumScan1 (d :: t1)).map (fun p => ('-' :: p.1, p.2)) from rfl] at h
    simp only [Option.map_eq_some'] at h
    obtain ⟨⟨l1, r1⟩, hp, hq⟩ := h
    simp only [Prod.mk.injEq, List.cons.injEq] at hq
    obtain ⟨⟨_, hl1⟩, hr1⟩ := hq
    subst hl1
    subst hr1
    rw [show ('-' :: d :: t1) ++ t = '-' :: ((d :: t1) ++ t) from rfl]
    rw [show sNumScan ('-' :: ((d :: t1) ++ t)) =
      (sNumScan1 ((d :: t1) ++ t)).map (fun p => ('-' :: p.1, p.2)) from rfl]
    rw [sNumScan1_append hp ht]
    rfl

theorem kwAt_true {t : Chars} (hb : sBoundary t = true) :
    kwAt ("true".data ++ t) = some (.bool true, t) := by
  have hdrop : ("true".data ++ t).drop 4 = t := by
    have h0 := List.drop_left ("true".data) t
    simpa using h0
  rw [kwAt]
  rw [if_pos (by
    rw [hdrop]
    simp only [Bool.and_eq_true]
    exact ⟨List.isPrefixOf_iff_prefix.mpr ⟨t, rfl⟩, hb⟩)]
  rw [hdrop]

theorem kwAt_false {t : Chars} (hb : sBoundary t = true) :
    kwAt ("false".data ++ t) = some (.bool false, t) := by
  have hdrop : ("false".data ++ t).drop 5 = t := by
    have h0 := List.drop_left ("false".data) t
    simpa using h0
  rw [kwAt]
  rw [if_neg (by simp [List.isPrefixOf])]
  rw [if_pos (by
    rw [hdrop]
    simp only [Bool.and_eq_true]
    exact ⟨List.isPrefixOf_iff_prefix.mpr ⟨t, rfl⟩, hb⟩)]
  rw [hdrop]

theorem kwAt_null {t : Chars} (hb : sBoundary t = true) :
    kwAt ("null".data ++ t) = some (.null, t) := by
  have hdrop : ("null".data ++ t).drop 4 = t := by
    have h0 := List.drop_left ("null".data) t
    simpa using h0
  rw [kwAt]
  rw [if_neg (by simp [List.isPrefixOf])]
  rw [if_neg (by simp [List.isPrefixOf])]
  rw [if_pos (by
    rw [hdrop]
    simp only [Bool.and_eq_true]
    exact ⟨List.isPrefixOf_iff_prefix.mpr ⟨t, rfl⟩, hb⟩)]
  rw [hdrop]

theorem kwAt_none_head {c : Char} {cs : Chars} (h1 : c ≠ 't') (h2 : c ≠ 'f')
    (h3 : c ≠ 'n') : kwAt (c :: cs) = none := by
  have ha : ("true".data.isPrefixOf (c :: cs)) = false := by
    rw [show "true".data = 't' :: "rue".data from rfl]
    simp [List.isPrefixOf, Ne.symm h1]
  have hbf : ("false".data.isPrefixOf (c :: cs)) = false := by
    rw [show "false".data = 'f' :: "alse".data from rfl]
    simp [List.isPrefixOf, Ne.symm h2]
  have hc : ("null".data.isPrefixOf (c :: cs)) = false := by
    rw [show "null".data = 'n' :: "ull".data from rfl]
    simp [List.isPrefixOf, Ne.symm h3]
  rw [kwAt]
  rw [if_neg (by simp [ha]), if_neg (by simp [hbf]), if_neg (by simp [hc])]

/-! ### Whitespace shifting of the strict states -/

theorem dropWhile_ws_append {p : Char → Bool} :
    ∀ (ws cs : Chars), ws.all p = true → (ws ++ cs).dropWhile p = cs.dropWhile p := by
  intro ws
  induction ws with
  | nil => intro cs _; rfl
  | cons w ws1 ih =>
    intro cs hall
    simp only [List.all_cons, Bool.and_eq_true] at hall
    rw [List.cons_append, List.dropWhile_cons, if_pos hall.1]
    exact ih cs hall.2

theorem dropWhile_not_head {p : Char → Bool} {c : Char} {cs : Chars} (h : p c = false) :
    (c :: cs).dropWhile p = c :: cs := by
  simp [List.dropWhile_cons, h]

theorem sVal_ws (f : Nat) (ws cs : Chars) (h : ws.all isJsonWs = true) :
    sVal f (ws ++ cs) = sVal f cs := by
  cases f with
  | zero => rfl
  | succ f => rw [sVal, sVal, dropWhile_ws_append ws cs h]

theorem sObjKey_ws (f : Nat) (canClose : Bool) (acc : List (String × JValue))
    (ws cs : Chars) (h : ws.all isJsonWs = true) :
    sObjKey f canClose acc (ws ++ cs) = sObjKey f canClose acc cs := by
  cases f with
  | zero => rfl
  | succ f => rw [sObjKey, sObjKey, dropWhile_ws_append ws cs h]

theorem sMemVal_ws (f : Nat) (acc : List (String × JValue)) (k : String)
    (ws cs : Chars) (h : ws.all isJsonWs = true) :
    sMemVal f acc k (ws ++ cs) = sMemVal f acc k cs := by
  cases f with
  | zero => rfl
  | succ f => rw [sMemVal, sMemVal, dropWhile_ws_append ws cs h]

theorem sArrEl_ws (f : Nat) (canClose : Bool) (acc : List JValue)
    (ws cs : Chars) (h : ws.all isJsonWs = true) :
    sArrEl f canClose acc (ws ++ cs) = sArrEl f canClose acc cs := by
  cases f with
  | zero => rfl
  | succ f => rw [sArrEl, sArrEl, dropWhile_ws_append ws cs h]

/-! ### Emitter shapes for the roundtrip -/

/-- The whitespace after a separator character in the emitter. -/
def sepTail (o : Options) : Chars := if o.python_style_separators then [' '] else []

theorem sepComma_eq (o : Options) : sepComma o = ',' :: sepTail o := by
  rw [sepComma, sepTail]
  split <;> rfl

theorem sepColon_eq (o : Options) : sepColon o = ':' :: sepTail o := by
  rw [sepColon, sepTail]
  split <;> rfl

theorem sepTail_ws (o : Options) : (sepTail o).all isJsonWs = true := by
  rw [sepTail]
  split <;> decide

/-- Emission of the rest of an array after an element: nothing before the
close, or a comma and the remaining elements. -/
def emitArrTail (o : Options) : List JValue → Chars
  | [] => []
  | vs => sepComma o ++ emitElems o vs

/-- Emission of the rest of an object after a member. -/
def emitObjTail (o : Options) : List (String × JValue) → Chars
  | [] => []
  | ms => sepComma o ++ emitMems o ms

theorem emitElems_cons (o : Options) (v : JValue) (vs : List JValue) :
    emitElems o (v :: vs) = emitVal o v ++ emitArrTail o vs := by
  cases vs with
  | nil => simp [emitElems, emitArrTail]
  | cons w ws => simp [emitElems, emitArrTail, List.append_assoc]

theorem emitMems_cons (o : Options) (k : String) (v : JValue)
    (ms : List (String × JValue)) :
    emitMems o ((k, v) :: ms) =
      escStr o.ensure_ascii k ++ (sepColon o ++ (emitVal o v ++ emitObjTail o ms)) := by
  cases ms with
  | nil => simp [emitMems, emitObjTail]
  | cons m ms1 =>
    rw [show emitMems o ((k, v) :: m :: ms1) =
      escStr o.ensure_ascii k ++ sepColon o ++ emitVal o v ++ sepComma o ++
        emitMems o (m :: ms1) from by
      rw [emitMems]
      exact List.cons_ne_nil _ _]
    rw [show emitObjTail o (m :: ms1) = sepComma o ++ emitMems o (m :: ms1) from by
      rw [emitObjTail]
      exact List.cons_ne_nil _ _]
    simp [List.append_assoc]

theorem sBoundary_arrTail (o : Options) (vs : List JValue) (t : Chars) :
    sBoundary (emitArrTail o vs ++ (']' :: t)) = true := by
  cases vs with
  | nil =>
    rw [show emitArrTail o [] ++ (']' :: t) = ']' :: t from rfl]
    rw [sBoundary]
    decide
  | cons w ws =>
    rw [show emitArrTail o (w :: ws) = sepComma o ++ emitElems o (w :: ws) from by
      rw [emitArrTail]
      exact List.cons_ne_nil _ _]
    rw [sepComma_eq]
    simp only [List.cons_append, List.append_assoc]
    rw [sBoundary]
    decide

theorem sBoundary_objTail (o : Options) (ms : List (String × JValue)) (t : Chars) :
    sBoundary (emitObjTail o ms ++ (rbrace :: t)) = true := by
  cases ms with
  | nil =>
    rw [show emitObjTail o [] ++ (rbrace :: t) = rbrace :: t from rfl]
    rw [sBoundary]
    decide
  | cons m ms1 =>
    rw [show emitObjTail o (m :: ms1) = sepComma o ++ emitMems o (m :: ms1) from by
      rw [emitObjTail]
      exact List.cons_ne_nil _ _]
    rw [sepComma_eq]
    simp only [List.cons_append, List.append_assoc]
    rw [sBoundary]
    decide

theorem digit_not_jsonws {c : Char} (hd : isDigitCh c = true) : isJsonWs c = false := by
  have h := digit_not_trivia hd
  simp only [isTriviaWs, Bool.or_eq_false_iff] at h
  rw [isJsonWs_eq]
  exact h.1

theorem emitVal_head (o : Options) {v : JValue} (hl : vLexOK v = true) :
    ∃ c r0, emitVal o v = c :: r0 ∧ isJsonWs c = false ∧ c ≠ ']' := by
  cases v with
  | null => exact ⟨'n', "ull".data, rfl, by decide, by decide⟩
  | bool b =>
    cases b
    · exact ⟨'f', "alse".data, by rw [emitVal]; rfl, by decide, by decide⟩
    · exact ⟨'t', "rue".data, by rw [emitVal]; rfl, by decide, by decide⟩
  | num lex =>
    rw [show vLexOK (.num lex) = numLexOK lex.data from rfl] at hl
    rcases sNumScan_head (numLexOK_iff.mp hl) with ⟨d, t1, hdt, hd⟩ | ⟨d, t1, hdt, hd⟩
    · exact ⟨d, t1, by rw [emitVal, hdt], digit_not_jsonws hd,
        by intro hc; rw [hc] at hd; exact absurd hd (by decide)⟩
    · exact ⟨'-', d :: t1, by rw [emitVal, hdt], by decide, by decide⟩
  | str s => exact ⟨'"', escBody o.ensure_ascii s.data ++ ['"'], rfl, by decide, by decide⟩
  | arr l => exact ⟨'[', emitElems o l ++ [']'], rfl, by decide, by decide⟩
  | obj ms => exact ⟨lbrace, emitMems o ms ++ [rbrace], rfl, by decide, by decide⟩

theorem wVal_pos : ∀ v : JValue, 1 ≤ wVal v := by
  intro v
  cases v with
  | null => rw [wVal]
  | bool b => rw [wVal]
  | num lex => rw [wVal]
  | str s => rw [wVal]
  | arr l => rw [wVal]; omega
  | obj ms => rw [wVal]; omega

theorem wObjKey_pos : ∀ ms : List (String × JValue), 1 ≤ wObjKey ms := by
  intro ms
  cases ms with
  | nil => rw [wObjKey]
  | cons m rest =>
    obtain ⟨k, v⟩ := m
    rw [wObjKey]
    omega

theorem wObjSep_pos : ∀ ms : List (String × JValue), 1 ≤ wObjSep ms := by
  intro ms
  cases ms with
  | nil => rw [wObjSep]
  | cons m rest =>
    rw [wObjSep]
    · omega
    · exact List.cons_ne_nil _ _

theorem wArrEl_pos : ∀ l : List JValue, 1 ≤ wArrEl l := by
  intro l
  cases l with
  | nil => rw [wArrEl]
  | cons v vs => rw [wArrEl]; omega

theorem wArrSep_pos : ∀ vs : List JValue, 1 ≤ wArrSep vs := by
  intro vs
  cases vs with
  | nil => rw [wArrSep]
  | cons v vs1 =>
    rw [wArrSep]
    · omega
    · exact List.cons_ne_nil _ _

/-! ### The strict parser re-reads emitted documents -/

theorem pRT (o : Options) : ∀ f : Nat,
    (∀ v t, wVal v ≤ f → vLexOK v = true → sBoundary t = true →
      sVal f (emitVal o v ++ t) = some (v, t)) ∧
    (∀ canClose acc ms t, wObjKey ms ≤ f → vLexOKMems ms = true → sBoundary t = true →
      (ms = [] → canClose = true) →
      sObjKey f canClose acc (emitMems o ms ++ (rbrace :: t)) =
        some (.obj (acc.reverse ++ ms), t)) ∧
    (∀ acc ms t, wObjSep ms ≤ f → vLexOKMems ms = true → sBoundary t = true →
      sObjSep f acc (emitObjTail o ms ++ (rbrace :: t)) =
        some (.obj (acc.reverse ++ ms), t)) ∧
    (∀ acc k v ms t, 2 + wVal v + wObjSep ms ≤ f → vLexOK v = true →
      vLexOKMems ms = true → sBoundary t = true →
      sKeyed f acc k (sepColon o ++ (emitVal o v ++ (emitObjTail o ms ++ (rbrace :: t)))) =
        some (.obj (acc.reverse ++ ((k, v) :: ms)), t)) ∧
    (∀ acc k v ms t, 1 + wVal v + wObjSep ms ≤ f → vLexOK v = true →
      vLexOKMems ms = true → sBoundary t = true →
      sMemVal f acc k (emitVal o v ++ (emitObjTail o ms ++ (rbrace :: t))) =
        some (.obj (acc.reverse ++ ((k, v) :: ms)), t)) ∧
    (∀ canClose acc l t, wArrEl l ≤ f → vLexOKList l = true → sBoundary t = true →
      (l = [] → canClose = true) →
      sArrEl f canClose acc (emitElems o l ++ (']' :: t)) =
        some (.arr (acc.reverse ++ l), t)) ∧
    (∀ acc vs t, wArrSep vs ≤ f → vLexOKList vs = true → sBoundary t = true →
      sArrSep f acc (emitArrTail o vs ++ (']' :: t)) =
        some (.arr (acc.reverse ++ vs), t)) := by
  intro f
  induction f with
  | zero =>
    refine ⟨?_, ?_, ?_, ?_, ?_, ?_, ?_⟩
    · intro v t hw _ _
      exact absurd hw (by have := wVal_pos v; omega)
    · intro cc acc ms t hw _ _ _
      exact absurd hw (by have := wObjKey_pos ms; omega)
    · intro acc ms t hw _ _
      exact absurd hw (by have := wObjSep_pos ms; omega)
    · intro acc k v ms t hw _ _ _
      exact absurd hw (by omega)
    · intro acc k v ms t hw _ _ _
      exact absurd hw (by omega)
    · intro cc acc l t hw _ _ _
      exact absurd hw (by have := wArrEl_pos l; omega)
    · intro acc vs t hw _ _
      exact absurd hw (by have := wArrSep_pos vs; omega)
  | succ f ih =>
    obtain ⟨ihV, ihOK, ihOS, ihK, ihM, ihAE, ihAS⟩ := ih
    refine ⟨?_, ?_, ?_, ?_, ?_, ?_, ?_⟩
    · -- sVal reads an emitted value
      intro v t hw hl hb
      cases v with
      | null =>
        rw [show emitVal o JValue.null ++ t = 'n' :: ("ull".data ++ t) from rfl]
        rw [sVal]
        rw [dropWhile_not_head (by decide)]
        dsimp only
        rw [if_neg (by decide), if_neg (by decide), if_neg (by decide)]
        have hk : kwAt ('n' :: ("ull".data ++ t)) = some (.null, t) := by
          rw [show ('n' :: ("ull".data ++ t) : Chars) = "null".data ++ t from rfl]
          exact kwAt_null hb
        rw [hk]
      | bool b =>
        cases b
        · rw [show emitVal o (JValue.bool false) ++ t = 'f' :: ("alse".data ++ t) from rfl]
          rw [sVal]
          rw [dropWhile_not_head (by decide)]
          dsimp only
          rw [if_neg (by decide), if_neg (by decide), if_neg (by decide)]
          have hk : kwAt ('f' :: ("alse".data ++ t)) = some (.bool false, t) := by
            rw [show ('f' :: ("alse".data ++ t) : Chars) = "false".data ++ t from rfl]
            exact kwAt_false hb
          rw [hk]
        · rw [show emitVal o (JValue.bool true) ++ t = 't' :: ("rue".data ++ t) from rfl]
          rw [sVal]
          rw [dropWhile_not_head (by decide)]
          dsimp only
          rw [if_neg (by decide), if_neg (by decide), if_neg (by decide)]
          have hk : kwAt ('t' :: ("rue".data ++ t)) = some (.bool true, t) := by
            rw [show ('t' :: ("rue".data ++ t) : Chars) = "true".data ++ t from rfl]
            exact kwAt_true hb
          rw [hk]
      | num lex =>
        rw [show vLexOK (.num lex) = numLexOK lex.data from rfl] at hl
        have hscan := numLexOK_iff.mp hl
        have ht : t = [] ∨ (isDigitCh (t.headD ' ') = false ∧ t.headD ' ' ≠ '.' ∧
            t.headD ' ' ≠ 'e' ∧ t.headD ' ' ≠ 'E') := by
          rcases sBoundary_facts hb with h9 | h9
          · exact Or.inl h9
          · exact Or.inr ⟨h9.1, h9.2.2.1, h9.2.2.2.1, h9.2.2.2.2.1⟩
        have happ := sNumScan_append hscan ht
        rw [show emitVal o (JValue.num lex) ++ t = lex.data ++ t from rfl]
        rcases sNumScan_head hscan with ⟨d, t1, hdt, hd⟩ | ⟨d, t1, hdt, hd⟩
        · rw [hdt, List.cons_append, sVal]
          rw [dropWhile_not_head (digit_not_jsonws hd)]
          dsimp only
          rw [if_neg (by intro hc; rw [hc] at hd; exact absurd hd (by decide)),
            if_neg (by intro hc; rw [hc] at hd; exact absurd hd (by decide)),
            if_neg (by intro hc; rw [hc] at hd; exact absurd hd (by decide))]
          rw [kwAt_none_head
            (by intro hc; rw [hc] at hd; exact absurd hd (by decide))
            (by intro hc; rw [hc] at hd; exact absurd hd (by decide))
            (by intro hc; rw [hc] at hd; exact absurd hd (by decide))]
          dsimp only
          rw [if_pos (by simp [hd])]
          have happ2 : sNumScan (d :: (t1 ++ t)) = some (lex.data, t) := by
            rw [show (d :: (t1 ++ t) : Chars) = (d :: t1) ++ t from rfl, ← hdt]
            exact happ
          rw [happ2]
          dsimp only
          rw [if_pos hb]
        · rw [hdt, List.cons_append, sVal]
          rw [dropWhile_not_head (by decide)]
          dsimp only
          rw [if_neg (by decide), if_neg (by decide), if_neg (by decide)]
          rw [kwAt_none_head (by decide) (by decide) (by decide)]
          dsimp only
          rw [if_pos (by decide)]
          have happ2 : sNumScan ('-' :: ((d :: t1) ++ t)) = some (lex.data, t) := by
            rw [show ('-' :: ((d :: t1) ++ t) : Chars) = ('-' :: d :: t1) ++ t from rfl,
              ← hdt]
            exact happ
          rw [show (d :: t1 ++ t : Chars) = (d :: t1) ++ t from rfl, happ2]
          dsimp only
          rw [if_pos hb]
      | str s =>
        rw [show emitVal o (JValue.str s) ++ t =
            '"' :: (escBody o.ensure_ascii s.data ++ ('"' :: t)) from by
          rw [show emitVal o (JValue.str s) = escStr o.ensure_ascii s from rfl, escStr]
          simp [List.append_assoc]]
        rw [sVal]
        rw [dropWhile_not_head (by decide)]
        dsimp only
        rw [if_neg (by decide), if_neg (by decide), if_pos rfl]
        rw [sScanStr_emit o.ensure_ascii s.data [] t]
        dsimp only
        rw [show String.mk (([] : Chars).reverse ++ s.data) = s from rfl]
      | arr l =>
        rw [show emitVal o (JValue.arr l) ++ t = '[' :: (emitElems o l ++ (']' :: t)) from by
          rw [show emitVal o (JValue.arr l) = '[' :: (emitElems o l ++ [']']) from rfl]
          simp [List.append_assoc]]
        rw [sVal]
        rw [dropWhile_not_head (by decide)]
        dsimp only
        rw [if_neg (by decide), if_pos rfl]
        have hw2 : wArrEl l ≤ f := by
          rw [show wVal (JValue.arr l) = 1 + wArrEl l from by rw [wVal]] at hw
          omega
        have h2 := ihAE true [] l t hw2
          (by rw [show vLexOK (JValue.arr l) = vLexOKList l from rfl] at hl; exact hl)
          hb (fun _ => rfl)
        simp only [List.reverse_nil, List.nil_append] at h2
        exact h2
      | obj ms =>
        rw [show emitVal o (JValue.obj ms) ++ t =
            lbrace :: (emitMems o ms ++ (rbrace :: t)) from by
          rw [show emitVal o (JValue.obj ms) = lbrace :: (emitMems o ms ++ [rbrace]) from rfl]
          simp [List.append_assoc]]
        rw [sVal]
        rw [dropWhile_not_head (by decide)]
        dsimp only
        rw [if_pos rfl]
        have hw2 : wObjKey ms ≤ f := by
          rw [show wVal (JValue.obj ms) = 1 + wObjKey ms from by rw [wVal]] at hw
          omega
        have h2 := ihOK true [] ms t hw2
          (by rw [show vLexOK (JValue.obj ms) = vLexOKMems ms from rfl] at hl; exact hl)
          hb (fun _ => rfl)
        simp only [List.reverse_nil, List.nil_append] at h2
        exact h2
    · -- sObjKey reads emitted members
      intro canClose acc ms t hw hm hb hcc
      cases ms with
      | nil =>
        rw [show emitMems o [] ++ (rbrace :: t) = rbrace :: t from rfl]
        rw [sObjKey]
        rw [dropWhile_not_head (by decide)]
        dsimp only
        rw [if_pos rfl, hcc rfl, if_pos rfl]
        simp
      | cons m rest =>
        obtain ⟨k, v⟩ := m
        rw [show vLexOKMems ((k, v) :: rest) = (vLexOK v && vLexOKMems rest) from by
          rw [vLexOKMems]] at hm
        simp only [Bool.and_eq_true] at hm
        rw [emitMems_cons]
        rw [show escStr o.ensure_ascii k ++
            (sepColon o ++ (emitVal o v ++ emitObjTail o rest)) ++ (rbrace :: t) =
            '"' :: (escBody o.ensure_ascii k.data ++
              ('"' :: (sepColon o ++ (emitVal o v ++ (emitObjTail o rest ++ (rbrace :: t)))))) from by
          rw [escStr]
          simp [List.append_assoc]]
        rw [sObjKey]
        rw [dropWhile_not_head (by decide)]
        dsimp only
        rw [if_neg (by decide), if_pos rfl]
        rw [sScanStr_emit o.ensure_ascii k.data []
          (sepColon o ++ (emitVal o v ++ (emitObjTail o rest ++ (rbrace :: t))))]
        dsimp only
        rw [show String.mk (([] : Chars).reverse ++ k.data) = k from rfl]
        have hw2 : 2 + wVal v + wObjSep rest ≤ f := by
          rw [show wObjKey ((k, v) :: rest) = 3 + wVal v + wObjSep rest from by
            rw [wObjKey]] at hw
          omega
        exact ihK acc k v rest t hw2 hm.1 hm.2 hb
    · -- sObjSep reads a comma or the close
      intro acc ms t hw hm hb
      cases ms with
      | nil =>
        rw [show emitObjTail o [] ++ (rbrace :: t) = rbrace :: t from rfl]
        rw [sObjSep]
        rw [dropWhile_not_head (by decide)]
        dsimp only
        rw [if_pos rfl]
        simp
      | cons m ms1 =>
        rw [show emitObjTail o (m :: ms1) = sepComma o ++ emitMems o (m :: ms1) from by
          rw [emitObjTail]
          exact List.cons_ne_nil _ _]
        rw [sepComma_eq]
        simp only [List.cons_append, List.append_assoc]
        rw [sObjSep]
        rw [dropWhile_not_head (by decide)]
        dsimp only
        rw [if_neg (by decide), if_pos rfl]
        rw [sObjKey_ws f false acc (sepTail o) _ (sepTail_ws o)]
        have hw2 : wObjKey (m :: ms1) ≤ f := by
          have hq : wObjSep (m :: ms1) = 1 + wObjKey (m :: ms1) := by
            rw [wObjSep]
            exact List.cons_ne_nil _ _
          rw [hq] at hw
          omega
        exact ihOK false acc (m :: ms1) t hw2 hm hb
          (fun h => absurd h (List.cons_ne_nil _ _))
    · -- sKeyed reads the colon
      intro acc k v ms t hw hv hm hb
      rw [sepColon_eq]
      simp only [List.cons_append]
      rw [sKeyed]
      rw [dropWhile_not_head (by decide)]
      dsimp only
      rw [if_pos rfl]
      rw [sMemVal_ws f acc k (sepTail o) _ (sepTail_ws o)]
      exact ihM acc k v ms t (by omega) hv hm hb
    · -- sMemVal reads the member value then the separator state
      intro acc k v ms t hw hv hm hb
      obtain ⟨c, r0, hemit, hcw, _⟩ := emitVal_head o hv
      rw [hemit, List.cons_append, sMemVal]
      rw [dropWhile_not_head hcw]
      dsimp only
      have h1 : sVal f (c :: (r0 ++ (emitObjTail o ms ++ (rbrace :: t)))) =
          some (v, emitObjTail o ms ++ (rbrace :: t)) := by
        rw [show (c :: (r0 ++ (emitObjTail o ms ++ (rbrace :: t))) : Chars) =
          (c :: r0) ++ (emitObjTail o ms ++ (rbrace :: t)) from rfl, ← hemit]
        exact ihV v _ (by omega) hv (sBoundary_objTail o ms t)
      rw [h1]
      dsimp only
      have h2 := ihOS ((k, v) :: acc) ms t (by omega) hm hb
      rw [h2]
      simp [List.reverse_cons, List.append_assoc]
    · -- sArrEl reads an emitted element or the close
      intro canClose acc l t hw hl hb hcc
      cases l with
      | nil =>
        rw [show emitElems o [] ++ (']' :: t) = ']' :: t from rfl]
        rw [sArrEl]
        rw [dropWhile_not_head (by decide)]
        dsimp only
        rw [if_pos rfl, hcc rfl, if_pos rfl]
        simp
      | cons v vs =>
        rw [show vLexOKList (v :: vs) = (vLexOK v && vLexOKList vs) from by
          rw [vLexOKList]] at hl
        simp only [Bool.and_eq_true] at hl
        rw [emitElems_cons]
        simp only [List.append_assoc]
        obtain ⟨c, r0, hemit, hcw, hcne⟩ := emitVal_head o hl.1
        rw [hemit, List.cons_append, sArrEl]
        rw [dropWhile_not_head hcw]
        dsimp only
        rw [if_neg hcne]
        have h1 : sVal f (c :: (r0 ++ (emitArrTail o vs ++ (']' :: t)))) =
            some (v, emitArrTail o vs ++ (']' :: t)) := by
          rw [show (c :: (r0 ++ (emitArrTail o vs ++ (']' :: t))) : Chars) =
            (c :: r0) ++ (emitArrTail o vs ++ (']' :: t)) from rfl, ← hemit]
          have hw2 : wVal v ≤ f := by
            rw [show wArrEl (v :: vs) = 1 + wVal v + wArrSep vs from by rw [wArrEl]] at hw
            omega
          exact ihV v _ hw2 hl.1 (sBoundary_arrTail o vs t)
        rw [h1]
        dsimp only
        have hw3 : wArrSep vs ≤ f := by
          rw [show wArrEl (v :: vs) = 1 + wVal v + wArrSep vs from by rw [wArrEl]] at hw
          have := wVal_pos v
          omega
        have h2 := ihAS (v :: acc) vs t hw3 hl.2 hb
        rw [h2]
        simp [List.reverse_cons, List.append_assoc]
    · -- sArrSep reads a comma or the close
      intro acc vs t hw hl hb
      cases vs with
      | nil =>
        rw [show emitArrTail o [] ++ (']' :: t) = ']' :: t from rfl]
        rw [sArrSep]
        rw [dropWhile_not_head (by decide)]
        dsimp only
        rw [if_pos rfl]
        simp
      | cons w ws =>
        rw [show emitArrTail o (w :: ws) = sepComma o ++ emitElems o (w :: ws) from by
          rw [emitArrTail]
          exact List.cons_ne_nil _ _]
        rw [sepComma_eq]
        simp only [List.cons_append, List.append_assoc]
        rw [sArrSep]
        rw [dropWhile_not_head (by decide)]
        dsimp only
        rw [if_neg (by decide), if_pos rfl]
        rw [sArrEl_ws f false acc (sepTail o) _ (sepTail_ws o)]
        have hw2 : wArrEl (w :: ws) ≤ f := by
          have hq : wArrSep (w :: ws) = 1 + wArrEl (w :: ws) := by
            rw [wArrSep]
            exact List.cons_ne_nil _ _
          rw [hq] at hw
          omega
        exact ihAE false acc (w :: ws) t hw2 hl hb
          (fun h => absurd h (List.cons_ne_nil _ _))

/-! ### Emitted length bounds the parse weight -/

theorem sepComma_len (o : Options) : 1 ≤ (sepComma o).length := by
  rw [sepComma]
  split <;> decide

theorem sepColon_len (o : Options) : 1 ≤ (sepColon o).length := by
  rw [sepColon]
  split <;> decide

theorem escStr_len (a : Bool) (s : String) : 2 ≤ (escStr a s).length := by
  rw [escStr]
  simp only [List.length_cons, List.length_append]
  omega

mutual

theorem wVal_le (o : Options) : ∀ v : JValue, wVal v ≤ 3 * (emitVal o v).length + 1
  | .null => by rw [wVal]; omega
  | .bool b => by rw [wVal]; omega
  | .num lex => by rw [wVal]; omega
  | .str s => by rw [wVal]; omega
  | .arr l => by
    have h := wArrEl_le o l
    rw [wVal]
    rw [show emitVal o (.arr l) = '[' :: (emitElems o l ++ [']']) from rfl]
    simp only [List.length_cons, List.length_append]
    omega
  | .obj ms => by
    have h := wObjKey_le o ms
    rw [wVal]
    rw [show emitVal o (.obj ms) = lbrace :: (emitMems o ms ++ [rbrace]) from rfl]
    simp only [List.length_cons, List.length_append]
    omega

theorem wArrEl_le (o : Options) : ∀ l : List JValue,
    wArrEl l ≤ 3 * (emitElems o l).length + 6
  | [] => by rw [wArrEl]; omega
  | [v] => by
    have h := wVal_le o v
    rw [wArrEl]
    rw [show wArrSep ([] : List JValue) = 1 from by rw [wArrSep]]
    rw [show emitElems o [v] = emitVal o v from by rw [emitElems]]
    omega
  | v :: w :: ws => by
    have h1 := wVal_le o v
    have h2 := wArrEl_le o (w :: ws)
    have hc := sepComma_len o
    rw [wArrEl]
    rw [show wArrSep (w :: ws) = 1 + wArrEl (w :: ws) from by
      rw [wArrSep]
      exact List.cons_ne_nil _ _]
    rw [show emitElems o (v :: w :: ws) =
      emitVal o v ++ sepComma o ++ emitElems o (w :: ws) from by
      rw [emitElems]
      exact List.cons_ne_nil _ _]
    simp only [List.length_append]
    omega

theorem wObjKey_le (o : Options) : ∀ ms : List (String × JValue),
    wObjKey ms ≤ 3 * (emitMems o ms).length + 6
  | [] => by rw [wObjKey]; omega
  | [(k, v)] => by
    have h := wVal_le o v
    have hk := escStr_len o.ensure_ascii k
    have hcol := sepColon_len o
    rw [wObjKey]
    rw [show wObjSep ([] : List (String × JValue)) = 1 from by rw [wObjSep]]
    rw [show emitMems o [(k, v)] =
      escStr o.ensure_ascii k ++ sepColon o ++ emitVal o v from by rw [emitMems]]
    simp only [List.length_append]
    omega
  | (k, v) :: m :: ms1 => by
    have h1 := wVal_le o v
    have h2 := wObjKey_le o (m :: ms1)
    have hk := escStr_len o.ensure_ascii k
    have hcol := sepColon_len o
    have hc := sepComma_len o
    rw [wObjKey]
    rw [show wObjSep (m :: ms1) = 1 + wObjKey (m :: ms1) from by
      rw [wObjSep]
      exact List.cons_ne_nil _ _]
    rw [show emitMems o ((k, v) :: m :: ms1) =
      escStr o.ensure_ascii k ++ sepColon o ++ emitVal o v ++ sepComma o ++
        emitMems o (m :: ms1) from by
      rw [emitMems]
      exact List.cons_ne_nil _ _]
    simp only [List.length_append]
    omega

end

theorem strict_roundtrip (o : Options) {v : JValue} (hl : vLexOK v = true) :
    strictParseDoc (emitVal o v) = some v := by
  have hw : wVal v ≤ fuelFor (emitVal o v) := by
    have h := wVal_le o v
    rw [fuelFor]
    omega
  have h1 := (pRT o (fuelFor (emitVal o v))).1 v [] hw hl (by rw [sBoundary])
  rw [List.append_nil] at h1
  rw [strictParseDoc, h1]
  rfl

/-! ### Streaming-mode scanners extend over appended input -/

theorem headD_append_of_ne {l : Chars} (t : Chars) (h : l ≠ []) :
    (l ++ t).headD ' ' = l.headD ' ' := by
  cases l with
  | nil => exact absurd rfl h
  | cons x xs => rfl

theorem skipLine_append : ∀ {cs r : Chars} (t : Chars),
    skipLine cs = some r → skipLine (cs ++ t) = some (r ++ t) := by
  intro cs
  induction cs with
  | nil => intro r t h; simp [skipLine] at h
  | cons c cs1 ih =>
    intro r t h
    rw [skipLine] at h
    rw [List.cons_append, skipLine]
    split at h
    · rename_i hc
      simp only [Option.some.injEq] at h
      rw [if_pos hc, ← h]
      rfl
    · rename_i hc
      rw [if_neg hc]
      exact ih t h

theorem skipBlockAux_append : ∀ {cs r : Chars} {b : Bool} (t : Chars),
    skipBlockAux b cs = some r → skipBlockAux b (cs ++ t) = some (r ++ t) := by
  intro cs
  induction cs with
  | nil => intro r b t h; simp [skipBlockAux] at h
  | cons c cs1 ih =>
    intro r b t h
    rw [skipBlockAux] at h
    rw [List.cons_append, skipBlockAux]
    split at h
    · rename_i hc
      simp only [Option.some.injEq] at h
      rw [if_pos hc, ← h]
    · rename_i hc
      rw [if_neg hc]
      exact ih t h

theorem skipBlock_append {cs r : Chars} (t : Chars) (h : skipBlock cs = some r) :
    skipBlock (cs ++ t) = some (r ++ t) := skipBlockAux_append t h

theorem striv_append (o : Options) : ∀ (cs : Chars) (c : Char) (r t : Chars),
    striv o false cs = some (c :: r) → striv o false (cs ++ t) = some (c :: (r ++ t))
  | [] => by
    intro c r t h
    rw [show striv o false [] = some [] from by rw [striv.eq_def]] at h
    cases h
  | c0 :: cs1 => by
    intro c r t h
    rw [striv.eq_def] at h
    dsimp only at h
    rw [List.cons_append, striv.eq_def]
    dsimp only
    split at h
    · rename_i htw
      rw [if_pos htw]
      exact striv_append o cs1 _ _ t h
    · rename_i htw
      rw [if_neg htw]
      split at h
      · rename_i hsl
        rw [if_pos hsl]
        cases cs1 with
        | nil => cases h
        | cons d cs2 =>
          simp only [List.cons_append]
          dsimp only at h ⊢
          split at h
          · rename_i hd
            rw [if_pos hd]
            split at h
            · rename_i r1 h1
              have h2 := skipLine_append t h1
              rw [h2]
              have h9 := skipLine_length h1
              exact striv_append o r1 _ _ t h
            · cases h
          · rename_i hd
            rw [if_neg hd]
            split at h
            · rename_i hd2
              rw [if_pos hd2]
              split at h
              · rename_i r1 h1
                have h2 := skipBlock_append t h1
                rw [h2]
                have h9 := skipBlock_length h1
                exact striv_append o r1 _ _ t h
              · cases h
            · rename_i hd2
              rw [if_neg hd2]
              simp only [Option.some.injEq, List.cons.injEq] at h
              obtain ⟨h3, h4⟩ := h
              rw [← h3, ← h4]
              rfl
      · rename_i hsl
        rw [if_neg hsl]
        split at h
        · rename_i hh
          rw [if_pos hh]
          split at h
          · rename_i r1 h1
            have h2 := skipLine_append t h1
            rw [h2]
            have h9 := skipLine_length h1
            exact striv_append o r1 _ _ t h
          · cases h
        · rename_i hh
          rw [if_neg hh]
          simp only [Option.some.injEq, List.cons.injEq] at h
          obtain ⟨h3, h4⟩ := h
          rw [← h3, ← h4]
termination_by cs => cs.length
decreasing_by
  all_goals simp only [List.length_cons] at *
  all_goals omega

theorem striv_mode (o : Options) : ∀ (cs : Chars) (r : Chars),
    striv o false cs = some r → striv o true cs = some r
  | [] => by
    intro r h
    rw [show striv o false [] = some [] from by rw [striv.eq_def]] at h
    rw [show striv o true [] = some [] from by rw [striv.eq_def]]
    exact h
  | c0 :: cs1 => by
    intro r h
    rw [striv.eq_def] at h
    dsimp only at h
    rw [striv.eq_def]
    dsimp only
    split at h
    · rename_i htw
      rw [if_pos htw]
      exact striv_mode o cs1 _ h
    · rename_i htw
      rw [if_neg htw]
      split at h
      · rename_i hsl
        rw [if_pos hsl]
        cases cs1 with
        | nil => cases h
        | cons d cs2 =>
          dsimp only at h ⊢
          split at h
          · rename_i hd
            rw [if_pos hd]
            split at h
            · rename_i r1 h1
              have h9 := skipLine_length h1
              exact striv_mode o r1 _ h
            · cases h
          · rename_i hd
            rw [if_neg hd]
            split at h
            · rename_i hd2
              rw [if_pos hd2]
              split at h
              · rename_i r1 h1
                have h9 := skipBlock_length h1
                exact striv_mode o r1 _ h
              · cases h
            · rename_i hd2
              rw [if_neg hd2]
              exact h
      · rename_i hsl
        rw [if_neg hsl]
        split at h
        · rename_i hh
          rw [if_pos hh]
          split at h
          · rename_i r1 h1
            have h9 := skipLine_length h1
            exact striv_mode o r1 _ h
          · cases h
        · rename_i hh
          rw [if_neg hh]
          exact h
termination_by cs => cs.length
decreasing_by
  all_goals simp only [List.length_cons] at *
  all_goals omega

theorem takeDigsU_done_ne : ∀ {cs ds rest : Chars},
    takeDigsU cs = .done ds rest → rest ≠ [] := by
  intro cs
  induction cs with
  | nil => intro ds rest h; simp [takeDigsU] at h
  | cons c cs1 ih =>
    intro ds rest h
    rw [takeDigsU] at h
    split at h
    · split at h
      · rename_i ds0 rest0 h0
        simp only [DigScan.done.injEq] at h
        rw [← h.2]
        exact ih h0
      · cases h
    · split at h
      · split at h
        · cases h
        · split at h
          · exact ih h
          · simp only [DigScan.done.injEq] at h
            rw [← h.2]
            exact List.cons_ne_nil _ _
      · simp only [DigScan.done.injEq] at h
        rw [← h.2]
        exact List.cons_ne_nil _ _

theorem takeBase_done_ne {p : Char → Bool} : ∀ {cs ds rest : Chars},
    takeBase p cs = .done ds rest → rest ≠ [] := by
  intro cs
  induction cs with
  | nil => intro ds rest h; simp [takeBase] at h
  | cons c cs1 ih =>
    intro ds rest h
    rw [takeBase] at h
    split at h
    · split at h
      · rename_i ds0 rest0 h0
        simp only [DigScan.done.injEq] at h
        rw [← h.2]
        exact ih h0
      · cases h
    · simp only [DigScan.done.injEq] at h
      rw [← h.2]
      exact List.cons_ne_nil _ _


theorem scanExpTail_append {neg : Bool} {ip : Chars} {fp : Option Chars} {ec : Char} :
    ∀ {cs lex rest : Chars} (m9 : Bool) (t : Chars),
      scanExpTail false neg ip fp ec cs = .done lex rest →
      scanExpTail m9 neg ip fp ec (cs ++ t) = .done lex (rest ++ t) := by
  intro cs lex rest m9 t h
  cases cs with
  | nil =>
    rw [scanExpTail] at h
    rw [show takeDigsU [] = DigScan.more [] from rfl] at h
    rw [scanExpDigs] at h
    cases h
  | cons s cs1 =>
    rw [scanExpTail] at h
    rw [List.cons_append, scanExpTail]
    split at h
    · rename_i hs
      rw [if_pos hs]
      cases htd : takeDigsU cs1 with
      | done ds rest0 =>
        rw [htd] at h
        have hta := takeDigsU_append cs1 t ds rest0 htd
        rw [hta]
        rw [scanExpDigs] at h ⊢
        split at h
        · rename_i hde
          rw [if_pos hde]
          simp only [NumScan.done.injEq] at h
          rw [← h.1, ← h.2]
          rfl
        · rename_i hde
          rw [if_neg hde]
          simp only [NumScan.done.injEq] at h
          rw [← h.1, ← h.2]
      | more ds =>
        rw [htd] at h
        rw [scanExpDigs] at h
        cases h
    · rename_i hs
      rw [if_neg hs]
      cases htd : takeDigsU (s :: cs1) with
      | done ds rest0 =>
        rw [htd] at h
        have hta := takeDigsU_append (s :: cs1) t ds rest0 htd
        rw [List.cons_append] at hta
        rw [hta]
        rw [scanExpDigs] at h ⊢
        split at h
        · rename_i hde
          rw [if_pos hde]
          simp only [NumScan.done.injEq] at h
          rw [← h.1, ← h.2]
          rfl
        · rename_i hde
          rw [if_neg hde]
          simp only [NumScan.done.injEq] at h
          rw [← h.1, ← h.2]
      | more ds =>
        rw [htd] at h
        rw [scanExpDigs] at h
        cases h

theorem scanFracTail_append {o : Options} {neg : Bool} {ip : Chars} :
    ∀ {cs lex rest : Chars} (m9 : Bool) (t : Chars),
      scanFracTail o false neg ip cs = .done lex rest →
      scanFracTail o m9 neg ip (cs ++ t) = .done lex (rest ++ t) := by
  intro cs lex rest m9 t h
  rw [scanFracTail] at h
  rw [scanFracTail]
  cases htd : takeDigsU cs with
  | done ds rest0 =>
    rw [htd] at h
    dsimp only at h
    have hne := takeDigsU_done_ne htd
    have hta := takeDigsU_append cs t ds rest0 htd
    rw [hta]
    dsimp only
    split at h
    · rename_i hde
      rw [if_pos hde]
      split at h
      · rename_i hopt
        rw [if_pos hopt]
        simp only [NumScan.done.injEq] at h
        rw [← h.1, ← h.2]
      · rename_i hopt
        rw [if_neg hopt]
        simp only [NumScan.done.injEq] at h
        rw [← h.1, ← h.2]
        rfl
    · rename_i hde
      rw [if_neg hde]
      cases rest0 with
      | nil => exact absurd rfl hne
      | cons e cs4 =>
        rw [List.cons_append]
        dsimp only at h ⊢
        split at h
        · rename_i he
          rw [if_pos he]
          exact scanExpTail_append m9 t h
        · rename_i he
          rw [if_neg he]
          simp only [NumScan.done.injEq] at h
          rw [← h.1, ← h.2]
          rfl
  | more ds =>
    rw [htd] at h
    dsimp only at h
    cases h

theorem scanBaseTail_append {neg : Bool} {p : Char → Bool} {base : Nat} :
    ∀ {fb cs lex rest : Chars} (m9 : Bool) (t : Chars),
      scanBaseTail false neg p base fb cs = .done lex rest →
      scanBaseTail m9 neg p base (fb ++ t) (cs ++ t) = .done lex (rest ++ t) := by
  intro fb cs lex rest m9 t h
  rw [scanBaseTail] at h
  rw [scanBaseTail]
  cases htb : takeBase p cs with
  | done ds rest0 =>
    rw [htb] at h
    dsimp only at h
    have hta := takeBase_append cs t ds rest0 htb
    rw [hta]
    dsimp only
    split at h
    · rename_i hde
      rw [if_pos hde]
      simp only [NumScan.done.injEq] at h
      rw [← h.1, ← h.2]
    · rename_i hde
      rw [if_neg hde]
      simp only [NumScan.done.injEq] at h
      rw [← h.1, ← h.2]
  | more ds =>
    rw [htb] at h
    dsimp only at h
    cases h

theorem scanIntTail_append {o : Options} {neg : Bool} :
    ∀ {cs lex rest : Chars} (m9 : Bool) (t : Chars),
      scanIntTail o false neg cs = .done lex rest →
      scanIntTail o m9 neg (cs ++ t) = .done lex (rest ++ t) := by
  intro cs lex rest m9 t h
  rw [scanIntTail] at h
  rw [scanIntTail]
  cases htd : takeDigsU cs with
  | done ds rest0 =>
    rw [htd] at h
    dsimp only at h
    have hne := takeDigsU_done_ne htd
    have hta := takeDigsU_append cs t ds rest0 htd
    rw [hta]
    dsimp only
    cases rest0 with
    | nil => exact absurd rfl hne
    | cons r0 cs2 =>
      rw [List.cons_append]
      dsimp only at h ⊢
      split at h
      · rename_i hr
        rw [if_pos hr]
        exact scanFracTail_append m9 t h
      · rename_i hr
        rw [if_neg hr]
        split at h
        · rename_i hr2
          rw [if_pos hr2]
          exact scanExpTail_append m9 t h
        · rename_i hr2
          rw [if_neg hr2]
          split at h
          · rename_i hx
            rw [if_pos hx]
            have h2 := @scanBaseTail_append _ _ _ (r0 :: cs2) cs2 _ _ m9 t h
            rw [List.cons_append] at h2
            exact h2
          · rename_i hx
            rw [if_neg hx]
            split at h
            · rename_i ho
              rw [if_pos ho]
              have h2 := @scanBaseTail_append _ _ _ (r0 :: cs2) cs2 _ _ m9 t h
              rw [List.cons_append] at h2
              exact h2
            · rename_i ho
              rw [if_neg ho]
              split at h
              · rename_i hb
                rw [if_pos hb]
                have h2 := @scanBaseTail_append _ _ _ (r0 :: cs2) cs2 _ _ m9 t h
                rw [List.cons_append] at h2
                exact h2
              · rename_i hb
                rw [if_neg hb]
                simp only [NumScan.done.injEq] at h
                rw [← h.1, ← h.2]
                rfl
  | more ds =>
    rw [htd] at h
    dsimp only at h
    cases h

theorem scanNumBody_append {o : Options} {neg : Bool} :
    ∀ {cs lex rest : Chars} (m9 : Bool) (t : Chars),
      scanNumBody o false neg cs = .done lex rest →
      scanNumBody o m9 neg (cs ++ t) = .done lex (rest ++ t) := by
  intro cs lex rest m9 t h
  cases cs with
  | nil =>
    rw [scanNumBody] at h
    cases h
  | cons c cs1 =>
    rw [scanNumBody] at h
    rw [List.cons_append, scanNumBody]
    split at h
    · rename_i hc
      rw [if_pos hc]
      exact scanFracTail_append m9 t h
    · rename_i hc
      rw [if_neg hc]
      have h2 := scanIntTail_append m9 t h
      rw [List.cons_append] at h2
      exact h2

theorem scanNumber_append {o : Options} :
    ∀ {cs lex rest : Chars} (m9 : Bool) (t : Chars),
      scanNumber o false cs = .done lex rest →
      scanNumber o m9 (cs ++ t) = .done lex (rest ++ t) := by
  intro cs lex rest m9 t h
  rw [scanNumber.eq_def] at h
  rw [scanNumber.eq_def]
  split at h
  · rename_i cs1
    rw [show ('-' :: cs1) ++ t = '-' :: (cs1 ++ t) from rfl]
    split
    · rename_i cs2 heq
      simp only [List.cons.injEq] at heq
      rw [← heq.2]
      exact scanNumBody_append m9 t h
    · rename_i hnot
      exact (hnot (cs1 ++ t) rfl).elim
  · rename_i hnot
    cases cs with
    | nil =>
      rw [scanNumBody] at h
      cases h
    | cons c cs1 =>
      have hcm : c ≠ '-' := by
        intro h9
        rw [h9] at hnot
        exact hnot cs1 rfl
      rw [List.cons_append]
      split
      · rename_i cs2 heq
        simp only [List.cons.injEq] at heq
        exact absurd heq.1 hcm
      · have h2 := scanNumBody_append m9 t h
        rw [List.cons_append] at h2
        exact h2

/-! ### Streaming parses extend over appended input -/

theorem isPrefixOf_extend {l x : Chars} (t : Chars) (h : l.isPrefixOf x = true) :
    l.isPrefixOf (x ++ t) = true := by
  rw [List.isPrefixOf_iff_prefix] at h ⊢
  exact h.trans (List.prefix_append x t)

theorem isPrefixOf_append_or {l x : Chars} {t : Chars}
    (h : l.isPrefixOf (x ++ t) = true) :
    l.isPrefixOf x = true ∨ x.isPrefixOf l = true := by
  rw [List.isPrefixOf_iff_prefix] at h
  rw [List.isPrefixOf_iff_prefix, List.isPrefixOf_iff_prefix]
  exact List.prefix_or_prefix_of_prefix h (List.prefix_append x t)

theorem isPrefixOf_of_append {x l : Chars} {t : Chars}
    (h : (x ++ t).isPrefixOf l = true) : x.isPrefixOf l = true := by
  rw [List.isPrefixOf_iff_prefix] at h ⊢
  exact (List.prefix_append x t).trans h

/-- Relation between a streaming-mode parse of a buffer and a parse of the
buffer with more input appended (in either mode, with at least as much
fuel): a completed value completes identically with the appended rest, an
error stays an error of the same kind, and an undecided or fuel-starved
parse constrains nothing. -/
def extRel (t : Chars) : PRes → PRes → Prop
  | .ok v r, q => q = .ok v (r ++ t)
  | .fail k _, q => ∃ n', q = .fail k n'
  | .more, _ => True
  | .out, _ => True

theorem pExt (o : Options) (m : Bool) : ∀ f : Nat,
    (∀ cs f' t, f ≤ f' →
      extRel t (pVal o false f cs) (pVal o m f' (cs ++ t))) ∧
    (∀ acc cs f' t, f ≤ f' →
      extRel t (pObj o false f acc cs) (pObj o m f' acc (cs ++ t))) ∧
    (∀ acc k cs f' t, f ≤ f' →
      extRel t (pKeyed o false f acc k cs) (pKeyed o m f' acc k (cs ++ t))) ∧
    (∀ acc k cs f' t, f ≤ f' →
      extRel t (pMemVal o false f acc k cs) (pMemVal o m f' acc k (cs ++ t))) ∧
    (∀ acc cs f' t, f ≤ f' →
      extRel t (pArr o false f acc cs) (pArr o m f' acc (cs ++ t))) := by
  intro f
  induction f with
  | zero =>
    exact ⟨fun cs f' t hf => trivial,
           fun acc cs f' t hf => trivial,
           fun acc k cs f' t hf => trivial,
           fun acc k cs f' t hf => trivial,
           fun acc cs f' t hf => trivial⟩
  | succ f ih =>
    obtain ⟨ihV, ihO, ihK, ihM, ihA⟩ := ih
    have hstx : ∀ (cs : Chars) (c : Char) (cs1 t : Chars),
        striv o false cs = some (c :: cs1) →
        striv o m (cs ++ t) = some (c :: (cs1 ++ t)) := by
      intro cs c cs1 t hst
      cases m with
      | false => exact striv_append o cs c cs1 t hst
      | true => exact striv_mode o (cs ++ t) _ (striv_append o cs c cs1 t hst)
    refine ⟨?_, ?_, ?_, ?_, ?_⟩
    · -- pVal
      intro cs f' t hf
      cases f' with
      | zero => omega
      | succ f2 =>
        rw [pVal, pVal]
        cases hst : striv o false cs with
        | none => exact trivial
        | some r0 =>
          cases r0 with
          | nil => exact trivial
          | cons c cs1 =>
            rw [hstx cs c cs1 t hst]
            dsimp only
            by_cases h1 : c = lbrace
            · rw [if_pos h1, if_pos h1]
              exact ihO [] cs1 f2 t (by omega)
            · rw [if_neg h1, if_neg h1]
              by_cases h2 : c = '['
              · rw [if_pos h2, if_pos h2]
                exact ihA [] cs1 f2 t (by omega)
              · rw [if_neg h2, if_neg h2]
                by_cases h3 : isOpenQuote c = true
                · rw [if_pos h3, if_pos h3]
                  cases hsc : scanStr (closerFor c) [] cs1 with
                  | done s rest =>
                    rw [scanStr_append (closerFor c) [] cs1 t s rest hsc]
                    exact rfl
                  | unterminated s => exact trivial
                · rw [if_neg h3, if_neg h3]
                  by_cases h4 : isIdentStart c = true
                  · rw [if_pos h4, if_pos h4]
                    cases hsi : scanIdent (c :: cs1) with
                    | done lex rest =>
                      have h5 := @scanIdent_append (c :: cs1) t lex rest hsi
                      rw [List.cons_append] at h5
                      rw [h5]
                      exact rfl
                    | more lex => exact trivial
                  · rw [if_neg h4, if_neg h4]
                    by_cases h5 : isDigitCh c = true
                    · rw [if_pos h5, if_pos h5]
                      cases hsn : scanNumber o false (c :: cs1) with
                      | done lex rest =>
                        have h6 := scanNumber_append m t hsn
                        rw [List.cons_append] at h6
                        rw [h6]
                        exact rfl
                      | more => exact trivial
                    · rw [if_neg h5, if_neg h5]
                      by_cases h6 : c = '-'
                      · rw [if_pos h6, if_pos h6]
                        cases cs1 with
                        | nil => exact trivial
                        | cons d cs2 =>
                          simp only [List.cons_append]
                          by_cases h7 : (isDigitCh d ||
                              (d = '.' && o.number_tolerance_leading_dot)) = true
                          · rw [if_pos h7, if_pos h7]
                            cases hsn : scanNumber o false (c :: d :: cs2) with
                            | done lex rest =>
                              have h8 := scanNumber_append m t hsn
                              simp only [List.cons_append] at h8
                              rw [h8]
                              exact rfl
                            | more => exact trivial
                          · rw [if_neg h7, if_neg h7]
                            by_cases h8 : (o.normalize_js_nonfinite &&
                                infChars.isPrefixOf (d :: cs2)) = true
                            · have h8x : (o.normalize_js_nonfinite &&
                                  infChars.isPrefixOf (d :: (cs2 ++ t))) = true := by
                                simp only [Bool.and_eq_true] at h8 ⊢
                                refine ⟨h8.1, ?_⟩
                                exact isPrefixOf_extend t h8.2
                              rw [if_pos h8, if_pos h8x]
                              have hlen : 8 ≤ (d :: cs2).length := by
                                simp only [Bool.and_eq_true] at h8
                                have h9 := (List.isPrefixOf_iff_prefix.mp h8.2).length_le
                                rw [show infChars.length = 8 from rfl] at h9
                                exact h9
                              show PRes.ok .null ((d :: (cs2 ++ t)).drop 8) =
                                PRes.ok .null ((d :: cs2).drop 8 ++ t)
                              rw [show d :: (cs2 ++ t) = (d :: cs2) ++ t from rfl,
                                List.drop_append_of_le_length hlen]
                            · rw [if_neg h8]
                              split
                              · exact trivial
                              · rename_i h9
                                split
                                · rename_i hcr
                                  simp only [Bool.and_eq_true] at hcr
                                  rcases isPrefixOf_append_or
                                      (show infChars.isPrefixOf ((d :: cs2) ++ t) = true
                                        from hcr.2) with hq | hq
                                  · exact absurd (by simp [hcr.1, hq] :
                                      (o.normalize_js_nonfinite &&
                                        infChars.isPrefixOf (d :: cs2)) = true) h8
                                  · exact (h9 (by simp [hcr.1, hq])).elim
                                · split
                                  · rename_i hcr
                                    simp only [Bool.and_eq_true, decide_eq_true_eq] at hcr
                                    have hq := isPrefixOf_of_append
                                      (show ((d :: cs2) ++ t).isPrefixOf infChars = true
                                        from hcr.1.2)
                                    exact (h9 (by simp [hcr.1.1, hq])).elim
                                  · exact ⟨_, rfl⟩
                      · rw [if_neg h6, if_neg h6]
                        by_cases h7 : (c = '.' && o.number_tolerance_leading_dot) = true
                        · rw [if_pos h7, if_pos h7]
                          cases cs1 with
                          | nil => exact trivial
                          | cons d cs2 =>
                            simp only [List.cons_append]
                            by_cases h8 : isDigitCh d = true
                            · rw [if_pos h8, if_pos h8]
                              cases hsn : scanNumber o false (c :: d :: cs2) with
                              | done lex rest =>
                                have h9 := scanNumber_append m t hsn
                                simp only [List.cons_append] at h9
                                rw [h9]
                                exact rfl
                              | more => exact trivial
                            · rw [if_neg h8, if_neg h8]
                              exact ⟨_, rfl⟩
                        · rw [if_neg h7, if_neg h7]
                          exact ⟨_, rfl⟩
    · -- pObj
      intro acc cs f' t hf
      cases f' with
      | zero => omega
      | succ f2 =>
        rw [pObj, pObj]
        cases hst : striv o false cs with
        | none => exact trivial
        | some r0 =>
          cases r0 with
          | nil => exact trivial
          | cons c cs1 =>
            rw [hstx cs c cs1 t hst]
            dsimp only
            by_cases h1 : c = rbrace
            · rw [if_pos h1, if_pos h1]
              exact rfl
            · rw [if_neg h1, if_neg h1]
              by_cases h2 : c = ']'
              · rw [if_pos h2, if_pos h2]
                exact rfl
              · rw [if_neg h2, if_neg h2]
                by_cases h3 : c = ','
                · rw [if_pos h3, if_pos h3]
                  exact ihO acc cs1 f2 t (by omega)
                · rw [if_neg h3, if_neg h3]
                  by_cases h4 : isOpenQuote c = true
                  · rw [if_pos h4, if_pos h4]
                    cases hsc : scanStr (closerFor c) [] cs1 with
                    | done k rest =>
                      rw [scanStr_append (closerFor c) [] cs1 t k rest hsc]
                      exact ihK acc (String.mk k) rest f2 t (by omega)
                    | unterminated k => exact trivial
                  · rw [if_neg h4, if_neg h4]
                    by_cases h5 : isIdentStart c = true
                    · rw [if_pos h5, if_pos h5]
                      cases hsi : scanIdent (c :: cs1) with
                      | done lex rest =>
                        have h6 := @scanIdent_append (c :: cs1) t lex rest hsi
                        rw [List.cons_append] at h6
                        rw [h6]
                        exact ihK acc (String.mk lex) rest f2 t (by omega)
                      | more lex => exact trivial
                    · rw [if_neg h5, if_neg h5]
                      exact ⟨_, rfl⟩
    · -- pKeyed
      intro acc k cs f' t hf
      cases f' with
      | zero => omega
      | succ f2 =>
        rw [pKeyed, pKeyed]
        cases hst : striv o false cs with
        | none => exact trivial
        | some r0 =>
          cases r0 with
          | nil => exact trivial
          | cons c cs1 =>
            rw [hstx cs c cs1 t hst]
            dsimp only
            by_cases h1 : c = ':'
            · rw [if_pos h1, if_pos h1]
              exact ihM acc k cs1 f2 t (by omega)
            · rw [if_neg h1, if_neg h1]
              by_cases h2 : c = rbrace
              · rw [if_pos h2, if_pos h2]
                exact rfl
              · rw [if_neg h2, if_neg h2]
                by_cases h3 : c = ']'
                · rw [if_pos h3, if_pos h3]
                  exact rfl
                · rw [if_neg h3, if_neg h3]
                  by_cases h4 : c = ','
                  · rw [if_pos h4, if_pos h4]
                    exact ihO ((k, .null) :: acc) cs1 f2 t (by omega)
                  · rw [if_neg h4, if_neg h4]
                    have h5 := ihM acc k (c :: cs1) f2 t (by omega)
                    rw [List.cons_append] at h5
                    exact h5
    · -- pMemVal
      intro acc k cs f' t hf
      cases f' with
      | zero => omega
      | succ f2 =>
        rw [pMemVal, pMemVal]
        cases hst : striv o false cs with
        | none => exact trivial
        | some r0 =>
          cases r0 with
          | nil => exact trivial
          | cons c cs1 =>
            rw [hstx cs c cs1 t hst]
            dsimp only
            by_cases h1 : c = rbrace
            · rw [if_pos h1, if_pos h1]
              exact rfl
            · rw [if_neg h1, if_neg h1]
              by_cases h2 : c = ']'
              · rw [if_pos h2, if_pos h2]
                exact rfl
              · rw [if_neg h2, if_neg h2]
                by_cases h3 : c = ','
                · rw [if_pos h3, if_pos h3]
                  exact ihO ((k, .null) :: acc) cs1 f2 t (by omega)
                · rw [if_neg h3, if_neg h3]
                  have hrel := ihV (c :: cs1) f2 t (by omega)
                  rw [List.cons_append] at hrel
                  cases hpv : pVal o false f (c :: cs1) with
                  | ok v1 rest =>
                    rw [hpv] at hrel
                    have hq : pVal o m f2 (c :: (cs1 ++ t)) = .ok v1 (rest ++ t) := hrel
                    rw [hq]
                    exact ihO ((k, v1) :: acc) rest f2 t (by omega)
                  | more => exact trivial
                  | fail k2 n2 =>
                    rw [hpv] at hrel
                    obtain ⟨n3, hq⟩ := hrel
                    rw [hq]
                    exact ⟨n3, rfl⟩
                  | out => exact trivial
    · -- pArr
      intro acc cs f' t hf
      cases f' with
      | zero => omega
      | succ f2 =>
        rw [pArr, pArr]
        cases hst : striv o false cs with
        | none => exact trivial
        | some r0 =>
          cases r0 with
          | nil => exact trivial
          | cons c cs1 =>
            rw [hstx cs c cs1 t hst]
            dsimp only
            by_cases h1 : c = ']'
            · rw [if_pos h1, if_pos h1]
              exact rfl
            · rw [if_neg h1, if_neg h1]
              by_cases h2 : c = rbrace
              · rw [if_pos h2, if_pos h2]
                exact rfl
              · rw [if_neg h2, if_neg h2]
                by_cases h3 : c = ','
                · rw [if_pos h3, if_pos h3]
                  exact ihA acc cs1 f2 t (by omega)
                · rw [if_neg h3, if_neg h3]
                  have hrel := ihV (c :: cs1) f2 t (by omega)
                  rw [List.cons_append] at hrel
                  cases hpv : pVal o false f (c :: cs1) with
                  | ok v1 rest =>
                    rw [hpv] at hrel
                    have hq : pVal o m f2 (c :: (cs1 ++ t)) = .ok v1 (rest ++ t) := hrel
                    rw [hq]
                    exact ihA (v1 :: acc) rest f2 t (by omega)
                  | more => exact trivial
                  | fail k2 n2 =>
                    rw [hpv] at hrel
                    obtain ⟨n3, hq⟩ := hrel
                    rw [hq]
                    exact ⟨n3, rfl⟩
                  | out => exact trivial

/-! ### Above the linear fuel thresholds the parser is fuel-independent -/

theorem scanIdent_rest_le {c : Char} {cs1 lex rest : Chars}
    (hc : isIdentStart c = true) (h : scanIdent (c :: cs1) = .done lex rest) :
    rest.length ≤ cs1.length := by
  obtain ⟨h1, h2, h3⟩ := scanIdent_done_eq h
  have hcid : isIdentCh c = true := by simp [isIdentCh, hc]
  rw [h2, List.dropWhile_cons, if_pos hcid]
  have h9 := @takeWhile_dropWhile_length isIdentCh cs1
  omega

theorem pOk (o : Options) (m : Bool) : ∀ f : Nat,
    (∀ cs f2, 3 * cs.length + 1 ≤ f → 3 * cs.length + 1 ≤ f2 →
      pVal o m f cs = pVal o m f2 cs ∧ pVal o m f cs ≠ .out) ∧
    (∀ acc cs f2, 3 * cs.length + 2 ≤ f → 3 * cs.length + 2 ≤ f2 →
      pObj o m f acc cs = pObj o m f2 acc cs ∧ pObj o m f acc cs ≠ .out) ∧
    (∀ acc k cs f2, 3 * cs.length + 3 ≤ f → 3 * cs.length + 3 ≤ f2 →
      pKeyed o m f acc k cs = pKeyed o m f2 acc k cs ∧ pKeyed o m f acc k cs ≠ .out) ∧
    (∀ acc k cs f2, 3 * cs.length + 2 ≤ f → 3 * cs.length + 2 ≤ f2 →
      pMemVal o m f acc k cs = pMemVal o m f2 acc k cs ∧ pMemVal o m f acc k cs ≠ .out) ∧
    (∀ acc cs f2, 3 * cs.length + 2 ≤ f → 3 * cs.length + 2 ≤ f2 →
      pArr o m f acc cs = pArr o m f2 acc cs ∧ pArr o m f acc cs ≠ .out) := by
  intro f
  induction f with
  | zero =>
    exact ⟨fun cs f2 hb _ => absurd hb (by omega),
           fun acc cs f2 hb _ => absurd hb (by omega),
           fun acc k cs f2 hb _ => absurd hb (by omega),
           fun acc k cs f2 hb _ => absurd hb (by omega),
           fun acc cs f2 hb _ => absurd hb (by omega)⟩
  | succ f ih =>
    obtain ⟨ihV, ihO, ihK, ihM, ihA⟩ := ih
    refine ⟨?_, ?_, ?_, ?_, ?_⟩
    · -- pVal
      intro cs f2 hb hb2
      cases f2 with
      | zero => omega
      | succ f3 =>
        rw [pVal, pVal]
        cases hst : striv o m cs with
        | none => exact ⟨rfl, by simp⟩
        | some r0 =>
          have hsl := striv_le o m cs r0 hst
          cases r0 with
          | nil =>
            dsimp only
            refine ⟨rfl, ?_⟩
            repeat' split
            all_goals simp
          | cons c cs1 =>
            simp only [List.length_cons] at hsl
            dsimp only
            by_cases h1 : c = lbrace
            · rw [if_pos h1, if_pos h1]
              exact ihO [] cs1 f3 (by omega) (by omega)
            · rw [if_neg h1, if_neg h1]
              by_cases h2 : c = '['
              · rw [if_pos h2, if_pos h2]
                exact ihA [] cs1 f3 (by omega) (by omega)
              · rw [if_neg h2, if_neg h2]
                refine ⟨rfl, ?_⟩
                repeat' split
                all_goals simp
    · -- pObj
      intro acc cs f2 hb hb2
      cases f2 with
      | zero => omega
      | succ f3 =>
        rw [pObj, pObj]
        cases hst : striv o m cs with
        | none => exact ⟨rfl, by simp⟩
        | some r0 =>
          have hsl := striv_le o m cs r0 hst
          cases r0 with
          | nil =>
            dsimp only
            refine ⟨rfl, ?_⟩
            repeat' split
            all_goals simp
          | cons c cs1 =>
            simp only [List.length_cons] at hsl
            dsimp only
            by_cases h1 : c = rbrace
            · rw [if_pos h1, if_pos h1]
              exact ⟨rfl, by simp⟩
            · rw [if_neg h1, if_neg h1]
              by_cases h2 : c = ']'
              · rw [if_pos h2, if_pos h2]
                exact ⟨rfl, by simp⟩
              · rw [if_neg h2, if_neg h2]
                by_cases h3 : c = ','
                · rw [if_pos h3, if_pos h3]
                  exact ihO acc cs1 f3 (by omega) (by omega)
                · rw [if_neg h3, if_neg h3]
                  by_cases h4 : isOpenQuote c = true
                  · rw [if_pos h4, if_pos h4]
                    cases hsc : scanStr (closerFor c) [] cs1 with
                    | done k rest =>
                      have hlt := scanStr_lt (closerFor c) [] cs1 k rest hsc
                      exact ihK acc (String.mk k) rest f3 (by omega) (by omega)
                    | unterminated k =>
                      dsimp only
                      refine ⟨rfl, ?_⟩
                      repeat' split
                      all_goals simp
                  · rw [if_neg h4, if_neg h4]
                    by_cases h5 : isIdentStart c = true
                    · rw [if_pos h5, if_pos h5]
                      cases hsi : scanIdent (c :: cs1) with
                      | done lex rest =>
                        have hlt := scanIdent_rest_le h5 hsi
                        exact ihK acc (String.mk lex) rest f3 (by omega) (by omega)
                      | more lex =>
                        dsimp only
                        refine ⟨rfl, ?_⟩
                        repeat' split
                        all_goals simp
                    · rw [if_neg h5, if_neg h5]
                      exact ⟨rfl, by simp⟩
    · -- pKeyed
      intro acc k cs f2 hb hb2
      cases f2 with
      | zero => omega
      | succ f3 =>
        rw [pKeyed, pKeyed]
        cases hst : striv o m cs with
        | none => exact ⟨rfl, by simp⟩
        | some r0 =>
          have hsl := striv_le o m cs r0 hst
          cases r0 with
          | nil =>
            dsimp only
            refine ⟨rfl, ?_⟩
            repeat' split
            all_goals simp
          | cons c cs1 =>
            simp only [List.length_cons] at hsl
            dsimp only
            by_cases h1 : c = ':'
            · rw [if_pos h1, if_pos h1]
              exact ihM acc k cs1 f3 (by omega) (by omega)
            · rw [if_neg h1, if_neg h1]
              by_cases h2 : c = rbrace
              · rw [if_pos h2, if_pos h2]
                exact ⟨rfl, by simp⟩
              · rw [if_neg h2, if_neg h2]
                by_cases h3 : c = ']'
                · rw [if_pos h3, if_pos h3]
                  exact ⟨rfl, by simp⟩
                · rw [if_neg h3, if_neg h3]
                  by_cases h4 : c = ','
                  · rw [if_pos h4, if_pos h4]
                    exact ihO ((k, .null) :: acc) cs1 f3 (by omega) (by omega)
                  · rw [if_neg h4, if_neg h4]
                    exact ihM acc k (c :: cs1) f3 (by simp; omega) (by simp; omega)
    · -- pMemVal
      intro acc k cs f2 hb hb2
      cases f2 with
      | zero => omega
      | succ f3 =>
        rw [pMemVal, pMemVal]
        cases hst : striv o m cs with
        | none => exact ⟨rfl, by simp⟩
        | some r0 =>
          have hsl := striv_le o m cs r0 hst
          cases r0 with
          | nil =>
            dsimp only
            refine ⟨rfl, ?_⟩
            repeat' split
            all_goals simp
          | cons c cs1 =>
            simp only [List.length_cons] at hsl
            dsimp only
            by_cases h1 : c = rbrace
            · rw [if_pos h1, if_pos h1]
              exact ⟨rfl, by simp⟩
            · rw [if_neg h1, if_neg h1]
              by_cases h2 : c = ']'
              · rw [if_pos h2, if_pos h2]
                exact ⟨rfl, by simp⟩
              · rw [if_neg h2, if_neg h2]
                by_cases h3 : c = ','
                · rw [if_pos h3, if_pos h3]
                  exact ihO ((k, .null) :: acc) cs1 f3 (by omega) (by omega)
                · rw [if_neg h3, if_neg h3]
                  obtain ⟨hveq, hvo⟩ := ihV (c :: cs1) f3 (by simp; omega) (by simp; omega)
                  rw [← hveq]
                  cases hpv : pVal o m f (c :: cs1) with
                  | ok v1 rest =>
                    have hlt := (pSize o m f).1 _ _ _ hpv
                    simp only [List.length_cons] at hlt
                    exact ihO ((k, v1) :: acc) rest f3 (by omega) (by omega)
                  | more => exact ⟨rfl, by simp⟩
                  | fail k2 n2 => exact ⟨rfl, by simp⟩
                  | out => exact absurd hpv hvo
    · -- pArr
      intro acc cs f2 hb hb2
      cases f2 with
      | zero => omega
      | succ f3 =>
        rw [pArr, pArr]
        cases hst : striv o m cs with
        | none => exact ⟨rfl, by simp⟩
        | some r0 =>
          have hsl := striv_le o m cs r0 hst
          cases r0 with
          | nil =>
            dsimp only
            refine ⟨rfl, ?_⟩
            repeat' split
            all_goals simp
          | cons c cs1 =>
            simp only [List.length_cons] at hsl
            dsimp only
            by_cases h1 : c = ']'
            · rw [if_pos h1, if_pos h1]
              exact ⟨rfl, by simp⟩
            · rw [if_neg h1, if_neg h1]
              by_cases h2 : c = rbrace
              · rw [if_pos h2, if_pos h2]
                exact ⟨rfl, by simp⟩
              · rw [if_neg h2, if_neg h2]
                by_cases h3 : c = ','
                · rw [if_pos h3, if_pos h3]
                  exact ihA acc cs1 f3 (by omega) (by omega)
                · rw [if_neg h3, if_neg h3]
                  obtain ⟨hveq, hvo⟩ := ihV (c :: cs1) f3 (by simp; omega) (by simp; omega)
                  rw [← hveq]
                  cases hpv : pVal o m f (c :: cs1) with
                  | ok v1 rest =>
                    have hlt := (pSize o m f).1 _ _ _ hpv
                    simp only [List.length_cons] at hlt
                    exact ihA (v1 :: acc) rest f3 (by omega) (by omega)
                  | more => exact ⟨rfl, by simp⟩
                  | fail k2 n2 => exact ⟨rfl, by simp⟩
                  | out => exact absurd hpv hvo

/-! ### The aggressive-truncation flag only unlocks end-of-input repairs -/

theorem striv_hash (o o' : Options) (hh : o'.tolerate_hash_comments = o.tolerate_hash_comments) :
    ∀ (m : Bool) (cs : Chars), striv o' m cs = striv o m cs
  | m, [] => by
    rw [striv.eq_def, striv.eq_def]
  | m, c0 :: cs1 => by
    rw [striv.eq_def, striv.eq_def]
    dsimp only
    rw [hh]
    split
    · exact striv_hash o o' hh m cs1
    · split
      · cases cs1 with
        | nil => rfl
        | cons d cs2 =>
          dsimp only
          split
          · split
            · rename_i r1 h1
              have h9 := skipLine_length h1
              exact striv_hash o o' hh m r1
            · rfl
          · split
            · split
              · rename_i r1 h1
                have h9 := skipBlock_length h1
                exact striv_hash o o' hh m r1
              · rfl
            · rfl
      · split
        · split
          · rename_i r1 h1
            have h9 := skipLine_length h1
            exact striv_hash o o' hh m r1
          · rfl
        · rfl
termination_by m cs => cs.length
decreasing_by
  all_goals simp only [List.length_cons] at *
  all_goals omega

theorem pAgg (o : Options) : ∀ f : Nat,
    (∀ cs v r, pVal o true f cs = .ok v r →
      pVal { o with aggressive_truncation_fix := true } true f cs = .ok v r) ∧
    (∀ acc cs v r, pObj o true f acc cs = .ok v r →
      pObj { o with aggressive_truncation_fix := true } true f acc cs = .ok v r) ∧
    (∀ acc k cs v r, pKeyed o true f acc k cs = .ok v r →
      pKeyed { o with aggressive_truncation_fix := true } true f acc k cs = .ok v r) ∧
    (∀ acc k cs v r, pMemVal o true f acc k cs = .ok v r →
      pMemVal { o with aggressive_truncation_fix := true } true f acc k cs = .ok v r) ∧
    (∀ acc cs v r, pArr o true f acc cs = .ok v r →
      pArr { o with aggressive_truncation_fix := true } true f acc cs = .ok v r) := by
  have hst9 : ∀ (m : Bool) (cs : Chars),
      striv { o with aggressive_truncation_fix := true } m cs = striv o m cs :=
    striv_hash o { o with aggressive_truncation_fix := true } rfl
  have hsn9 : scanNumber { o with aggressive_truncation_fix := true } = scanNumber o := rfl
  have hkv9 : kwValue { o with aggressive_truncation_fix := true } = kwValue o := rfl
  have hd19 : ({ o with aggressive_truncation_fix := true } : Options).number_tolerance_leading_dot =
    o.number_tolerance_leading_dot := rfl
  have hd29 : ({ o with aggressive_truncation_fix := true } : Options).normalize_js_nonfinite =
    o.normalize_js_nonfinite := rfl
  have hagg : ({ o with aggressive_truncation_fix := true } : Options).aggressive_truncation_fix =
    true := rfl
  intro f
  induction f with
  | zero =>
    exact ⟨fun cs v r h => by simp [pVal] at h,
           fun acc cs v r h => by simp [pObj] at h,
           fun acc k cs v r h => by simp [pKeyed] at h,
           fun acc k cs v r h => by simp [pMemVal] at h,
           fun acc cs v r h => by simp [pArr] at h⟩
  | succ f ih =>
    obtain ⟨ihV, ihO, ihK, ihM, ihA⟩ := ih
    refine ⟨?_, ?_, ?_, ?_, ?_⟩
    · -- pVal
      intro cs v r h
      rw [pVal] at h
      rw [pVal, hst9, hsn9, hkv9, hd19, hd29]
      cases hst : striv o true cs with
      | none =>
        rw [hst] at h
        dsimp only at h
        cases h
      | some r0 =>
        cases r0 with
        | nil =>
          rw [hst] at h
          simp at h
        | cons c cs1 =>
          rw [hst] at h
          dsimp only at h ⊢
          by_cases h1 : c = lbrace
          · rw [if_pos h1] at h ⊢
            exact ihO [] cs1 v r h
          · rw [if_neg h1] at h ⊢
            by_cases h2 : c = '['
            · rw [if_pos h2] at h ⊢
              exact ihA [] cs1 v r h
            · rw [if_neg h2] at h ⊢
              by_cases h3 : isOpenQuote c = true
              · rw [if_pos h3] at h ⊢
                cases hsc : scanStr (closerFor c) [] cs1 with
                | done s rest =>
                  rw [hsc] at h
                  dsimp only at h ⊢
                  exact h
                | unterminated s =>
                  rw [hsc] at h
                  dsimp only at h ⊢
                  rw [if_pos rfl] at h
                  rw [if_pos rfl, if_pos rfl]
                  split at h
                  · exact h
                  · cases h
              · rw [if_neg h3] at h ⊢
                by_cases h4 : isIdentStart c = true
                · rw [if_pos h4] at h ⊢
                  cases hsi : scanIdent (c :: cs1) with
                  | done lex rest =>
                    rw [hsi] at h
                    dsimp only at h ⊢
                    exact h
                  | more lex =>
                    rw [hsi] at h
                    dsimp only at h ⊢
                    rw [if_pos rfl] at h
                    rw [if_pos rfl]
                    exact h
                · rw [if_neg h4] at h ⊢
                  by_cases h5 : isDigitCh c = true
                  · rw [if_pos h5] at h ⊢
                    cases hsn : scanNumber o true (c :: cs1) with
                    | done lex rest =>
                      rw [hsn] at h
                      dsimp only at h ⊢
                      exact h
                    | more =>
                      rw [hsn] at h
                      dsimp only at h
                      cases h
                  · rw [if_neg h5] at h ⊢
                    by_cases h6 : c = '-'
                    · rw [if_pos h6] at h ⊢
                      cases cs1 with
                      | nil =>
                        dsimp only at h
                        rw [if_pos rfl] at h
                        cases h
                      | cons d cs2 =>
                        dsimp only at h ⊢
                        by_cases h7 : (isDigitCh d ||
                            (d = '.' && o.number_tolerance_leading_dot)) = true
                        · rw [if_pos h7] at h ⊢
                          cases hsn : scanNumber o true (c :: d :: cs2) with
                          | done lex rest =>
                            rw [hsn] at h
                            dsimp only at h ⊢
                            exact h
                          | more =>
                            rw [hsn] at h
                            dsimp only at h
                            cases h
                        · rw [if_neg h7] at h ⊢
                          by_cases h8 : (o.normalize_js_nonfinite &&
                              infChars.isPrefixOf (d :: cs2)) = true
                          · rw [if_pos h8] at h ⊢
                            exact h
                          · rw [if_neg h8] at h
                            split at h
                            · cases h
                            · cases h
                    · rw [if_neg h6] at h ⊢
                      by_cases h7 : (c = '.' && o.number_tolerance_leading_dot) = true
                      · rw [if_pos h7] at h ⊢
                        cases cs1 with
                        | nil =>
                          dsimp only at h
                          rw [if_pos rfl] at h
                          cases h
                        | cons d cs2 =>
                          dsimp only at h ⊢
                          by_cases h8 : isDigitCh d = true
                          · rw [if_pos h8] at h ⊢
                            cases hsn : scanNumber o true (c :: d :: cs2) with
                            | done lex rest =>
                              rw [hsn] at h
                              dsimp only at h ⊢
                              exact h
                            | more =>
                              rw [hsn] at h
                              dsimp only at h
                              cases h
                          · rw [if_neg h8] at h
                            cases h
                      · rw [if_neg h7] at h
                        cases h
    · -- pObj
      intro acc cs v r h
      rw [pObj] at h
      rw [pObj, hst9, hagg]
      cases hst : striv o true cs with
      | none =>
        rw [hst] at h
        dsimp only at h
        cases h
      | some r0 =>
        cases r0 with
        | nil =>
          rw [hst] at h
          dsimp only at h ⊢
          rw [if_pos rfl] at h
          rw [if_pos rfl, if_pos rfl]
          split at h
          · exact h
          · cases h
        | cons c cs1 =>
          rw [hst] at h
          dsimp only at h ⊢
          by_cases h1 : c = rbrace
          · rw [if_pos h1] at h ⊢
            exact h
          · rw [if_neg h1] at h ⊢
            by_cases h2 : c = ']'
            · rw [if_pos h2] at h ⊢
              exact h
            · rw [if_neg h2] at h ⊢
              by_cases h3 : c = ','
              · rw [if_pos h3] at h ⊢
                exact ihO acc cs1 v r h
              · rw [if_neg h3] at h ⊢
                by_cases h4 : isOpenQuote c = true
                · rw [if_pos h4] at h ⊢
                  cases hsc : scanStr (closerFor c) [] cs1 with
                  | done k1 rest =>
                    rw [hsc] at h
                    dsimp only at h ⊢
                    exact ihK acc (String.mk k1) rest v r h
                  | unterminated k1 =>
                    rw [hsc] at h
                    dsimp only at h ⊢
                    rw [if_pos rfl] at h
                    rw [if_pos rfl, if_pos rfl]
                    split at h
                    · exact h
                    · cases h
                · rw [if_neg h4] at h ⊢
                  by_cases h5 : isIdentStart c = true
                  · rw [if_pos h5] at h ⊢
                    cases hsi : scanIdent (c :: cs1) with
                    | done lex rest =>
                      rw [hsi] at h
                      dsimp only at h ⊢
                      exact ihK acc (String.mk lex) rest v r h
                    | more lex =>
                      rw [hsi] at h
                      dsimp only at h ⊢
                      rw [if_pos rfl] at h
                      rw [if_pos rfl, if_pos rfl]
                      split at h
                      · exact h
                      · cases h
                  · rw [if_neg h5] at h
                    cases h
    · -- pKeyed
      intro acc k cs v r h
      rw [pKeyed] at h
      rw [pKeyed, hst9, hagg]
      cases hst : striv o true cs with
      | none =>
        rw [hst] at h
        dsimp only at h
        cases h
      | some r0 =>
        cases r0 with
        | nil =>
          rw [hst] at h
          dsimp only at h ⊢
          rw [if_pos rfl] at h
          rw [if_pos rfl, if_pos rfl]
          split at h
          · exact h
          · cases h
        | cons c cs1 =>
          rw [hst] at h
          dsimp only at h ⊢
          by_cases h1 : c = ':'
          · rw [if_pos h1] at h ⊢
            exact ihM acc k cs1 v r h
          · rw [if_neg h1] at h ⊢
            by_cases h2 : c = rbrace
            · rw [if_pos h2] at h ⊢
              exact h
            · rw [if_neg h2] at h ⊢
              by_cases h3 : c = ']'
              · rw [if_pos h3] at h ⊢
                exact h
              · rw [if_neg h3] at h ⊢
                by_cases h4 : c = ','
                · rw [if_pos h4] at h ⊢
                  exact ihO ((k, .null) :: acc) cs1 v r h
                · rw [if_neg h4] at h ⊢
                  exact ihM acc k (c :: cs1) v r h
    · -- pMemVal
      intro acc k cs v r h
      rw [pMemVal] at h
      rw [pMemVal, hst9, hagg]
      cases hst : striv o true cs with
      | none =>
        rw [hst] at h
        dsimp only at h
        cases h
      | some r0 =>
        cases r0 with
        | nil =>
          rw [hst] at h
          dsimp only at h ⊢
          rw [if_pos rfl] at h
          rw [if_pos rfl, if_pos rfl]
          split at h
          · exact h
          · cases h
        | cons c cs1 =>
          rw [hst] at h
          dsimp only at h ⊢
          by_cases h1 : c = rbrace
          · rw [if_pos h1] at h ⊢
            exact h
          · rw [if_neg h1] at h ⊢
            by_cases h2 : c = ']'
            · rw [if_pos h2] at h ⊢
              exact h
            · rw [if_neg h2] at h ⊢
              by_cases h3 : c = ','
              · rw [if_pos h3] at h ⊢
                exact ihO ((k, .null) :: acc) cs1 v r h
              · rw [if_neg h3] at h ⊢
                cases hpv : pVal o true f (c :: cs1) with
                | ok v1 rest =>
                  rw [hpv] at h
                  dsimp only at h
                  rw [ihV (c :: cs1) v1 rest hpv]
                  dsimp only
                  exact ihO ((k, v1) :: acc) rest v r h
                | more =>
                  rw [hpv] at h
                  dsimp only at h
                  cases h
                | fail k2 n2 =>
                  rw [hpv] at h
                  dsimp only at h
                  cases h
                | out =>
                  rw [hpv] at h
                  dsimp only at h
                  cases h
    · -- pArr
      intro acc cs v r h
      rw [pArr] at h
      rw [pArr, hst9, hagg]
      cases hst : striv o true cs with
      | none =>
        rw [hst] at h
        dsimp only at h
        cases h
      | some r0 =>
        cases r0 with
        | nil =>
          rw [hst] at h
          dsimp only at h ⊢
          rw [if_pos rfl] at h
          rw [if_pos rfl, if_pos rfl]
          split at h
          · exact h
          · cases h
        | cons c cs1 =>
          rw [hst] at h
          dsimp only at h ⊢
          by_cases h1 : c = ']'
          · rw [if_pos h1] at h ⊢
            exact h
          · rw [if_neg h1] at h ⊢
            by_cases h2 : c = rbrace
            · rw [if_pos h2] at h ⊢
              exact h
            · rw [if_neg h2] at h ⊢
              by_cases h3 : c = ','
              · rw [if_pos h3] at h ⊢
                exact ihA acc cs1 v r h
              · rw [if_neg h3] at h ⊢
                cases hpv : pVal o true f (c :: cs1) with
                | ok v1 rest =>
                  rw [hpv] at h
                  dsimp only at h
                  rw [ihV (c :: cs1) v1 rest hpv]
                  dsimp only
                  exact ihA (v1 :: acc) rest v r h
                | more =>
                  rw [hpv] at h
                  dsimp only at h
                  cases h
                | fail k2 n2 =>
                  rw [hpv] at h
                  dsimp only at h
                  cases h
                | out =>
                  rw [hpv] at h
                  dsimp only at h
                  cases h

/-! ### Unfolding equations for the batch and stream drivers -/

theorem consumeB_eq_none {o : Options} {F : Nat} {cs : Chars}
    (h : striv o true cs = none) : consumeB o F cs = .ok [] := by
  rw [consumeB.eq_def]
  split
  · rfl
  · rfl
  · rename_i c9 r9 h9
    rw [h] at h9
    cases h9

theorem consumeB_eq_nil {o : Options} {F : Nat} {cs : Chars}
    (h : striv o true cs = some []) : consumeB o F cs = .ok [] := by
  rw [consumeB.eq_def]
  split
  · rfl
  · rfl
  · rename_i c9 r9 h9
    rw [h] at h9
    simp at h9

theorem consumeB_eq_stray {o : Options} {F : Nat} {cs : Chars} {c : Char} {r : Chars}
    (h : striv o true cs = some (c :: r)) (hs : strayCh c = true) :
    consumeB o F cs = consumeB o F r := by
  rw [consumeB.eq_def]
  split
  · rename_i h9
    rw [h] at h9
    cases h9
  · rename_i h9
    rw [h] at h9
    simp at h9
  · rename_i c9 r9 h9
    rw [h] at h9
    simp only [Option.some.injEq, List.cons.injEq] at h9
    obtain ⟨hc, hr⟩ := h9
    subst hc
    subst hr
    rw [if_pos hs]

theorem consumeB_eq_val {o : Options} {F : Nat} {cs : Chars} {c : Char} {r : Chars}
    {v : JValue} {rest : Chars}
    (h : striv o true cs = some (c :: r)) (hs : strayCh c = false)
    (hp : pVal o true F (c :: r) = .ok v rest) :
    consumeB o F cs = (consumeB o F rest).map (fun vs => v :: vs) := by
  rw [consumeB.eq_def]
  split
  · rename_i h9
    rw [h] at h9
    cases h9
  · rename_i h9
    rw [h] at h9
    simp at h9
  · rename_i c9 r9 h9
    rw [h] at h9
    simp only [Option.some.injEq, List.cons.injEq] at h9
    obtain ⟨hc, hr⟩ := h9
    subst hc
    subst hr
    rw [if_neg (by simp [hs])]
    split
    · rename_i v9 rest9 hp9
      rw [hp] at hp9
      simp only [PRes.ok.injEq] at hp9
      obtain ⟨hv, hr2⟩ := hp9
      subst hv
      subst hr2
      rfl
    · rename_i k9 rem9 hp9
      rw [hp] at hp9
      cases hp9
    · rename_i hp9
      rw [hp] at hp9
      cases hp9
    · rename_i hp9
      rw [hp] at hp9
      cases hp9

theorem consumeB_eq_fail {o : Options} {F : Nat} {cs : Chars} {c : Char} {r : Chars}
    {k : ErrKind} {rem : Nat}
    (h : striv o true cs = some (c :: r)) (hs : strayCh c = false)
    (hp : pVal o true F (c :: r) = .fail k rem) :
    consumeB o F cs = .error (k, rem) := by
  rw [consumeB.eq_def]
  split
  · rename_i h9
    rw [h] at h9
    cases h9
  · rename_i h9
    rw [h] at h9
    simp at h9
  · rename_i c9 r9 h9
    rw [h] at h9
    simp only [Option.some.injEq, List.cons.injEq] at h9
    obtain ⟨hc, hr⟩ := h9
    subst hc
    subst hr
    rw [if_neg (by simp [hs])]
    split
    · rename_i v9 rest9 hp9
      rw [hp] at hp9
      cases hp9
    · rename_i k9 rem9 hp9
      rw [hp] at hp9
      simp only [PRes.fail.injEq] at hp9
      obtain ⟨hk, hr2⟩ := hp9
      subst hk
      subst hr2
      rfl
    · rename_i hp9
      rw [hp] at hp9
      cases hp9
    · rename_i hp9
      rw [hp] at hp9
      cases hp9

theorem consumeS_eq_none {o : Options} {F : Nat} {cs : Chars}
    (h : striv o false cs = none) : consumeS o F cs = ([], none, cs) := by
  rw [consumeS.eq_def]
  split
  · rfl
  · rfl
  · rename_i c9 r9 h9
    rw [h] at h9
    cases h9

theorem consumeS_eq_nil {o : Options} {F : Nat} {cs : Chars}
    (h : striv o false cs = some []) : consumeS o F cs = ([], none, cs) := by
  rw [consumeS.eq_def]
  split
  · rfl
  · rfl
  · rename_i c9 r9 h9
    rw [h] at h9
    simp at h9

theorem consumeS_eq_stray {o : Options} {F : Nat} {cs : Chars} {c : Char} {r : Chars}
    (h : striv o false cs = some (c :: r)) (hs : strayCh c = true) :
    consumeS o F cs = consumeS o F r := by
  rw [consumeS.eq_def]
  split
  · rename_i h9
    rw [h] at h9
    cases h9
  · rename_i h9
    rw [h] at h9
    simp at h9
  · rename_i c9 r9 h9
    rw [h] at h9
    simp only [Option.some.injEq, List.cons.injEq] at h9
    obtain ⟨hc, hr⟩ := h9
    subst hc
    subst hr
    rw [if_pos hs]

theorem consumeS_eq_val {o : Options} {F : Nat} {cs : Chars} {c : Char} {r : Chars}
    {v : JValue} {rest : Chars}
    (h : striv o false cs = some (c :: r)) (hs : strayCh c = false)
    (hp : pVal o false F (c :: r) = .ok v rest) :
    consumeS o F cs =
      (v :: (consumeS o F rest).1, (consumeS o F rest).2.1, (consumeS o F rest).2.2) := by
  rw [consumeS.eq_def]
  split
  · rename_i h9
    rw [h] at h9
    cases h9
  · rename_i h9
    rw [h] at h9
    simp at h9
  · rename_i c9 r9 h9
    rw [h] at h9
    simp only [Option.some.injEq, List.cons.injEq] at h9
    obtain ⟨hc, hr⟩ := h9
    subst hc
    subst hr
    rw [if_neg (by simp [hs])]
    split
    · rename_i v9 rest9 hp9
      rw [hp] at hp9
      simp only [PRes.ok.injEq] at hp9
      obtain ⟨hv, hr2⟩ := hp9
      subst hv
      subst hr2
      rfl
    · rename_i hp9
      rw [hp] at hp9
      cases hp9
    · rename_i k9 rem9 hp9
      rw [hp] at hp9
      cases hp9
    · rename_i hp9
      rw [hp] at hp9
      cases hp9

theorem consumeS_eq_more {o : Options} {F : Nat} {cs : Chars} {c : Char} {r : Chars}
    (h : striv o false cs = some (c :: r)) (hs : strayCh c = false)
    (hp : pVal o false F (c :: r) = .more) :
    consumeS o F cs = ([], none, cs) := by
  rw [consumeS.eq_def]
  split
  · rename_i h9
    rw [h] at h9
    try cases h9
  · rename_i h9
    rw [h] at h9
    try simp at h9
  · rename_i c9 r9 h9
    rw [h] at h9
    simp only [Option.some.injEq, List.cons.injEq] at h9
    obtain ⟨hc, hr⟩ := h9
    subst hc
    subst hr
    rw [if_neg (by simp [hs])]
    split
    · rename_i v9 rest9 hp9
      rw [hp] at hp9
      cases hp9
    · rename_i hp9
      rfl
    · rename_i k9 rem9 hp9
      rw [hp] at hp9
      cases hp9
    · rename_i hp9
      rw [hp] at hp9
      cases hp9

/-! ### Fuel change and aggressive-flag stability of the batch driver -/

theorem consumeB_fuel (o : Options) : ∀ n : Nat, ∀ cs : Chars, cs.length ≤ n →
    ∀ F1 F2 : Nat, fuelFor cs ≤ F1 → fuelFor cs ≤ F2 →
    consumeB o F1 cs = consumeB o F2 cs := by
  intro n
  induction n with
  | zero =>
    intro cs hn F1 F2 h1 h2
    cases hst : striv o true cs with
    | none => rw [consumeB_eq_none hst, consumeB_eq_none hst]
    | some r0 =>
      cases r0 with
      | nil => rw [consumeB_eq_nil hst, consumeB_eq_nil hst]
      | cons c r =>
        have hlen := striv_le o true cs _ hst
        simp only [List.length_cons] at hlen
        omega
  | succ n ih =>
    intro cs hn F1 F2 h1 h2
    cases hst : striv o true cs with
    | none => rw [consumeB_eq_none hst, consumeB_eq_none hst]
    | some r0 =>
      cases r0 with
      | nil => rw [consumeB_eq_nil hst, consumeB_eq_nil hst]
      | cons c r =>
        have hlen := striv_le o true cs _ hst
        simp only [List.length_cons] at hlen
        by_cases hs : strayCh c = true
        · rw [consumeB_eq_stray hst hs, consumeB_eq_stray hst hs]
          refine ih r (by omega) F1 F2 ?_ ?_
          · unfold fuelFor at h1 ⊢
            omega
          · unfold fuelFor at h2 ⊢
            omega
        · have hs' : strayCh c = false := by simpa using hs
          have hT1 : 3 * (c :: r).length + 1 ≤ F1 := by
            unfold fuelFor at h1
            simp only [List.length_cons]
            omega
          have hT2 : 3 * (c :: r).length + 1 ≤ F2 := by
            unfold fuelFor at h2
            simp only [List.length_cons]
            omega
          obtain ⟨hpeq, hpout⟩ := (pOk o true F1).1 (c :: r) F2 hT1 hT2
          cases hp : pVal o true F1 (c :: r) with
          | ok v rest =>
            have hp2 : pVal o true F2 (c :: r) = .ok v rest := by
              rw [← hpeq, hp]
            rw [consumeB_eq_val hst hs' hp, consumeB_eq_val hst hs' hp2]
            have hsz := (pSize o true F1).1 _ _ _ hp
            simp only [List.length_cons] at hsz
            rw [ih rest (by omega) F1 F2
              (by unfold fuelFor at h1 ⊢; omega)
              (by unfold fuelFor at h2 ⊢; omega)]
          | fail k rem =>
            have hp2 : pVal o true F2 (c :: r) = .fail k rem := by
              rw [← hpeq, hp]
            rw [consumeB_eq_fail hst hs' hp, consumeB_eq_fail hst hs' hp2]
          | more =>
            have hp2 : pVal o true F2 (c :: r) = .more := by
              rw [← hpeq, hp]
            rw [consumeB.eq_def, consumeB.eq_def]
            split
            · rename_i h9
              rw [hst] at h9
              try cases h9
            · rename_i h9
              rw [hst] at h9
              try simp at h9
            · rename_i c9 r9 h9
              rw [hst] at h9
              simp only [Option.some.injEq, List.cons.injEq] at h9
              obtain ⟨hc, hr⟩ := h9
              subst hc
              subst hr
              rw [if_neg (by simp [hs']), if_neg (by simp [hs']), hp, hp2]
          | out => exact (hpout hp).elim

theorem consumeB_agg (o : Options) : ∀ n : Nat, ∀ cs : Chars, cs.length ≤ n →
    ∀ F vs, consumeB o F cs = .ok vs →
    consumeB { o with aggressive_truncation_fix := true } F cs = .ok vs := by
  have hsh : ∀ (m : Bool) (cs : Chars),
      striv { o with aggressive_truncation_fix := true } m cs = striv o m cs :=
    striv_hash o { o with aggressive_truncation_fix := true } rfl
  intro n
  induction n with
  | zero =>
    intro cs hn F vs h
    cases hst : striv o true cs with
    | none =>
      rw [consumeB_eq_none hst] at h
      rw [consumeB_eq_none (by rw [hsh]; exact hst), ← h]
    | some r0 =>
      cases r0 with
      | nil =>
        rw [consumeB_eq_nil hst] at h
        rw [consumeB_eq_nil (by rw [hsh]; exact hst), ← h]
      | cons c r =>
        have hlen := striv_le o true cs _ hst
        simp only [List.length_cons] at hlen
        omega
  | succ n ih =>
    intro cs hn F vs h
    cases hst : striv o true cs with
    | none =>
      rw [consumeB_eq_none hst] at h
      rw [consumeB_eq_none (by rw [hsh]; exact hst), ← h]
    | some r0 =>
      cases r0 with
      | nil =>
        rw [consumeB_eq_nil hst] at h
        rw [consumeB_eq_nil (by rw [hsh]; exact hst), ← h]
      | cons c r =>
        have hlen := striv_le o true cs _ hst
        simp only [List.length_cons] at hlen
        have hst2 : striv { o with aggressive_truncation_fix := true } true cs =
            some (c :: r) := by
          rw [hsh]
          exact hst
        by_cases hs : strayCh c = true
        · rw [consumeB_eq_stray hst hs] at h
          rw [consumeB_eq_stray hst2 hs]
          exact ih r (by omega) F vs h
        · have hs' : strayCh c = false := by simpa using hs
          cases hp : pVal o true F (c :: r) with
          | ok v rest =>
            have hp2 := (pAgg o F).1 _ _ _ hp
            rw [consumeB_eq_val hst hs' hp] at h
            rw [consumeB_eq_val hst2 hs' hp2]
            cases hcb : consumeB o F rest with
            | error e =>
              rw [hcb] at h
              simp [Except.map] at h
            | ok vs' =>
              rw [hcb] at h
              simp only [Except.map, Except.ok.injEq] at h
              have hsz := (pSize o true F).1 _ _ _ hp
              simp only [List.length_cons] at hsz
              rw [ih rest (by omega) F vs' hcb]
              simp only [Except.map, Except.ok.injEq]
              exact h
          | fail k rem =>
            rw [consumeB_eq_fail hst hs' hp] at h
            cases h
          | more =>
            rw [consumeB.eq_def] at h
            split at h
            · rename_i h9
              rw [hst] at h9
              cases h9
            · rename_i h9
              rw [hst] at h9
              simp at h9
            · rename_i c9 r9 h9
              rw [hst] at h9
              simp only [Option.some.injEq, List.cons.injEq] at h9
              obtain ⟨hc, hr⟩ := h9
              subst hc
              subst hr
              rw [if_neg (by simp [hs']), hp] at h
              dsimp only at h
              cases h
          | out =>
            rw [consumeB.eq_def] at h
            split at h
            · rename_i h9
              rw [hst] at h9
              cases h9
            · rename_i h9
              rw [hst] at h9
              simp at h9
            · rename_i c9 r9 h9
              rw [hst] at h9
              simp only [Option.some.injEq, List.cons.injEq] at h9
              obtain ⟨hc, hr⟩ := h9
              subst hc
              subst hr
              rw [if_neg (by simp [hs']), hp] at h
              dsimp only at h
              cases h

/-! ### Streaming consumes a prefix of what the batch driver accepts -/

theorem consumeS_prefix (o : Options) : ∀ n : Nat, ∀ buf : Chars, buf.length ≤ n →
    ∀ (rest : Chars) (vs : List JValue) (F Fb : Nat),
      fuelFor buf ≤ F → fuelFor (buf ++ rest) ≤ Fb →
      consumeB o Fb (buf ++ rest) = .ok vs →
      ∃ vs1 left vs2, consumeS o F buf = (vs1, none, left) ∧ vs = vs1 ++ vs2 ∧
        left.length ≤ buf.length ∧ consumeB o Fb (left ++ rest) = .ok vs2 := by
  intro n
  induction n with
  | zero =>
    intro buf hn rest vs F Fb hF hFb h
    cases hst : striv o false buf with
    | none => exact ⟨[], buf, vs, consumeS_eq_none hst, rfl, Nat.le_refl _, h⟩
    | some r0 =>
      cases r0 with
      | nil => exact ⟨[], buf, vs, consumeS_eq_nil hst, rfl, Nat.le_refl _, h⟩
      | cons c r =>
        have hlen := striv_le o false buf _ hst
        simp only [List.length_cons] at hlen
        omega
  | succ n ih =>
    intro buf hn rest vs F Fb hF hFb h
    cases hst : striv o false buf with
    | none => exact ⟨[], buf, vs, consumeS_eq_none hst, rfl, Nat.le_refl _, h⟩
    | some r0 =>
      cases r0 with
      | nil => exact ⟨[], buf, vs, consumeS_eq_nil hst, rfl, Nat.le_refl _, h⟩
      | cons c r =>
        have hlen := striv_le o false buf _ hst
        simp only [List.length_cons] at hlen
        have hstB : striv o true (buf ++ rest) = some (c :: (r ++ rest)) :=
          striv_mode o (buf ++ rest) _ (striv_append o buf c r rest hst)
        by_cases hs : strayCh c = true
        · rw [consumeS_eq_stray hst hs]
          rw [consumeB_eq_stray hstB hs] at h
          obtain ⟨vs1, left, vs2, hc1, hc2, hc3, hc4⟩ :=
            ih r (by omega) rest vs F Fb
              (by unfold fuelFor at hF ⊢; omega)
              (by unfold fuelFor at hFb ⊢; simp only [List.length_append] at hFb ⊢; omega)
              h
          exact ⟨vs1, left, vs2, hc1, hc2, by omega, hc4⟩
        · have hs' : strayCh c = false := by simpa using hs
          have hT1 : 3 * (c :: r).length + 1 ≤ F := by
            unfold fuelFor at hF
            simp only [List.length_cons]
            omega
          have hT2 : 3 * (c :: (r ++ rest)).length + 1 ≤ Fb := by
            unfold fuelFor at hFb
            simp only [List.length_cons, List.length_append] at hFb ⊢
            omega
          have hT2' : 3 * (c :: (r ++ rest)).length + 1 ≤ F + Fb := by omega
          cases hp : pVal o false F (c :: r) with
          | ok v rest1 =>
            have hext := (pExt o true F).1 (c :: r) (F + Fb) rest (Nat.le_add_right F Fb)
            rw [hp] at hext
            have hext' : pVal o true (F + Fb) ((c :: r) ++ rest) = .ok v (rest1 ++ rest) :=
              hext
            simp only [List.cons_append] at hext'
            have hq := ((pOk o true (F + Fb)).1 (c :: (r ++ rest)) Fb hT2' hT2).1
            have hpB : pVal o true Fb (c :: (r ++ rest)) = .ok v (rest1 ++ rest) := by
              rw [← hq]
              exact hext'
            rw [consumeB_eq_val hstB hs' hpB] at h
            cases hcb : consumeB o Fb (rest1 ++ rest) with
            | error e =>
              rw [hcb] at h
              simp [Except.map] at h
            | ok vs' =>
              rw [hcb] at h
              simp only [Except.map, Except.ok.injEq] at h
              have hsz := (pSize o false F).1 _ _ _ hp
              simp only [List.length_cons] at hsz
              obtain ⟨vs1, left, vs2, hc1, hc2, hc3, hc4⟩ :=
                ih rest1 (by omega) rest vs' F Fb
                  (by unfold fuelFor at hF ⊢; omega)
                  (by unfold fuelFor at hFb ⊢; simp only [List.length_append] at hFb ⊢; omega)
                  hcb
              refine ⟨v :: vs1, left, vs2, ?_, ?_, by omega, hc4⟩
              · rw [consumeS_eq_val hst hs' hp, hc1]
              · rw [← h, hc2]
                rfl
          | more =>
            exact ⟨[], buf, vs, consumeS_eq_more hst hs' hp, rfl, Nat.le_refl _, h⟩
          | fail k rem =>
            have hext := (pExt o true F).1 (c :: r) (F + Fb) rest (Nat.le_add_right F Fb)
            rw [hp] at hext
            have hext2 : ∃ n9, pVal o true (F + Fb) ((c :: r) ++ rest) = .fail k n9 := hext
            obtain ⟨n9, hn9⟩ := hext2
            simp only [List.cons_append] at hn9
            have hq := ((pOk o true (F + Fb)).1 (c :: (r ++ rest)) Fb hT2' hT2).1
            have hpB : pVal o true Fb (c :: (r ++ rest)) = .fail k n9 := by
              rw [← hq]
              exact hn9
            rw [consumeB_eq_fail hstB hs' hpB] at h
            cases h
          | out =>
            have hno := ((pOk o false F).1 (c :: r) F hT1 hT1).2
            exact (hno hp).elim

/-- The concatenation of a chunk list, as the character stream the batch
repair would see. -/
def chunksData (chunks : List String) : Chars :=
  chunks.foldr (fun c acc => c.data ++ acc) []

/-- Driving every push over any segmentation of an input the batch driver
accepts: no push reports an error, the pushes emit a prefix of the batch
value sequence, and the leftover carry buffer still parses to the remaining
values. -/
theorem streamSteps_sound (o : Options) :
    ∀ (chunks : List String) (b : Chars) (e : Nat) (ag : Bool) (vsR : List JValue),
    consumeB o (fuelFor (b ++ chunksData chunks)) (b ++ chunksData chunks) = .ok vsR →
    ∃ outs vals stF,
      streamSteps ⟨o, b, e, ag⟩ chunks = (outs, vals, [], stF) ∧ stF.o = o ∧
      ∃ vsF, consumeB o (fuelFor stF.buf) stF.buf = .ok vsF ∧ vsR = vals ++ vsF := by
  intro chunks
  induction chunks with
  | nil =>
    intro b e ag vsR h
    refine ⟨[], [], ⟨o, b, e, ag⟩, rfl, rfl, vsR, ?_, rfl⟩
    rw [show b ++ chunksData [] = b from by simp [chunksData]] at h
    exact h
  | cons c cs ih =>
    intro b e ag vsR h
    have hassoc : b ++ chunksData (c :: cs) = (b ++ c.data) ++ chunksData cs := by
      simp [chunksData]
    rw [hassoc] at h
    obtain ⟨vs1, left, vs2, hc1, hc2, hc3, hc4⟩ :=
      consumeS_prefix o (b ++ c.data).length (b ++ c.data) (Nat.le_refl _)
        (chunksData cs) vsR (fuelFor (b ++ c.data))
        (fuelFor ((b ++ c.data) ++ chunksData cs)) (Nat.le_refl _) (Nat.le_refl _) h
    have hfle : fuelFor (left ++ chunksData cs) ≤
        fuelFor ((b ++ c.data) ++ chunksData cs) := by
      have hc3' := hc3
      simp only [List.length_append] at hc3'
      unfold fuelFor
      simp only [List.length_append]
      omega
    have hc4' : consumeB o (fuelFor (left ++ chunksData cs)) (left ++ chunksData cs) =
        .ok vs2 := by
      rw [← consumeB_fuel o (left ++ chunksData cs).length (left ++ chunksData cs)
        (Nat.le_refl _) (fuelFor ((b ++ c.data) ++ chunksData cs))
        (fuelFor (left ++ chunksData cs)) hfle (Nat.le_refl _)]
      exact hc4
    obtain ⟨outs2, vals2, stF, hS, hFo, vsF, hFB, hsplit⟩ :=
      ih left (e + vs1.length) (ag || (o.stream_ndjson_aggregate && !vs1.isEmpty)) vs2 hc4'
    have hpush : streamPushEx ⟨o, b, e, ag⟩ c =
        ((if (fmtVals o e ag vs1).isEmpty then none
            else some (String.mk (fmtVals o e ag vs1))),
         none,
         (⟨o, left, e + vs1.length,
           ag || (o.stream_ndjson_aggregate && !vs1.isEmpty)⟩ : StreamSt)) := by
      rw [streamPushEx]
      dsimp only
      rw [hc1]
    have hstep : streamSteps ⟨o, b, e, ag⟩ (c :: cs) =
        ((match (if (fmtVals o e ag vs1).isEmpty then none
            else some (String.mk (fmtVals o e ag vs1))) with
          | some s => s.data
          | none => []) ++ outs2,
         vs1 ++ vals2, [], stF) := by
      rw [streamSteps]
      dsimp only
      rw [hpush, hc1]
      dsimp only
      rw [hS]
      simp
    exact ⟨_, vs1 ++ vals2, stF, hstep, hFo, vsF, hFB,
      by rw [hc2, hsplit, List.append_assoc]⟩

/-- Whenever the batch driver accepts the whole input, a streaming session
over any segmentation of it pushes without error, flushes without error,
and parses exactly the batch value sequence. -/
theorem streamRun_batch (o : Options) (chunks : List String) (vs : List JValue)
    (h : consumeB o (fuelFor (chunksData chunks)) (chunksData chunks) = .ok vs) :
    (streamRun o chunks).vals = vs ∧ (streamRun o chunks).pushErrs = [] ∧
    (streamRun o chunks).flushErr = none := by
  have h0 : consumeB o (fuelFor ([] ++ chunksData chunks)) ([] ++ chunksData chunks) =
      .ok vs := h
  obtain ⟨outs, vals, stF, hS, hFo, vsF, hFB, hsplit⟩ :=
    streamSteps_sound o chunks [] 0 false vs h0
  have hAB : consumeB { o with aggressive_truncation_fix := true }
      (fuelFor stF.buf) stF.buf = .ok vsF :=
    consumeB_agg o stF.buf.length stF.buf (Nat.le_refl _) _ _ hFB
  rw [streamRun]
  dsimp only
  rw [show streamNew o = (⟨o, [], 0, false⟩ : StreamSt) from rfl]
  rw [hS]
  dsimp only
  rw [streamFlushEx]
  dsimp only
  rw [hFo, hAB]
  dsimp only
  exact ⟨hsplit.symm, rfl, rfl⟩

/-! ### Claim theorems: API-level error handling and option gating -/

/-- C6: a null input pointer makes `jsonrepair_repair` return null, and
`jsonrepair_repair_ex` classifies the same case as the `InvalidInput` error
kind with a null output. -/
theorem c6_null_input_returns_null (o : Options) (r : ErrRec) :
    jrRepairC none = none ∧
    (jrRepairEx o none r).1 = none ∧
    (jrRepairEx o none r).2.code = ErrKind.invalidInput := by
  exact ⟨rfl, rfl, rfl⟩

unseal natDigits scanStr striv consumeB in
/-- C2 counterexample: under the DEFAULT options the conversions are on —
`allow_python_keywords` and `repair_undefined` default to true (the
complex-repair test demands the conversions with no options set), so each
of the identifiers `True`, `False`, `None` and `undefined` in value
position is converted, not rescued as a bare string. -/
theorem c2_default_converts :
    defaultOptions.allow_python_keywords = true ∧
    defaultOptions.repair_undefined = true ∧
    jrRepair "\x7ba: True, b: False, c: None, d: undefined\x7d" =
      some "\x7b\"a\":true,\"b\":false,\"c\":null,\"d\":null\x7d" ∧
    jrRepair "\x7bname: 'John', age: 30, active: True, data: undefined\x7d" =
      some "\x7b\"name\":\"John\",\"age\":30,\"active\":true,\"data\":null\x7d" :=
  ⟨rfl, rfl, rfl, rfl⟩

unseal natDigits scanStr striv consumeB in
/-- C2 (amended): each of the identifiers `True`, `False`, `None` in value
position becomes the keyword `true`, `false`, `null` exactly when
`allow_python_keywords` is enabled and a bare string otherwise, and
`undefined` becomes `null` exactly when `repair_undefined` is enabled and
a bare string otherwise, independently, all other options held at their
defaults; with the keyword flag on, the three-keyword input of
test_python_keywords repairs to exactly the output the test demands. -/
theorem c2_keyword_option_gating (p u : Bool) :
    jrRepairWith
        { defaultOptions with allow_python_keywords := p, repair_undefined := u }
        "\x7ba: True, b: False, c: None, d: undefined\x7d" =
      some ("\x7b\"a\":" ++ (if p then "true" else "\"True\"") ++
            ",\"b\":" ++ (if p then "false" else "\"False\"") ++
            ",\"c\":" ++ (if p then "null" else "\"None\"") ++
            ",\"d\":" ++ (if u then "null" else "\"undefined\"") ++ "\x7d") ∧
    jrRepairWith { defaultOptions with allow_python_keywords := true }
        "\x7ba: True, b: False, c: None\x7d" =
      some "\x7b\"a\":true,\"b\":false,\"c\":null\x7d" := by
  cases p <;> cases u <;> exact ⟨rfl, rfl⟩

unseal natDigits scanStr striv consumeB consumeS in
/-- C7: pushing a chunk that ends inside an incomplete top-level value
returns no output and no error and keeps the bytes in the carry buffer; a
later push completing the value emits the repaired document. -/
theorem c7_partial_push_buffers :
    (streamPushEx (streamNew defaultOptions) "\x7ba:").1 = none ∧
    (streamPushEx (streamNew defaultOptions) "\x7ba:").2.1 = none ∧
    (streamPushEx (streamNew defaultOptions) "\x7ba:").2.2.buf = [lbrace, 'a', ':'] ∧
    (streamPush ((streamPush (streamNew defaultOptions) "\x7ba:").2) "1\x7d").1 =
      some "\x7b\"a\":1\x7d" :=
  ⟨rfl, rfl, rfl, rfl⟩

unseal natDigits scanStr striv consumeB in
/-- C8: every error from the repair pipeline carries a position no larger
than the input length, and on the truncated input of the error-handling
example — open frames with a missing member value, aggressive truncation
off by default — `jsonrepair_repair_ex` returns null and populates the
record with the `UnterminatedContainer` kind at position 8 = the input
length. -/
theorem c8_unterminated_position (o : Options) (s : String) (e : RepErr)
    (h : repairCore o s = Except.error e) :
    e.pos ≤ s.length ∧
    jrRepairEx defaultOptions (some "\x7ba:1, b:") zeroRec =
      (none, { code := ErrKind.unterminatedContainer, position := 8,
               message := some "repair failed" }) :=
  ⟨repairCore_pos_le o s e h, rfl⟩

unseal natDigits scanStr striv consumeB in
theorem c8_unterminated_position_witness :
    (RepErr.mk ErrKind.unterminatedContainer 8).pos ≤ ("\x7ba:1, b:" : String).length ∧
    jrRepairEx defaultOptions (some "\x7ba:1, b:") zeroRec =
      (none, { code := ErrKind.unterminatedContainer, position := 8,
               message := some "repair failed" }) :=
  c8_unterminated_position defaultOptions "\x7ba:1, b:"
    (RepErr.mk ErrKind.unterminatedContainer 8) rfl

/-- C10: whenever `jsonrepair_repair_ex` returns a non-null output, the
caller-supplied error record is returned untouched — the record is
populated only on a null return. -/
theorem c10_success_leaves_record (o : Options) (s : String) (r : ErrRec) (out : String)
    (h : (jrRepairEx o (some s) r).1 = some out) :
    (jrRepairEx o (some s) r).2 = r := by
  rw [jrRepairEx] at h ⊢
  cases hrc : repairCore o s with
  | ok v => simp [hrc]
  | error e => simp [hrc] at h

unseal natDigits scanStr striv consumeB in
theorem c10_success_leaves_record_witness :
    (jrRepairEx defaultOptions (some "\x7ba:1\x7d") zeroRec).2 = zeroRec :=
  c10_success_leaves_record defaultOptions "\x7ba:1\x7d" zeroRec "\x7b\"a\":1\x7d" rfl

/-- C5: when `ensure_ascii` is on, every code point of any non-null output
of the repair pipeline is at most 0x7F (so every UTF-8 byte of the output is
at most 0x7F), every higher code point having been emitted as a `\uXXXX`
escape (per `escCharJ`, as a surrogate pair from 0x10000 up). -/
theorem c5_ensure_ascii_output (o : Options) (s out : String)
    (ho : o.ensure_ascii = true) (h : jrRepairWith o s = some out) :
    out.data.all asciiCh = true := by
  rw [jrRepairWith] at h
  cases hrc : repairCore o s with
  | error e =>
    rw [hrc] at h
    simp [Except.toOption] at h
  | ok r =>
    rw [hrc] at h
    simp only [Except.toOption, Option.some.injEq] at h
    obtain ⟨v, hv, he⟩ := repairCore_lexOK hrc
    rw [← h, he]
    exact emitVal_ascii ho v hv

unseal natDigits scanStr striv consumeB in
theorem c5_ensure_ascii_output_witness :
    ("\x7b\"name\":\"\\u4e2d\\u6587\"\x7d" : String).data.all asciiCh = true :=
  c5_ensure_ascii_output { defaultOptions with ensure_ascii := true }
    "\x7bname: '中文'\x7d" "\x7b\"name\":\"\\u4e2d\\u6587\"\x7d" rfl rfl

unseal natDigits scanStr striv consumeB consumeS in
theorem c9_aggregate_forms_array_witness :
    (streamRun { defaultOptions with stream_ndjson_aggregate := true }
        ["\x7ba: 1\x7d\n", "\x7bb: 2\x7d\n", "\x7bc: 3\x7d\n"]).out =
      emitVal { defaultOptions with stream_ndjson_aggregate := true }
        (JValue.arr (streamRun { defaultOptions with stream_ndjson_aggregate := true }
          ["\x7ba: 1\x7d\n", "\x7bb: 2\x7d\n", "\x7bc: 3\x7d\n"]).vals) :=
  c9_aggregate_forms_array { defaultOptions with stream_ndjson_aggregate := true }
    ["\x7ba: 1\x7d\n", "\x7bb: 2\x7d\n", "\x7bc: 3\x7d\n"] rfl rfl

unseal natDigits scanStr striv consumeB sScanStr in
/-- C1: the one-shot repair either returns null or returns bytes that parse
cleanly under the strict RFC 8259 parser; in particular the repair of
the bare-key object input of test_simple_repair is exactly its strictly
quoted form. -/
theorem c1_strict_output :
    (∀ s out : String, jrRepair s = some out → ∃ w, strictParseDoc out.data = some w) ∧
    jrRepair "\x7ba:1\x7d" = some "\x7b\"a\":1\x7d" ∧
    strictParseDoc ("\x7b\"a\":1\x7d" : String).data =
      some (.obj [("a", .num "1")]) := by
  refine ⟨?_, ?_, ?_⟩
  · intro s out h
    rw [jrRepair, jrRepairWith] at h
    cases hrc : repairCore defaultOptions s with
    | error e =>
      rw [hrc] at h
      simp [Except.toOption] at h
    | ok r =>
      rw [hrc] at h
      simp only [Except.toOption, Option.some.injEq] at h
      obtain ⟨v, hv, he⟩ := repairCore_lexOK hrc
      refine ⟨v, ?_⟩
      rw [← h, he]
      exact strict_roundtrip defaultOptions hv
  · rfl
  · rfl

unseal natDigits scanStr striv consumeB sScanStr in
theorem c1_strict_output_witness :
    ∃ w, strictParseDoc ("\x7b\"a\":1\x7d" : String).data = some w :=
  c1_strict_output.1 "\x7ba:1\x7d" "\x7b\"a\":1\x7d" rfl

/-- C4: an input that is already strict JSON repairs to non-null output whose
strict re-parse yields the very same value — object members, and so their
order, are compared structurally. -/
theorem c4_idempotent_on_strict (s : String) (v : JValue)
    (h : strictParseDoc s.data = some v) :
    ∃ out : String, jrRepair s = some out ∧ strictParseDoc out.data = some v := by
  have hlex : vLexOK v = true := by
    rw [strictParseDoc] at h
    split at h
    · rename_i v0 r hsv
      split at h
      · simp only [Option.some.injEq] at h
        subst h
        exact (pLex defaultOptions true (fuelFor s.data)).1 _ _ _
          ((pSub defaultOptions (fuelFor s.data)).1 _ _ _ hsv)
      · cases h
    · cases h
  have hcore := strict_repairCore defaultOptions rfl rfl h
  refine ⟨String.mk (emitVal defaultOptions v), ?_, ?_⟩
  · rw [jrRepair, jrRepairWith, hcore]
    rfl
  · rw [show (String.mk (emitVal defaultOptions v)).data =
      emitVal defaultOptions v from rfl]
    exact strict_roundtrip defaultOptions hlex

unseal natDigits scanStr striv consumeB sScanStr in
theorem c4_idempotent_on_strict_witness :
    ∃ out : String, jrRepair "\x7b\"a\":1\x7d" = some out ∧
      strictParseDoc out.data = some (.obj [("a", .num "1")]) :=
  c4_idempotent_on_strict "\x7b\"a\":1\x7d" (.obj [("a", .num "1")]) rfl

/-- C3 (amended): the spec's stream-equals-batch promise holds on the
success side — for every option set with fenced code blocks off, whenever
the one-shot batch repair accepts an input, a streaming session fed the
same bytes under ANY segmentation into chunks raises no push error and no
flush error and parses exactly the batch driver's value sequence, so its
output differs from the batch document only in separator form. -/
theorem c3_stream_matches_batch (o : Options) (chunks : List String) (s out : String)
    (hfc : o.fenced_code_blocks = false)
    (hs : s.data = chunksData chunks)
    (hb : repairCore o s = .ok out) :
    ∃ vs, consumeB o (fuelFor s.data) s.data = .ok vs ∧
      (streamRun o chunks).vals = vs ∧
      (streamRun o chunks).pushErrs = [] ∧
      (streamRun o chunks).flushErr = none := by
  rw [repairCore] at hb
  rw [hfc] at hb
  rw [if_neg (by decide : ¬(false = true))] at hb
  dsimp only at hb
  cases hcb : consumeB o (fuelFor s.data) s.data with
  | error e =>
    obtain ⟨k, rem⟩ := e
    rw [hcb] at hb
    dsimp only at hb
    cases hb
  | ok vs =>
    have hcb2 := hcb
    rw [hs] at hcb2
    obtain ⟨hv, hp, hf⟩ := streamRun_batch o chunks vs hcb2
    exact ⟨vs, rfl, hv, hp, hf⟩

unseal natDigits scanStr striv consumeB consumeS in
theorem c3_stream_matches_batch_witness :
    defaultOptions.fenced_code_blocks = false ∧
    ("[1,2]" : String).data = chunksData ["[1,", "2]"] ∧
    repairCore defaultOptions "[1,2]" = .ok "[1,2]" ∧
    ∃ vs, consumeB defaultOptions (fuelFor ("[1,2]" : String).data)
        ("[1,2]" : String).data = .ok vs ∧
      (streamRun defaultOptions ["[1,", "2]"]).vals = vs ∧
      (streamRun defaultOptions ["[1,", "2]"]).pushErrs = [] ∧
      (streamRun defaultOptions ["[1,", "2]"]).flushErr = none :=
  ⟨rfl, rfl, rfl,
   c3_stream_matches_batch defaultOptions ["[1,", "2]"] "[1,2]" "[1,2]" rfl rfl rfl⟩

unseal natDigits scanStr striv consumeB consumeS in
/-- C3 counterexample to the literal claim: on the truncated object input
of three bytes the batch repair fails with `UnterminatedContainer` at
position 3, while the streaming session over the same bytes pushes and
flushes without error and emits a repaired document — the terminal flush
forces aggressive truncation fixing, which the batch driver never enables,
so streaming and batch disagree whenever only that forced repair can close
the input. -/
theorem c3_batch_stream_divergence :
    repairCore defaultOptions "\x7ba:" =
      .error ⟨ErrKind.unterminatedContainer, 3⟩ ∧
    (streamRun defaultOptions ["\x7ba:"]).pushErrs = [] ∧
    (streamRun defaultOptions ["\x7ba:"]).flushErr = none ∧
    (streamRun defaultOptions ["\x7ba:"]).vals = [.obj [("a", .null)]] ∧
    (streamRun defaultOptions ["\x7ba:"]).out = ("\x7b\"a\":null\x7d" : String).data :=
  ⟨rfl, rfl, rfl, rfl, rfl⟩

end JsonRepair